import Mathlib

/-!
Verification of the schema-analyzer core (graph model, identifier scheme,
builder, sub-model extraction, visitor driver and scoring pipeline) against
its natural-language specification.

The Lean definitions below are a shallow embedding of the Python modules
schema_analyzer.graph_base, schema_analyzer.metadata,
schema_analyzer.graph_metadata, schema_analyzer.graph,
schema_analyzer.scoring, schema_analyzer.scoring_cols,
schema_analyzer.scoring_type, schema_analyzer.scoring_key_dq,
schema_analyzer.scoring_keyword and schema_analyzer.utils.

Conventions used throughout the embedding:
* Python dicts become association lists, preserving insertion order; the
  fact that a Python dict cannot hold a duplicate key becomes an explicit
  NodupKeys hypothesis where a proof needs it.
* Python None becomes Option.none; fallible operations (assert, KeyError,
  raised exceptions) return Except String.
* Attribute bags on graph nodes and edges are projected to the fields the
  analyzer actually reads (node_type, the wtftype marker, edge_type and the
  originating key row); the null-filtering of attribute bags is represented
  by the Option payloads consulted at the reading sites.
-/

namespace SchemaAnalyzer

/-! ## graph_base.py: node and edge kinds -/

inductive NodeTypes where
  | SCHEMA | TABLE | COLUMN | PK | FK | INDEX | TYPE
deriving DecidableEq, Repr

/-- The .value attribute of the Python NodeTypes enum member. -/
def NodeTypes.value : NodeTypes → String
  | .SCHEMA => "schema"
  | .TABLE => "table"
  | .COLUMN => "column"
  | .PK => "pk"
  | .FK => "fk"
  | .INDEX => "index"
  | .TYPE => "type"

inductive EdgeTypes where
  | SCHEMA_TABLE | TABLE_COLUMN | COLUMN_TABLE | COLUMN_TYPE
  | TABLE_PK | PK_COLUMN | TABLE_FK | FK_TABLE
  | COLUMN_FK | FK_COLUMN | REFERENCE | REFERENCE_BY
deriving DecidableEq, Repr

/-- The .value attribute of the Python EdgeTypes enum member. -/
def EdgeTypes.value : EdgeTypes → String
  | .SCHEMA_TABLE => "schema-table"
  | .TABLE_COLUMN => "table-column"
  | .COLUMN_TABLE => "column-table"
  | .COLUMN_TYPE => "column-type"
  | .TABLE_PK => "table-pk"
  | .PK_COLUMN => "pk-column"
  | .TABLE_FK => "table-fk"
  | .FK_TABLE => "fk-table"
  | .COLUMN_FK => "column-fk"
  | .FK_COLUMN => "fk-column"
  | .REFERENCE => "reference"
  | .REFERENCE_BY => "reference-by"

/-! ## metadata.py: plain immutable record types (JDBC-style rows).
Catalog names are always the database name string handed to the loaders, so
they are typed String; fields that the JDBC contract marks nullable and that
the analyzer feeds through truthiness tests are typed Option String. -/

structure MetadataSchemaRow where
  table_schem : Option String
  table_catalog : String
deriving DecidableEq, Repr

structure MetadataTableRow where
  table_cat : String
  table_schem : Option String
  table_name : String
  table_type : Option String
  remarks : Option String
  type_cat : Option String
  type_schem : Option String
  type_name : Option String
  self_referencing_col_name : Option String
  ref_generation : Option String
deriving DecidableEq, Repr

structure MetadataColumnRow where
  table_cat : String
  table_schem : Option String
  table_name : String
  column_name : String
  data_type : Int
  type_name : String
  column_size : Option Int
  buffer_length : Option Int
  decimal_digits : Option Int
  num_prec_radix : Option Int
  nullable : Int
  remarks : Option String
  column_def : Option String
  sql_data_type : Option Int
  sql_datetime_sub : Option Int
  char_octet_length : Option Int
  ordinal_position : Int
  is_nullable : Option String
  scope_catalog : Option String
  scope_schema : Option String
  scope_table : Option String
  source_data_type : Option Int
  is_autoincrement : Option String
  is_generatedcolumn : Option String
deriving DecidableEq, Repr

structure MetadataPrimaryKeyRow where
  table_cat : String
  table_schem : Option String
  table_name : String
  column_name : String
  key_seq : Int
  pk_name : Option String
deriving DecidableEq, Repr

structure MetadataForeignKeyRow where
  pktable_cat : String
  pktable_schem : Option String
  pktable_name : String
  pkcolumn_name : String
  fktable_cat : String
  fktable_schem : Option String
  fktable_name : String
  fkcolumn_name : String
  key_seq : Int
  update_rule : Option Int
  delete_rule : Option Int
  fk_name : Option String
  pk_name : Option String
  deferrability : Option Int
deriving DecidableEq, Repr

structure MetadataTypeInfoRow where
  type_name : String
  data_type : Int
  precision : Option Int
  literal_pre : Option String
  literal_suf : Option String
  create_params : Option String
  nullable : Option Int
  case_sensitive : Option Bool
  searchable : Option Int
  unsigned_attribute : Option Bool
  fixed_prec_scale : Option Bool
  auto_increment : Option Bool
  local_type_name : Option String
  minimum_scale : Option Int
  maximum_scale : Option Int
  sql_data_type : Option Int
  sql_datetime_sub : Option Int
  num_prec_radix : Option Int
deriving DecidableEq, Repr

/-! ## graph_base.py: the composite identifier scheme -/

/-- Python: schema or "@".  The or operator treats both None and the empty
string as falsy, so both normalize to "@". -/
def _sanitize_schema (schema : Option String) : String :=
  match schema with
  | none => "@"
  | some s => if s = "" then "@" else s

/-- Python: value or "@", used for pk_name / fk_name / index_name. -/
def strOrAt (v : Option String) : String :=
  match v with
  | none => "@"
  | some s => if s = "" then "@" else s

/-- Python: ".".join(parts). -/
def joinDot : List String → String
  | [] => ""
  | [x] => x
  | x :: y :: r => x ++ "." ++ joinDot (y :: r)

def _composite_id (node_type : NodeTypes) (cat : String) (schema : Option String)
    (rest : List String) : String :=
  node_type.value ++ "://" ++ joinDot ([cat, _sanitize_schema schema] ++ rest)

def schema_id (table_catalog : String) (table_schem : Option String := none) : String :=
  _composite_id NodeTypes.SCHEMA table_catalog table_schem []

def table_id (table_cat : String) (table_schem : Option String) (table_name : String) : String :=
  _composite_id NodeTypes.TABLE table_cat table_schem [table_name]

def column_id (table_cat : String) (table_schem : Option String) (table_name : String)
    (column_name : String) : String :=
  _composite_id NodeTypes.COLUMN table_cat table_schem [table_name, column_name]

def pk_id (table_cat : String) (table_schem : Option String) (table_name : String)
    (pk_name : Option String) : String :=
  _composite_id NodeTypes.PK table_cat table_schem [table_name, strOrAt pk_name]

def fk_id (table_cat : String) (table_schem : Option String) (table_name : String)
    (fk_name : Option String) : String :=
  _composite_id NodeTypes.FK table_cat table_schem [table_name, strOrAt fk_name]

def index_id (table_cat : String) (table_schem : Option String) (table_name : String)
    (index_name : Option String) : String :=
  _composite_id NodeTypes.INDEX table_cat table_schem [table_name, strOrAt index_name]

/-- Python: f-string interpolation of the enum member itself (not its .value),
so the resulting identifier starts with the literal text NodeTypes.TYPE. -/
def type_id (type_name : String) : String :=
  "NodeTypes.TYPE" ++ "://" ++ type_name

/-! ## graph_metadata.py: row-to-node key derivation -/

def _schema_row_to_node (row : MetadataSchemaRow) : String × MetadataSchemaRow :=
  (schema_id row.table_catalog row.table_schem, row)

def _table_row_to_node (row : MetadataTableRow) : String × MetadataTableRow :=
  (table_id row.table_cat row.table_schem row.table_name, row)

def _column_row_to_node (row : MetadataColumnRow) : String × MetadataColumnRow :=
  (column_id row.table_cat row.table_schem row.table_name row.column_name, row)

def _column_pk_to_node (row : MetadataPrimaryKeyRow) : String × MetadataPrimaryKeyRow :=
  (pk_id row.table_cat row.table_schem row.table_name row.pk_name, row)

def _column_fk_to_node (row : MetadataForeignKeyRow) : String × MetadataForeignKeyRow :=
  (fk_id row.fktable_cat row.fktable_schem row.fktable_name row.fk_name, row)

def _type_to_node (row : MetadataTypeInfoRow) : String × MetadataTypeInfoRow :=
  (type_id row.type_name, row)

/-! ## Identifier separation lemmas (claim C3) -/

/-- A string that does not contain the '.' separator. -/
def DotFree (s : String) : Prop := '.' ∉ s.data

instance (s : String) : Decidable (DotFree s) :=
  inferInstanceAs (Decidable ('.' ∉ s.data))

/-- An optional schema component on which _sanitize_schema is injective:
either absent, or a nonempty dot-free string other than the literal "@". -/
def SchemaOk (s : Option String) : Prop :=
  s = none ∨ ∃ v, s = some v ∧ v ≠ "" ∧ v ≠ "@" ∧ DotFree v

theorem dotFree_sanitize {s : Option String} (h : SchemaOk s) :
    DotFree (_sanitize_schema s) := by
  rcases h with h | ⟨v, rfl, hne, _, hdf⟩
  · subst h; intro hc; simp [_sanitize_schema, String.data] at hc
  · simpa [_sanitize_schema, hne] using hdf

theorem sanitize_inj {s t : Option String} (hs : SchemaOk s) (ht : SchemaOk t)
    (h : _sanitize_schema s = _sanitize_schema t) : s = t := by
  rcases hs with hs | ⟨v, rfl, hvne, hvat, _⟩ <;>
    rcases ht with ht | ⟨w, rfl, hwne, hwat, _⟩
  · rw [hs, ht]
  · subst hs
    simp only [_sanitize_schema, if_neg hwne] at h
    exact absurd h.symm hwat
  · subst ht
    simp only [_sanitize_schema, if_neg hvne] at h
    exact absurd h hvat
  · simp only [_sanitize_schema, if_neg hvne, if_neg hwne] at h
    rw [h]

theorem sanitize_at (h : SchemaOk s) (hat : _sanitize_schema s = "@") : s = none := by
  rcases h with h | ⟨v, rfl, hvne, hvat, _⟩
  · exact h
  · simp only [_sanitize_schema, if_neg hvne] at hat
    exact absurd hat hvat

/-- Splitting a char list at a separator absent from both left parts. -/
theorem append_dot_cancel : ∀ (a b u v : List Char), '.' ∉ a → '.' ∉ b →
    a ++ '.' :: u = b ++ '.' :: v → a = b ∧ u = v := by
  intro a
  induction a with
  | nil =>
    intro b u v _ hb h
    cases b with
    | nil => simpa using h
    | cons x xs =>
      simp only [List.nil_append, List.cons_append, List.cons.injEq] at h
      exact absurd (h.1 ▸ List.mem_cons_self x xs) hb
  | cons x xs ih =>
    intro b u v ha hb h
    cases b with
    | nil =>
      simp only [List.cons_append, List.nil_append, List.cons.injEq] at h
      exact absurd (h.1 ▸ List.mem_cons_self x xs) ha
    | cons y ys =>
      simp only [List.cons_append, List.cons.injEq] at h
      obtain ⟨rfl, h2⟩ := h
      have := ih ys u v (fun hm => ha (List.mem_cons_of_mem _ hm))
        (fun hm => hb (List.mem_cons_of_mem _ hm)) h2
      exact ⟨by rw [this.1], this.2⟩

theorem string_dot_cancel {a b u v : String} (ha : DotFree a) (hb : DotFree b)
    (h : a ++ "." ++ u = b ++ "." ++ v) : a = b ∧ u = v := by
  have hd : a.data ++ '.' :: u.data = b.data ++ '.' :: v.data := by
    have := congrArg String.data h
    simpa [String.data_append] using this
  obtain ⟨h1, h2⟩ := append_dot_cancel a.data b.data u.data v.data ha hb hd
  exact ⟨String.ext h1, String.ext h2⟩

theorem string_prefix_cancel (p : String) {u v : String} (h : p ++ u = p ++ v) : u = v := by
  have hd := congrArg String.data h
  simp only [String.data_append] at hd
  exact String.ext (List.append_cancel_left hd)

/-- An optional key name on which the `or "@"` normalization of pk_id / fk_id
is injective. -/
def KeyNameOk (s : Option String) : Prop :=
  s = none ∨ ∃ v, s = some v ∧ v ≠ "" ∧ v ≠ "@" ∧ DotFree v

theorem dotFree_strOrAt {s : Option String} (h : KeyNameOk s) :
    DotFree (strOrAt s) := by
  rcases h with h | ⟨v, rfl, hne, _, hdf⟩
  · subst h; intro hc; simp [strOrAt, String.data] at hc
  · simpa [strOrAt, hne] using hdf

theorem strOrAt_inj {s t : Option String} (hs : KeyNameOk s) (ht : KeyNameOk t)
    (h : strOrAt s = strOrAt t) : s = t := by
  rcases hs with hs | ⟨v, rfl, hvne, hvat, _⟩ <;>
    rcases ht with ht | ⟨w, rfl, hwne, hwat, _⟩
  · rw [hs, ht]
  · subst hs
    simp only [strOrAt, if_neg hwne] at h
    exact absurd h.symm hwat
  · subst ht
    simp only [strOrAt, if_neg hvne] at h
    exact absurd h hvat
  · simp only [strOrAt, if_neg hvne, if_neg hwne] at h
    rw [h]

theorem table_id_eq_shape (c : String) (s : Option String) (n : String) :
    table_id c s n =
      (NodeTypes.TABLE.value ++ "://") ++ (c ++ "." ++ (_sanitize_schema s ++ "." ++ n)) := by
  simp only [table_id, _composite_id, joinDot, String.append_assoc]

theorem column_id_eq_shape (c : String) (s : Option String) (t n : String) :
    column_id c s t n =
      (NodeTypes.COLUMN.value ++ "://") ++
        (c ++ "." ++ (_sanitize_schema s ++ "." ++ (t ++ "." ++ n))) := by
  simp only [column_id, _composite_id, joinDot, String.append_assoc]

theorem pk_id_eq_shape (c : String) (s : Option String) (t : String) (p : Option String) :
    pk_id c s t p =
      (NodeTypes.PK.value ++ "://") ++
        (c ++ "." ++ (_sanitize_schema s ++ "." ++ (t ++ "." ++ strOrAt p))) := by
  simp only [pk_id, _composite_id, joinDot, String.append_assoc]

/-- Concrete records exhibiting the identifier collision of claim C3: the
table name of the first record and the schema of the second both contain
a '.' and the joined composite identifiers coincide. -/
def c3TableRowA : MetadataTableRow :=
  ⟨"c", some "a", "b.x", none, none, none, none, none, none, none⟩

def c3TableRowB : MetadataTableRow :=
  ⟨"c", some "a.b", "x", none, none, none, none, none, none, none⟩

/-- C3, counterexample: two distinct table records (same kind) whose composite
identifiers are equal, because the '.' joiner does not escape '.' characters
occurring inside the name components.  Refutes the claimed injectivity for
records with names containing '.'. -/
theorem c3_distinct_records_same_id :
    c3TableRowA ≠ c3TableRowB ∧
      (_table_row_to_node c3TableRowA).1 = (_table_row_to_node c3TableRowB).1 := by
  constructor
  · decide
  · decide

/-- C3 (amended): equal records give equal composite identifiers.  Distinct
records are separated by their identifiers only on the identifying key fields
and only when those fields are '.'-free and the optional schema / key-name
components are not the empty string or the literal "@" (which collide with
the missing-value normalization).  Under those conditions table, column and
pk identifiers determine their key fields. -/
theorem c3_composite_id_injective_amended :
    (∀ r1 r2 : MetadataTableRow, r1 = r2 →
        (_table_row_to_node r1).1 = (_table_row_to_node r2).1) ∧
    (∀ c1 c2 : String, ∀ s1 s2 : Option String, ∀ n1 n2 : String,
        DotFree c1 → DotFree c2 → SchemaOk s1 → SchemaOk s2 → DotFree n1 → DotFree n2 →
        table_id c1 s1 n1 = table_id c2 s2 n2 → c1 = c2 ∧ s1 = s2 ∧ n1 = n2) ∧
    (∀ c1 c2 : String, ∀ s1 s2 : Option String, ∀ t1 t2 n1 n2 : String,
        DotFree c1 → DotFree c2 → SchemaOk s1 → SchemaOk s2 → DotFree t1 → DotFree t2 →
        DotFree n1 → DotFree n2 →
        column_id c1 s1 t1 n1 = column_id c2 s2 t2 n2 →
        c1 = c2 ∧ s1 = s2 ∧ t1 = t2 ∧ n1 = n2) ∧
    (∀ c1 c2 : String, ∀ s1 s2 : Option String, ∀ t1 t2 : String, ∀ p1 p2 : Option String,
        DotFree c1 → DotFree c2 → SchemaOk s1 → SchemaOk s2 → DotFree t1 → DotFree t2 →
        KeyNameOk p1 → KeyNameOk p2 →
        pk_id c1 s1 t1 p1 = pk_id c2 s2 t2 p2 →
        c1 = c2 ∧ s1 = s2 ∧ t1 = t2 ∧ p1 = p2) := by
  refine ⟨fun r1 r2 h => by rw [h], ?_, ?_, ?_⟩
  · intro c1 c2 s1 s2 n1 n2 hc1 hc2 hs1 hs2 hn1 hn2 h
    rw [table_id_eq_shape, table_id_eq_shape] at h
    have h1 := string_prefix_cancel _ h
    obtain ⟨hc, h2⟩ := string_dot_cancel hc1 hc2 h1
    obtain ⟨hs, hn⟩ := string_dot_cancel (dotFree_sanitize hs1) (dotFree_sanitize hs2) h2
    exact ⟨hc, sanitize_inj hs1 hs2 hs, hn⟩
  · intro c1 c2 s1 s2 t1 t2 n1 n2 hc1 hc2 hs1 hs2 ht1 ht2 hn1 hn2 h
    rw [column_id_eq_shape, column_id_eq_shape] at h
    have h1 := string_prefix_cancel _ h
    obtain ⟨hc, h2⟩ := string_dot_cancel hc1 hc2 h1
    obtain ⟨hs, h3⟩ := string_dot_cancel (dotFree_sanitize hs1) (dotFree_sanitize hs2) h2
    obtain ⟨ht, hn⟩ := string_dot_cancel ht1 ht2 h3
    exact ⟨hc, sanitize_inj hs1 hs2 hs, ht, hn⟩
  · intro c1 c2 s1 s2 t1 t2 p1 p2 hc1 hc2 hs1 hs2 ht1 ht2 hp1 hp2 h
    rw [pk_id_eq_shape, pk_id_eq_shape] at h
    have h1 := string_prefix_cancel _ h
    obtain ⟨hc, h2⟩ := string_dot_cancel hc1 hc2 h1
    obtain ⟨hs, h3⟩ := string_dot_cancel (dotFree_sanitize hs1) (dotFree_sanitize hs2) h2
    obtain ⟨ht, hp⟩ := string_dot_cancel ht1 ht2 h3
    exact ⟨hc, sanitize_inj hs1 hs2 hs, ht, strOrAt_inj hp1 hp2 hp⟩

/-- Witness for the amended C3 theorem at concrete dot-free inputs. -/
theorem c3_composite_id_injective_amended_witness :
    ("cat" : String) = "cat" ∧ (some "sch" : Option String) = some "sch" ∧
      ("tbl" : String) = "tbl" :=
  c3_composite_id_injective_amended.2.1 "cat" "cat" (some "sch") (some "sch") "tbl" "tbl"
    (by decide) (by decide)
    (Or.inr ⟨"sch", rfl, by decide, by decide, by decide⟩)
    (Or.inr ⟨"sch", rfl, by decide, by decide, by decide⟩)
    (by decide) (by decide) rfl

/-! ## scoring.py: node scores, disqualification, scoring objectives -/

structure NodeScore where
  node_id : String
  score : Int
  reason : String
deriving DecidableEq, Repr

def SCORE_NORMAL : Int := 100
def SCORE_GOOD : Int := 200

/-- NodeDisqualified: a NodeScore with the fixed sentinel score -100000. -/
def NodeDisqualified (node_id : String) (reason : String) : NodeScore :=
  ⟨node_id, -100000, reason⟩

/-- Association-list counterpart of the Python dict node_id to list of scores. -/
abbrev ScoresMap := List (String × List NodeScore)

/-- Append a score to the list stored under its node id; first occurrence of
the key is updated, a missing key is appended at the end (dict semantics). -/
def scoresMapAdd : ScoresMap → NodeScore → ScoresMap
  | [], s => [(s.node_id, [s])]
  | (k, l) :: rest, s =>
      if k = s.node_id then (k, l ++ [s]) :: rest
      else (k, l) :: scoresMapAdd rest s

/-- First-match association lookup (Python dict access). -/
def lookupK : List (String × β) → String → Option β
  | [], _ => none
  | (k, v) :: rest, n => if k = n then some v else lookupK rest n

/-- Lookup with the empty list for a missing key; mirrors reading the per-node
score list of the Python dict (absent keys contribute no scores). -/
def scoresOf (m : ScoresMap) (node : String) : List NodeScore :=
  match lookupK m node with
  | some l => l
  | none => []

structure NodeScoringObjective where
  name : String
  node_scores : ScoresMap
deriving Repr

def NodeScoringObjective.add (o : NodeScoringObjective) (s : NodeScore) :
    NodeScoringObjective :=
  { o with node_scores := scoresMapAdd o.node_scores s }

def NodeScoringObjective.addAll (o : NodeScoringObjective) (l : List NodeScore) :
    NodeScoringObjective :=
  l.foldl NodeScoringObjective.add o

/-- Stable ascending insertion by an integer key: a new element is placed
before the first strictly larger key, after earlier equal keys.  Mirrors the
stable ascending list.sort of Python. -/
def insertByKey (key : α → Int) (x : α) : List α → List α
  | [] => [x]
  | y :: ys => if key x ≤ key y then x :: y :: ys else y :: insertByKey key x ys

def sortByKey (key : α → Int) : List α → List α
  | [] => []
  | x :: xs => insertByKey key x (sortByKey key xs)

def totalOf (scores : List NodeScore) : Int :=
  (scores.map (fun s => s.score)).sum

/-- get_node_scores: per-node totals with optional cutoff, member scores
sorted ascending by score, nodes sorted ascending by total. -/
def NodeScoringObjective.get_node_scores (o : NodeScoringObjective)
    (score_cutoff : Option Int := none) : List (String × Int × List NodeScore) :=
  let results := o.node_scores.filterMap (fun p =>
    let total := totalOf p.2
    match score_cutoff with
    | some c => if total < c then none
        else some (p.1, total, sortByKey (fun s => s.score) p.2)
    | none => some (p.1, total, sortByKey (fun s => s.score) p.2))
  sortByKey (fun r => r.2.1) results

/-- merge: requires matching names, concatenates per-node score lists, never
mutates its operands (the embedding is functional; the source copies every
list with the slice operator before extending). -/
def NodeScoringObjective.merge (o other : NodeScoringObjective) :
    Except String NodeScoringObjective :=
  if o.name ≠ other.name then
    .error ("attempting to merge incompatible column scorings: " ++
      o.name ++ " and " ++ other.name)
  else
    .ok { name := o.name,
          node_scores := other.node_scores.foldl
            (fun acc p =>
              if (lookupK acc p.1).isSome then
                acc.map (fun q => if q.1 = p.1 then (q.1, q.2 ++ p.2) else q)
              else acc ++ [p])
            o.node_scores }

/-! ## Lemmas about merge (claim C4) -/

def KeysNodup (m : List (String × β)) : Prop := (m.map Prod.fst).Nodup

instance (m : List (String × β)) : Decidable (KeysNodup m) :=
  inferInstanceAs (Decidable (m.map Prod.fst).Nodup)

theorem lookupK_eq_none {m : List (String × β)} {k : String}
    (h : k ∉ m.map Prod.fst) : lookupK m k = none := by
  induction m with
  | nil => rfl
  | cons p rest ih =>
    simp only [List.map_cons, List.mem_cons] at h
    push_neg at h
    simp only [lookupK, if_neg (Ne.symm h.1)]
    exact ih h.2

theorem scoresOf_eq_nil {m : ScoresMap} {k : String}
    (h : k ∉ m.map Prod.fst) : scoresOf m k = [] := by
  simp only [scoresOf, lookupK_eq_none h]

theorem scoresOf_nil (n : String) : scoresOf [] n = [] := rfl

theorem scoresOf_cons (k : String) (v : List NodeScore) (rest : ScoresMap)
    (n : String) :
    scoresOf ((k, v) :: rest) n = if k = n then v else scoresOf rest n := by
  by_cases h : k = n <;> simp [scoresOf, lookupK, h]

theorem lookupK_cons (k : String) (v : β) (rest : List (String × β)) (n : String) :
    lookupK ((k, v) :: rest) n = if k = n then some v else lookupK rest n := rfl

/-- Effect of the extend-all-matching-entries map step of merge on lookups,
away from the extended key. -/
theorem scoresOf_map_ne (m : ScoresMap) (k : String) (l : List NodeScore)
    {n : String} (hne : n ≠ k) :
    scoresOf (m.map (fun q => if q.1 = k then (q.1, q.2 ++ l) else q)) n =
      scoresOf m n := by
  induction m with
  | nil => rfl
  | cons p rest ih =>
    obtain ⟨a, b⟩ := p
    by_cases hak : a = k
    · have han : a ≠ n := fun h => hne (h ▸ hak ▸ rfl)
      simp only [List.map_cons, if_pos hak, scoresOf_cons, if_neg han]
      exact ih
    · simp only [List.map_cons, if_neg hak]
      by_cases han : a = n
      · simp only [scoresOf_cons, if_pos han]
      · simp only [scoresOf_cons, if_neg han]
        exact ih

theorem scoresOf_map_extend (m : ScoresMap) (k : String) (l : List NodeScore)
    (h : (lookupK m k).isSome) :
    scoresOf (m.map (fun q => if q.1 = k then (q.1, q.2 ++ l) else q)) k =
      scoresOf m k ++ l := by
  induction m with
  | nil => simp [lookupK] at h
  | cons p rest ih =>
    obtain ⟨a, b⟩ := p
    by_cases hak : a = k
    · simp only [List.map_cons, if_pos hak, scoresOf_cons, if_pos hak]
    · rw [lookupK_cons, if_neg hak] at h
      simp only [List.map_cons, if_neg hak, scoresOf_cons, if_neg hak]
      exact ih h

theorem scoresOf_append_single (m : ScoresMap) (k : String) (l : List NodeScore)
    (n : String) (h : lookupK m k = none) :
    scoresOf (m ++ [(k, l)]) n =
      scoresOf m n ++ (if n = k then l else []) := by
  induction m with
  | nil =>
    by_cases hkn : k = n
    · simp [scoresOf_cons, scoresOf_nil, hkn]
    · simp [scoresOf_cons, scoresOf_nil, hkn, Ne.symm hkn]
  | cons p rest ih =>
    obtain ⟨a, b⟩ := p
    have hak : a ≠ k := by
      intro hp
      rw [lookupK_cons, if_pos hp] at h
      exact Option.noConfusion h
    rw [lookupK_cons, if_neg hak] at h
    by_cases han : a = n
    · have hnk : n ≠ k := fun hk => hak ((han.symm ▸ hk : a = k))
      simp [scoresOf_cons, List.cons_append, han, hnk]
    · simp only [List.cons_append, scoresOf_cons, if_neg han]
      exact ih h

/-- The accumulating fold inside merge concatenates per-node score lists. -/
theorem merge_fold_spec (bs : ScoresMap) :
    ∀ acc : ScoresMap, KeysNodup bs → ∀ n,
      scoresOf (bs.foldl
        (fun acc p =>
          if (lookupK acc p.1).isSome then
            acc.map (fun q => if q.1 = p.1 then (q.1, q.2 ++ p.2) else q)
          else acc ++ [p]) acc) n =
      scoresOf acc n ++ scoresOf bs n := by
  induction bs with
  | nil =>
    intro acc _ n
    rw [List.foldl_nil, scoresOf_nil, List.append_nil]
  | cons p rest ih =>
    intro acc hnd n
    obtain ⟨k, l⟩ := p
    simp only [KeysNodup, List.map_cons, List.nodup_cons] at hnd
    have hrest : scoresOf rest k = [] := scoresOf_eq_nil hnd.1
    have step : scoresOf
        (if (lookupK acc k).isSome then
          acc.map (fun q => if q.1 = k then (q.1, q.2 ++ l) else q)
        else acc ++ [(k, l)]) n = scoresOf acc n ++ (if n = k then l else []) := by
      by_cases hs : (lookupK acc k).isSome
      · rw [if_pos hs]
        by_cases hnk : n = k
        · subst hnk
          rw [if_pos rfl]
          exact scoresOf_map_extend acc n l hs
        · rw [if_neg hnk, scoresOf_map_ne acc k l hnk, List.append_nil]
      · rw [if_neg hs]
        have hnone : lookupK acc k = none := by
          cases hlk : lookupK acc k with
          | none => rfl
          | some v => rw [hlk] at hs; simp at hs
        exact scoresOf_append_single acc k l n hnone
    rw [List.foldl_cons, ih _ hnd.2 n, step, List.append_assoc, scoresOf_cons]
    congr 1
    by_cases hnk : n = k
    · subst hnk
      simp [hrest]
    · rw [if_neg hnk, if_neg (Ne.symm hnk), List.nil_append]

/-- C4: merging two objectives with the same name yields a new objective whose
per-node score list is the concatenation of the two inputs (for every node);
merging objectives with different names raises.  Mutation of the operands is
impossible in the functional embedding; the source copies every list with the
slice operator before extending, so the operands are likewise unchanged. -/
theorem c4_merge_concatenates_and_checks_name :
    (∀ A B : NodeScoringObjective, A.name = B.name → KeysNodup B.node_scores →
      ∃ C, A.merge B = .ok C ∧ C.name = A.name ∧
        ∀ n, scoresOf C.node_scores n =
          scoresOf A.node_scores n ++ scoresOf B.node_scores n) ∧
    (∀ A B : NodeScoringObjective, A.name ≠ B.name →
      A.merge B = .error ("attempting to merge incompatible column scorings: " ++
        A.name ++ " and " ++ B.name)) := by
  constructor
  · intro A B hname hnd
    have hok : A.merge B = .ok
        { name := A.name,
          node_scores := B.node_scores.foldl
            (fun acc p =>
              if (lookupK acc p.1).isSome then
                acc.map (fun q => if q.1 = p.1 then (q.1, q.2 ++ p.2) else q)
              else acc ++ [p]) A.node_scores } := by
      rw [NodeScoringObjective.merge, if_neg (by simp [hname])]
    exact ⟨_, hok, rfl, fun n => merge_fold_spec B.node_scores A.node_scores hnd n⟩
  · intro A B hname
    rw [NodeScoringObjective.merge, if_pos hname]

/-- Witness for C4 at concrete objectives sharing the name used by the fact
objective of every scorer. -/
theorem c4_merge_concatenates_and_checks_name_witness :
    ∃ C, NodeScoringObjective.merge
        ⟨"fact scoring", [("n1", [⟨"n1", 100, "a"⟩])]⟩
        ⟨"fact scoring", [("n1", [⟨"n1", 200, "b"⟩]), ("n2", [⟨"n2", 1, "c"⟩])]⟩ = .ok C ∧
      C.name = "fact scoring" ∧
      ∀ n, scoresOf C.node_scores n =
        scoresOf [("n1", [⟨"n1", 100, "a"⟩])] n ++
          scoresOf [("n1", [⟨"n1", 200, "b"⟩]), ("n2", [⟨"n2", 1, "c"⟩])] n :=
  c4_merge_concatenates_and_checks_name.1
    ⟨"fact scoring", [("n1", [⟨"n1", 100, "a"⟩])]⟩
    ⟨"fact scoring", [("n1", [⟨"n1", 200, "b"⟩]), ("n2", [⟨"n2", 1, "c"⟩])]⟩
    rfl (by decide)

/-! ## utils.py: splitting database identifiers into lowercase words -/

def isUpperAZ (c : Char) : Bool := 'A' ≤ c && c ≤ 'Z'

def isLowerAZ (c : Char) : Bool := 'a' ≤ c && c ≤ 'z'

def lcChar (c : Char) : Char :=
  if isUpperAZ c then Char.ofNat (c.toNat + 32) else c

def lcString (s : String) : String := ⟨s.data.map lcChar⟩

/-- re.findall of the camel-case word pattern: an uppercase letter followed by
either a run of lowercase letters, or a greedy run of uppercase letters whose
lookahead demands an uppercase letter or the end of the string (on lookahead
failure the greedy run backtracks by exactly one letter, which then starts the
next word; an empty run with failed lookahead means no match at this letter
and the scan advances by one).  The fuel argument only bounds the structural
recursion: every recursive call is on a strictly shorter character list, so
fuel equal to the input length is never exhausted. -/
def splitCamelGo : Nat → List Char → List (List Char)
  | _, [] => []
  | 0, _ :: _ => []
  | fuel + 1, c :: rest =>
    if isUpperAZ c then
      let lowers := rest.takeWhile isLowerAZ
      if lowers.isEmpty then
        let uppers := rest.takeWhile isUpperAZ
        let after := rest.dropWhile isUpperAZ
        match after with
        | [] => [c :: uppers]
        | _ :: _ =>
          match uppers.getLast? with
          | none => splitCamelGo fuel rest
          | some u => (c :: uppers.dropLast) :: splitCamelGo fuel (u :: after)
      else (c :: lowers) :: splitCamelGo fuel (rest.dropWhile isLowerAZ)
    else splitCamelGo fuel rest

def _split_camel_case (val : String) : List String :=
  (splitCamelGo val.data.length val.data).map (fun l => String.mk l)

/-- str.split with an explicit separator: empty pieces are kept, the empty
input yields one empty piece. -/
def splitUnderscore : List Char → List (List Char)
  | [] => [[]]
  | c :: r =>
    match splitUnderscore r with
    | [] => [[]]
    | w :: ws => if c = '_' then [] :: w :: ws else (c :: w) :: ws

def _db_identifier_to_lc_words (val : String) : List String :=
  let words :=
    if '_' ∈ val.data then (splitUnderscore val.data).map (fun l => String.mk l)
    else
      let w := _split_camel_case val
      if w.isEmpty then [val] else w
  words.map lcString

/-! ## scoring_keyword.py: the keyword dictionary and the keyword scorer -/

structure KeywordScoringDictionary where
  lang : String
  fact_scores : List (String × Int)
  fact_dq : List String
deriving Repr

/-- Python ", ".join. -/
def joinComma : List String → String
  | [] => ""
  | [x] => x
  | x :: y :: r => x ++ ", " ++ joinComma (y :: r)

/-- Substring containment, Python needle in haystack. -/
def substrOf (needle hay : String) : Bool := decide (List.IsInfix needle.data hay.data)

/-- Dict comprehension over the words: the resulting dict keeps one entry per
distinct matching word, in first-occurrence order, valued by its score. -/
def KeywordScoringDictionary.get_strongly_matching_keywords
    (d : KeywordScoringDictionary) (words : List String) : List (String × Int) :=
  ((words.filter (fun w => (lookupK d.fact_scores w).isSome)).eraseDups).filterMap
    (fun w => (lookupK d.fact_scores w).map (fun v => (w, v)))

/-- Keywords that occur as a substring of some word. -/
def KeywordScoringDictionary.get_weakly_matching_keywords
    (d : KeywordScoringDictionary) (words : List String) : List (String × Int) :=
  d.fact_scores.filter (fun p => words.any (fun w => substrOf p.1 w))

/-- The last word, when it is a disqualifying keyword.  The source indexes
words[-1]; every caller passes a nonempty list (the splitter never returns an
empty one), the none branch is unreachable. -/
def KeywordScoringDictionary.get_disqualified_words
    (d : KeywordScoringDictionary) (words : List String) : List String :=
  match words.getLast? with
  | some lw => if lw ∈ d.fact_dq then [lw] else []
  | none => []

def _DEFAULT_KEYWORD_SCORING : KeywordScoringDictionary :=
  { lang := "en",
    fact_scores :=
      [("price", SCORE_GOOD), ("qty", SCORE_GOOD), ("quantity", SCORE_GOOD),
       ("cost", SCORE_GOOD), ("revenue", SCORE_NORMAL), ("amount", SCORE_GOOD),
       ("margin", SCORE_NORMAL), ("discount", SCORE_NORMAL), ("rate", SCORE_GOOD),
       ("sale", SCORE_NORMAL), ("quota", SCORE_NORMAL), ("duration", SCORE_GOOD),
       ("percent", SCORE_NORMAL), ("pct", SCORE_NORMAL)],
    fact_dq := ["id", "identifier", "key", "uid", "gid", "uuid"] }

def sumVals (l : List (String × Int)) : Int := (l.map (fun p => p.2)).sum

/-- The disqualification part of _analyze_multiword. -/
def kwMultiDqPart (d : KeywordScoringDictionary) (col_id : String)
    (words : List String) : List NodeScore :=
  let disq := d.get_disqualified_words words
  if disq.isEmpty then []
  else [NodeDisqualified col_id
    ("column contains disqualifying keyword: " ++ joinComma disq)]

/-- The keyword-match part of _analyze_multiword: a single summed score,
added only when strictly more than one dictionary keyword matched exactly. -/
def kwMultiMatchPart (d : KeywordScoringDictionary) (col_id : String)
    (words : List String) : List NodeScore :=
  let found := d.get_strongly_matching_keywords words
  if 1 < found.length then
    [⟨col_id, sumVals found,
      "promising keywords exactly matched: " ++ joinComma (found.map Prod.fst)⟩]
  else []

/-- Fact scores appended by _analyze_multiword, in order. -/
def kwMultiwordScores (d : KeywordScoringDictionary) (col_id : String)
    (words : List String) : List NodeScore :=
  kwMultiDqPart d col_id words ++ kwMultiMatchPart d col_id words

/-- Fact scores appended by _analyze_singleword (the word list has exactly one
element at every call site, enforced by an assert in the source). -/
def kwSinglewordScores (d : KeywordScoringDictionary) (col_id : String)
    (word : String) : List NodeScore :=
  if ¬ (d.get_disqualified_words [word]).isEmpty then
    [NodeDisqualified col_id
      ("column is named using disqualifying keyword: " ++ word)]
  else
    let found := d.get_strongly_matching_keywords [word]
    if 0 < found.length then
      [⟨col_id, sumVals found, "column name exactly matches a keyword: " ++ word⟩]
    else
      let found := d.get_weakly_matching_keywords [word]
      if word.length = ((found.map (fun p => p.1.length)).sum : Nat) then
        [⟨col_id, sumVals found, "column name exactly matches a keyword: " ++ word⟩]
      else if 0 < found.length then
        [⟨col_id, 100, "text search found some keywords: " ++
          joinComma (found.map Prod.fst)⟩]
      else []

/-- visit_column of the keyword scorer: splits the column name and dispatches
to the multi-word or single-word analysis; an empty word list would fail the
assert inside _analyze_singleword. -/
def kwVisitColumnScores (d : KeywordScoringDictionary) (col_id : String)
    (column_name : String) : Except String (List NodeScore) :=
  let words := _db_identifier_to_lc_words column_name
  match words with
  | [] => .error "AssertionError: len(word) == 1"
  | [w] => .ok (kwSinglewordScores d col_id w)
  | _ :: _ :: _ => .ok (kwMultiwordScores d col_id words)

/-- C6: for a column name that splits into two or more words, the multi-word
branch of the keyword scorer contributes, besides the (purely disqualifying)
last-word check, a keyword fact score only when at least two distinct
dictionary keywords match words exactly, and then a single score equal to the
sum of the matched keyword weights; with at most one exact match nothing
beyond the disqualification part is added. -/
theorem c6_multiword_requires_two_exact_matches :
    ∀ col_id : String, ∀ words : List String, 2 ≤ words.length →
      (∀ s ∈ kwMultiDqPart _DEFAULT_KEYWORD_SCORING col_id words,
        s.score = -100000) ∧
      ((_DEFAULT_KEYWORD_SCORING.get_strongly_matching_keywords words).length ≤ 1 →
        kwMultiwordScores _DEFAULT_KEYWORD_SCORING col_id words =
          kwMultiDqPart _DEFAULT_KEYWORD_SCORING col_id words) ∧
      (2 ≤ (_DEFAULT_KEYWORD_SCORING.get_strongly_matching_keywords words).length →
        kwMultiwordScores _DEFAULT_KEYWORD_SCORING col_id words =
          kwMultiDqPart _DEFAULT_KEYWORD_SCORING col_id words ++
            [⟨col_id,
              sumVals (_DEFAULT_KEYWORD_SCORING.get_strongly_matching_keywords words),
              "promising keywords exactly matched: " ++
                joinComma ((_DEFAULT_KEYWORD_SCORING.get_strongly_matching_keywords
                  words).map Prod.fst)⟩]) := by
  intro col_id words _
  refine ⟨?_, ?_, ?_⟩
  · intro s hs
    rw [kwMultiDqPart] at hs
    split at hs
    · exact absurd hs (List.not_mem_nil s)
    · rw [List.mem_singleton] at hs
      rw [hs]
      rfl
  · intro hle
    have hnot : ¬ 1 < (_DEFAULT_KEYWORD_SCORING.get_strongly_matching_keywords
        words).length := by omega
    rw [kwMultiwordScores, kwMultiMatchPart]
    simp only [if_neg hnot, List.append_nil]
  · intro hge
    have hlt : 1 < (_DEFAULT_KEYWORD_SCORING.get_strongly_matching_keywords
        words).length := by omega
    rw [kwMultiwordScores, kwMultiMatchPart]
    simp only [if_pos hlt]

/-- Witness for C6 on the S6 scenario column OrderAmount: the single exact
match amount does not add a keyword score. -/
theorem c6_multiword_requires_two_exact_matches_witness :
    kwMultiwordScores _DEFAULT_KEYWORD_SCORING "colA" ["order", "amount"] =
      kwMultiDqPart _DEFAULT_KEYWORD_SCORING "colA" ["order", "amount"] :=
  (c6_multiword_requires_two_exact_matches "colA" ["order", "amount"]
    (by decide)).2.1 (by decide)

/-! ## scoring_type.py: the type-based scorer -/

structure TypeScoringDefinition where
  dim_scores : List (String × Int)
  fact_scores : List (String × Int)
  fact_dq : List String
deriving Repr

def TypeScoringDefinition.get_dim_score (d : TypeScoringDefinition)
    (type_name : String) : Option Int :=
  lookupK d.dim_scores type_name

def TypeScoringDefinition.get_fact_score (d : TypeScoringDefinition)
    (type_name : String) : Option Int :=
  lookupK d.fact_scores type_name

def TypeScoringDefinition.is_fact_dq (d : TypeScoringDefinition)
    (type_name : String) : Bool :=
  type_name ∈ d.fact_dq

def _DEFAULT_TYPE_SCORING : TypeScoringDefinition :=
  { dim_scores :=
      [("VARCHAR", SCORE_GOOD), ("TEXT", SCORE_NORMAL), ("BIT", SCORE_GOOD),
       ("CHAR", SCORE_GOOD), ("TIME", SCORE_GOOD), ("TIMESTAMP", SCORE_GOOD),
       ("DATE", SCORE_GOOD), ("DATETIME", SCORE_GOOD)],
    fact_scores :=
      [("DECIMAL", SCORE_GOOD), ("NUMERIC", SCORE_GOOD), ("INT", SCORE_NORMAL),
       ("SMALLINT", SCORE_NORMAL), ("SMALLINT UNSIGNED", SCORE_NORMAL)],
    fact_dq :=
      ["VARCHAR", "TEXT", "TIME", "TIMESTAMP", "DATE", "DATETIME",
       "LONGTEXT", "BLOB", "LONGBLOB"] }

/-- Dimension scores appended by _categorize_based_on_type. -/
def typeDimScores (d : TypeScoringDefinition) (col_id : String)
    (row : MetadataColumnRow) : List NodeScore :=
  match d.get_dim_score row.type_name with
  | some v => [⟨col_id, v, "viable data type for a dimension (" ++ row.type_name ++ ")"⟩]
  | none => []

/-- Fact scores appended by _categorize_based_on_type. -/
def typeFactScores (d : TypeScoringDefinition) (col_id : String)
    (row : MetadataColumnRow) : List NodeScore :=
  if d.is_fact_dq row.type_name then
    [NodeDisqualified col_id ("non-summarizable data type: (" ++ row.type_name ++ ")")]
  else
    match d.get_fact_score row.type_name with
    | some v => [⟨col_id, v, "viable data type for a fact (" ++ row.type_name ++ ")"⟩]
    | none => []

/-! ## scoring_key_dq.py: the key-disqualification scorer -/

/-- Fact disqualifications appended by KeyDisqualificationScoring.visit_pk:
one per member row of the primary key. -/
def keyDqPkScores (pk_id : String) (pk_data : List MetadataPrimaryKeyRow) :
    List NodeScore :=
  pk_data.map (fun pk =>
    NodeDisqualified
      (column_id pk.table_cat pk.table_schem pk.table_name pk.column_name)
      ("column is part of primary key (" ++ pk_id ++ "); cannot be a fact"))

/-- Fact disqualifications appended by KeyDisqualificationScoring
.visit_reference: it reads fk_name from the edge attribute bag, which raises a
KeyError when the originating row had a null fk_name (the null filter removed
the key) or when the edge carries no foreign-key row at all. -/
def keyDqReferenceScores (col_id : String) (from_column_id : String)
    (fk_name : Option String) : Except String (List NodeScore) :=
  match fk_name with
  | none => .error "KeyError: fk_name"
  | some nm =>
      .ok [NodeDisqualified col_id
             ("column is referenced in a foreign key (" ++ nm ++ ")"),
           NodeDisqualified from_column_id
             ("column is a foreign key (" ++ nm ++ ")")]

/-! ## graph.py: the directed graph and its construction from metadata.

The graph mirrors the networkx DiGraph the source builds: a node is a key
with an attribute record (only the attributes the analyzer reads are kept:
node_type and the wtftype marker of synthesized placeholder type nodes), an
edge is keyed by its (source, destination) pair — re-adding an existing edge
overwrites its attributes, exactly as in a DiGraph — and carries its
edge_type together with the originating key row where the source attaches
one.  add_edge silently creates missing endpoints with an empty attribute
bag (node_type absent). -/

structure NodeAttrs where
  node_type : Option String
  wtftype : Bool
deriving DecidableEq, Repr

inductive EdgePayload where
  | nopayload
  | pkRow (row : MetadataPrimaryKeyRow)
  | fkRow (row : MetadataForeignKeyRow)
deriving DecidableEq, Repr

structure EdgeAttrs where
  edge_type : EdgeTypes
  payload : EdgePayload
deriving DecidableEq, Repr

def lookupP (m : List ((String × String) × β)) (k : String × String) : Option β :=
  match m with
  | [] => none
  | (k2, v) :: rest => if k2 = k then some v else lookupP rest k

structure PyDiGraph where
  nodes : List (String × NodeAttrs)
  edges : List ((String × String) × EdgeAttrs)
deriving Repr

def emptyAttrs : NodeAttrs := ⟨none, false⟩

def PyDiGraph.addNode (g : PyDiGraph) (n : String) (attrs : NodeAttrs) : PyDiGraph :=
  if (lookupK g.nodes n).isSome then
    { g with nodes := g.nodes.map (fun p => if p.1 = n then (n, attrs) else p) }
  else
    { g with nodes := g.nodes ++ [(n, attrs)] }

def PyDiGraph.ensureNode (g : PyDiGraph) (n : String) : PyDiGraph :=
  if (lookupK g.nodes n).isSome then g
  else { g with nodes := g.nodes ++ [(n, emptyAttrs)] }

def PyDiGraph.addEdge (g : PyDiGraph) (u v : String) (attrs : EdgeAttrs) : PyDiGraph :=
  let g := (g.ensureNode u).ensureNode v
  if (lookupP g.edges (u, v)).isSome then
    { g with edges := g.edges.map (fun e => if e.1 = (u, v) then ((u, v), attrs) else e) }
  else
    { g with edges := g.edges ++ [((u, v), attrs)] }

def PyDiGraph.outEdges (g : PyDiGraph) (u : String) : List (String × EdgeAttrs) :=
  g.edges.filterMap (fun e => if e.1.1 = u then some (e.1.2, e.2) else none)

def PyDiGraph.inDegree (g : PyDiGraph) (n : String) : Nat :=
  (g.edges.filter (fun e => e.1.2 = n)).length

/-! ## graph_metadata.py: the metadata store -/

structure DatabaseGraphMetadata where
  schemas : List (String × MetadataSchemaRow)
  tables : List (String × MetadataTableRow)
  columns : List (String × MetadataColumnRow)
  pks : List (String × List MetadataPrimaryKeyRow)
  fks : List (String × List MetadataForeignKeyRow)
  types : List (String × MetadataTypeInfoRow)
deriving Repr

inductive NodeMetadata where
  | schemaRow (r : MetadataSchemaRow)
  | tableRow (r : MetadataTableRow)
  | columnRow (r : MetadataColumnRow)
  | pkRows (l : List MetadataPrimaryKeyRow)
  | fkRows (l : List MetadataForeignKeyRow)
  | typeRow (r : MetadataTypeInfoRow)
deriving DecidableEq, Repr

/-- get_node_metadata via the union index (schemas, tables, columns, pks,
fks, types in that construction order); a missing node raises KeyError. -/
def DatabaseGraphMetadata.get_node_metadata (md : DatabaseGraphMetadata)
    (node_id : String) : Option NodeMetadata :=
  match lookupK md.schemas node_id with
  | some r => some (.schemaRow r)
  | none =>
  match lookupK md.tables node_id with
  | some r => some (.tableRow r)
  | none =>
  match lookupK md.columns node_id with
  | some r => some (.columnRow r)
  | none =>
  match lookupK md.pks node_id with
  | some l => some (.pkRows l)
  | none =>
  match lookupK md.fks node_id with
  | some l => some (.fkRows l)
  | none =>
  match lookupK md.types node_id with
  | some r => some (.typeRow r)
  | none => none

/-! ## graph.py: _full_graph_factory -/

/-- The table section: one node per table plus its schema-table edge; a
missing parent schema fails the assert and aborts. -/
def addTableStep (md : DatabaseGraphMetadata) (g : PyDiGraph)
    (p : String × MetadataTableRow) : Except String PyDiGraph :=
  let from_schema := schema_id p.2.table_cat p.2.table_schem
  if (lookupK md.schemas from_schema).isSome then
    .ok ((g.addNode p.1 ⟨some NodeTypes.TABLE.value, false⟩).addEdge from_schema p.1
      ⟨.SCHEMA_TABLE, .nopayload⟩)
  else .error "AssertionError: from_schema in md.schemas"

/-- The column section: node, the table-column / column-table pair, and with
type nodes enabled the column-type edge, synthesizing a flagged placeholder
node for a type name missing from the type table.  The accumulator carries
the missing_types set. -/
def addColumnStep (md : DatabaseGraphMetadata) (include_type_nodes : Bool)
    (acc : PyDiGraph × List String) (p : String × MetadataColumnRow) :
    Except String (PyDiGraph × List String) :=
  let (g, missing) := acc
  let from_table := table_id p.2.table_cat p.2.table_schem p.2.table_name
  if (lookupK md.tables from_table).isSome then
    let g := (g.addNode p.1 ⟨some NodeTypes.COLUMN.value, false⟩)
    let g := g.addEdge from_table p.1 ⟨.TABLE_COLUMN, .nopayload⟩
    let g := g.addEdge p.1 from_table ⟨.COLUMN_TABLE, .nopayload⟩
    if include_type_nodes then
      let to_type := type_id p.2.type_name
      let (g, missing) :=
        if (lookupK md.types to_type).isNone ∧ to_type ∉ missing then
          (g.addNode to_type ⟨none, true⟩, to_type :: missing)
        else (g, missing)
      .ok (g.addEdge p.1 to_type ⟨.COLUMN_TYPE, .nopayload⟩, missing)
    else .ok (g, missing)
  else .error "AssertionError: from_table in md.tables"

/-- The primary-key section: indexing rows[0] raises on an empty row list;
the pk node, its table-pk edge and one pk-column edge per member row, each
member asserted to exist. -/
def addPkStep (md : DatabaseGraphMetadata) (g : PyDiGraph)
    (p : String × List MetadataPrimaryKeyRow) : Except String PyDiGraph :=
  match p.2 with
  | [] => .error "IndexError: rows[0]"
  | first_row :: _ =>
    let from_table := table_id first_row.table_cat first_row.table_schem
      first_row.table_name
    if (lookupK md.tables from_table).isSome then
      let g := g.addNode p.1 ⟨some NodeTypes.PK.value, false⟩
      let g := g.addEdge from_table p.1 ⟨.TABLE_PK, .nopayload⟩
      p.2.foldlM (fun g row =>
        let of_column := column_id row.table_cat row.table_schem row.table_name
          row.column_name
        if (lookupK md.columns of_column).isSome then
          .ok (g.addEdge p.1 of_column ⟨.PK_COLUMN, .pkRow row⟩)
        else .error "AssertionError: of_column in md.columns") g
    else .error "AssertionError: from_table in md.tables"

/-- The foreign-key section: indexing rows[0] raises on an empty row list,
but no existence asserts are performed; edges to absent tables or columns
silently create attribute-less nodes. -/
def addFkStep (g : PyDiGraph) (p : String × List MetadataForeignKeyRow) :
    Except String PyDiGraph :=
  match p.2 with
  | [] => .error "IndexError: rows[0]"
  | first_row :: _ =>
    let pk_table := table_id first_row.pktable_cat first_row.pktable_schem
      first_row.pktable_name
    let fk_table := table_id first_row.fktable_cat first_row.fktable_schem
      first_row.fktable_name
    let g := g.addNode p.1 ⟨some NodeTypes.FK.value, false⟩
    let g := g.addEdge fk_table p.1 ⟨.TABLE_FK, .nopayload⟩
    let g := g.addEdge p.1 pk_table ⟨.FK_TABLE, .nopayload⟩
    .ok (p.2.foldl (fun g row =>
      let fk_column := column_id row.fktable_cat row.fktable_schem
        row.fktable_name row.fkcolumn_name
      let pk_column := column_id row.pktable_cat row.pktable_schem
        row.pktable_name row.pkcolumn_name
      let g := g.addEdge fk_column p.1 ⟨.COLUMN_FK, .fkRow row⟩
      let g := g.addEdge p.1 pk_column ⟨.FK_COLUMN, .fkRow row⟩
      let g := g.addEdge fk_column pk_column ⟨.REFERENCE, .fkRow row⟩
      g.addEdge pk_column fk_column ⟨.REFERENCE_BY, .fkRow row⟩) g)

/-- The infallible opening sections of _full_graph_factory: optional type
nodes, then schema nodes. -/
def factoryBase (md : DatabaseGraphMetadata) (include_type_nodes : Bool) :
    PyDiGraph :=
  let g : PyDiGraph := ⟨[], []⟩
  let g :=
    if include_type_nodes then
      md.types.foldl (fun g p => g.addNode p.1 ⟨some NodeTypes.TYPE.value, false⟩) g
    else g
  md.schemas.foldl
    (fun g p => g.addNode p.1 ⟨some NodeTypes.SCHEMA.value, false⟩) g

def _full_graph_factory (md : DatabaseGraphMetadata)
    (include_type_nodes : Bool := false) : Except String PyDiGraph := do
  let g ← md.tables.foldlM (addTableStep md) (factoryBase md include_type_nodes)
  let gm ← md.columns.foldlM (addColumnStep md include_type_nodes) (g, [])
  let g ← md.pks.foldlM (addPkStep md) gm.1
  md.fks.foldlM addFkStep g

/-! ## Claim C1: which missing references abort graph construction -/

/-- A fallible fold whose per-element success does not depend on the
accumulator succeeds exactly when every element satisfies its success
condition. -/
theorem foldlM_ok_iff {α σ : Type} (step : σ → α → Except String σ)
    (p : α → Prop) (hstep : ∀ s a, (∃ s', step s a = .ok s') ↔ p a) :
    ∀ (l : List α) (s : σ),
      (∃ s', l.foldlM step s = .ok s') ↔ ∀ a ∈ l, p a := by
  intro l
  induction l with
  | nil =>
    intro s
    exact iff_of_true ⟨s, rfl⟩ (by simp)
  | cons a l ih =>
    intro s
    rw [List.foldlM_cons]
    cases hsa : step s a with
    | error e =>
      have hpa : ¬ p a := by
        rw [← hstep s a]
        rintro ⟨s', hs'⟩
        rw [hsa] at hs'
        exact Except.noConfusion hs'
      have hred : (Except.error e >>= fun s' => List.foldlM step s' l) =
          (Except.error e : Except String σ) := rfl
      rw [hred]
      constructor
      · rintro ⟨s', hs'⟩
        exact Except.noConfusion hs'
      · intro hall
        exact absurd (hall a (List.mem_cons_self a l)) hpa
    | ok s1 =>
      have hpa : p a := (hstep s a).mp ⟨s1, hsa⟩
      have hred : (Except.ok s1 >>= fun s' => List.foldlM step s' l) =
          List.foldlM step s1 l := rfl
      rw [hred, ih s1]
      constructor
      · intro hall b hb
        rcases List.mem_cons.mp hb with rfl | hb
        · exact hpa
        · exact hall b hb
      · intro hall b hb
        exact hall b (List.mem_cons_of_mem a hb)

def TableRefOk (md : DatabaseGraphMetadata) (p : String × MetadataTableRow) : Prop :=
  (lookupK md.schemas (schema_id p.2.table_cat p.2.table_schem)).isSome = true

def ColumnRefOk (md : DatabaseGraphMetadata) (p : String × MetadataColumnRow) : Prop :=
  (lookupK md.tables (table_id p.2.table_cat p.2.table_schem p.2.table_name)).isSome = true

def PkRefOk (md : DatabaseGraphMetadata)
    (p : String × List MetadataPrimaryKeyRow) : Prop :=
  (∃ first rest, p.2 = first :: rest ∧
    (lookupK md.tables
      (table_id first.table_cat first.table_schem first.table_name)).isSome = true) ∧
  ∀ row ∈ p.2, (lookupK md.columns
    (column_id row.table_cat row.table_schem row.table_name
      row.column_name)).isSome = true

def FksNonempty (md : DatabaseGraphMetadata) : Prop :=
  ∀ p ∈ md.fks, p.2 ≠ ([] : List MetadataForeignKeyRow)

instance (md : DatabaseGraphMetadata) (p : String × MetadataTableRow) :
    Decidable (TableRefOk md p) :=
  inferInstanceAs (Decidable
    ((lookupK md.schemas (schema_id p.2.table_cat p.2.table_schem)).isSome = true))

instance (md : DatabaseGraphMetadata) (p : String × MetadataColumnRow) :
    Decidable (ColumnRefOk md p) :=
  inferInstanceAs (Decidable
    ((lookupK md.tables
      (table_id p.2.table_cat p.2.table_schem p.2.table_name)).isSome = true))

theorem addTableStep_ok_iff (md : DatabaseGraphMetadata) :
    ∀ (g : PyDiGraph) (p : String × MetadataTableRow),
      (∃ g', addTableStep md g p = .ok g') ↔ TableRefOk md p := by
  intro g p
  rw [addTableStep, TableRefOk]
  by_cases h : (lookupK md.schemas (schema_id p.2.table_cat p.2.table_schem)).isSome = true
  · simp [h]
  · simp [h]

theorem addColumnStep_ok_iff (md : DatabaseGraphMetadata) (include_type_nodes : Bool) :
    ∀ (acc : PyDiGraph × List String) (p : String × MetadataColumnRow),
      (∃ acc', addColumnStep md include_type_nodes acc p = .ok acc') ↔
        ColumnRefOk md p := by
  intro acc p
  obtain ⟨g, missing⟩ := acc
  rw [addColumnStep, ColumnRefOk]
  by_cases h : (lookupK md.tables
      (table_id p.2.table_cat p.2.table_schem p.2.table_name)).isSome = true
  · cases include_type_nodes <;> simp [h]
  · simp [h]

theorem addPkStep_ok_iff (md : DatabaseGraphMetadata) :
    ∀ (g : PyDiGraph) (p : String × List MetadataPrimaryKeyRow),
      (∃ g', addPkStep md g p = .ok g') ↔ PkRefOk md p := by
  intro g p
  obtain ⟨k, rows⟩ := p
  cases rows with
  | nil =>
    rw [addPkStep, PkRefOk]
    simp
  | cons first rest =>
    rw [addPkStep, PkRefOk]
    by_cases h : (lookupK md.tables
        (table_id first.table_cat first.table_schem first.table_name)).isSome = true
    · simp only [if_pos h]
      have hin := foldlM_ok_iff
        (fun (g : PyDiGraph) (row : MetadataPrimaryKeyRow) =>
          if (lookupK md.columns (column_id row.table_cat row.table_schem
              row.table_name row.column_name)).isSome = true then
            Except.ok (g.addEdge k (column_id row.table_cat row.table_schem
              row.table_name row.column_name) ⟨.PK_COLUMN, .pkRow row⟩)
          else Except.error "AssertionError: of_column in md.columns")
        (fun row => (lookupK md.columns (column_id row.table_cat row.table_schem
          row.table_name row.column_name)).isSome = true)
        (by
          intro s a
          by_cases ha : (lookupK md.columns (column_id a.table_cat a.table_schem
              a.table_name a.column_name)).isSome = true
          · simp [ha]
          · simp [ha])
        (first :: rest)
      rw [hin]
      constructor
      · intro hall
        exact ⟨⟨first, rest, rfl, h⟩, hall⟩
      · intro hall
        exact hall.2
    · simp only [if_neg h]
      constructor
      · rintro ⟨g', hg'⟩
        exact Except.noConfusion hg'
      · rintro ⟨⟨first', rest', heq, h'⟩, _⟩
        rw [List.cons.injEq] at heq
        rw [← heq.1] at h'
        exact absurd h' h

theorem addFkStep_ok_iff :
    ∀ (g : PyDiGraph) (p : String × List MetadataForeignKeyRow),
      (∃ g', addFkStep g p = .ok g') ↔ p.2 ≠ [] := by
  intro g p
  obtain ⟨k, rows⟩ := p
  cases rows with
  | nil => rw [addFkStep]; simp
  | cons first rest => rw [addFkStep]; simp

/-- C1, counterexample metadata: one schema, no tables, no columns, and one
foreign key all four of whose endpoints (referencing table and column,
referenced table and column) are absent from the store. -/
def c1BadFkMd : DatabaseGraphMetadata :=
  { schemas := [(schema_id "c" (some "s"), ⟨some "s", "c"⟩)],
    tables := [],
    columns := [],
    pks := [],
    fks := [(fk_id "c" (some "s") "tcustomers" (some "fk1"),
      [⟨"c", some "s", "tcustomers", "id", "c", some "s", "torders", "cust_id",
        1, none, none, some "fk1", none, none⟩])],
    types := [] }

/-- C1, counterexample: the builder does not abort on a foreign key whose
referencing table, referenced table, and member columns are all absent from
the store; construction succeeds (creating attribute-less placeholder nodes),
refuting the claim that such metadata aborts with a structural error. -/
theorem c1_missing_fk_reference_does_not_abort :
    (_full_graph_factory c1BadFkMd false).isOk = true ∧
      lookupK c1BadFkMd.tables (table_id "c" (some "s") "torders") = none ∧
      lookupK c1BadFkMd.tables (table_id "c" (some "s") "tcustomers") = none ∧
      lookupK c1BadFkMd.columns
        (column_id "c" (some "s") "torders" "cust_id") = none ∧
      lookupK c1BadFkMd.columns
        (column_id "c" (some "s") "tcustomers" "id") = none := by
  refine ⟨?_, rfl, rfl, rfl, rfl⟩
  decide

/-- C1 (amended): for foreign keys with at least one member row, graph
construction succeeds exactly when every table has its schema in the store,
every column has its table, and every primary key is nonempty with its table
and member columns present.  Missing parents of tables, columns and primary
keys therefore abort construction with a structural error and no graph is
produced; foreign keys referencing absent tables or columns do not abort. -/
theorem c1_structural_abort_amended :
    ∀ (md : DatabaseGraphMetadata) (include_type_nodes : Bool),
      FksNonempty md →
      ((∃ g, _full_graph_factory md include_type_nodes = .ok g) ↔
        (∀ p ∈ md.tables, TableRefOk md p) ∧
        (∀ p ∈ md.columns, ColumnRefOk md p) ∧
        (∀ p ∈ md.pks, PkRefOk md p)) := by
  intro md include_type_nodes hfk
  rw [_full_graph_factory]
  have hT := foldlM_ok_iff (addTableStep md) (TableRefOk md)
    (addTableStep_ok_iff md) md.tables
  have hC := foldlM_ok_iff (addColumnStep md include_type_nodes)
    (ColumnRefOk md) (addColumnStep_ok_iff md include_type_nodes) md.columns
  have hP := foldlM_ok_iff (addPkStep md) (PkRefOk md)
    (addPkStep_ok_iff md) md.pks
  have hF := foldlM_ok_iff addFkStep (fun p => p.2 ≠ [])
    addFkStep_ok_iff md.fks
  cases hTc : md.tables.foldlM (addTableStep md)
      (factoryBase md include_type_nodes) with
  | error e =>
    have hnot : ¬ ∀ p ∈ md.tables, TableRefOk md p := by
      rw [← hT (factoryBase md include_type_nodes)]
      rintro ⟨g', hgo⟩
      rw [hTc] at hgo
      exact Except.noConfusion hgo
    have hred : ((Except.error e : Except String PyDiGraph) >>= fun g =>
        md.columns.foldlM (addColumnStep md include_type_nodes) (g, []) >>= fun gm =>
          md.pks.foldlM (addPkStep md) gm.1 >>= fun g =>
            md.fks.foldlM addFkStep g) = Except.error e := rfl
    rw [hred]
    constructor
    · rintro ⟨g', hg'⟩
      exact Except.noConfusion hg'
    · intro hall
      exact absurd hall.1 hnot
  | ok gT =>
    have hTok : ∀ p ∈ md.tables, TableRefOk md p :=
      (hT (factoryBase md include_type_nodes)).mp ⟨gT, hTc⟩
    have hred : ((Except.ok gT : Except String PyDiGraph) >>= fun g =>
        md.columns.foldlM (addColumnStep md include_type_nodes) (g, []) >>= fun gm =>
          md.pks.foldlM (addPkStep md) gm.1 >>= fun g =>
            md.fks.foldlM addFkStep g) =
        (md.columns.foldlM (addColumnStep md include_type_nodes) (gT, []) >>= fun gm =>
          md.pks.foldlM (addPkStep md) gm.1 >>= fun g =>
            md.fks.foldlM addFkStep g) := rfl
    rw [hred]
    cases hCc : md.columns.foldlM (addColumnStep md include_type_nodes) (gT, []) with
    | error e =>
      have hnot : ¬ ∀ p ∈ md.columns, ColumnRefOk md p := by
        rw [← hC (gT, [])]
        rintro ⟨g', hgo⟩
        rw [hCc] at hgo
        exact Except.noConfusion hgo
      have hred2 : ((Except.error e : Except String (PyDiGraph × List String)) >>=
          fun gm => md.pks.foldlM (addPkStep md) gm.1 >>= fun g =>
            md.fks.foldlM addFkStep g) = Except.error e := rfl
      rw [hred2]
      constructor
      · rintro ⟨g', hg'⟩
        exact Except.noConfusion hg'
      · intro hall
        exact absurd hall.2.1 hnot
    | ok gC =>
      have hCok : ∀ p ∈ md.columns, ColumnRefOk md p := (hC (gT, [])).mp ⟨gC, hCc⟩
      have hred2 : ((Except.ok gC : Except String (PyDiGraph × List String)) >>=
          fun gm => md.pks.foldlM (addPkStep md) gm.1 >>= fun g =>
            md.fks.foldlM addFkStep g) =
          (md.pks.foldlM (addPkStep md) gC.1 >>= fun g =>
            md.fks.foldlM addFkStep g) := rfl
      rw [hred2]
      cases hPc : md.pks.foldlM (addPkStep md) gC.1 with
      | error e =>
        have hnot : ¬ ∀ p ∈ md.pks, PkRefOk md p := by
          rw [← hP gC.1]
          rintro ⟨g', hgo⟩
          rw [hPc] at hgo
          exact Except.noConfusion hgo
        have hred3 : ((Except.error e : Except String PyDiGraph) >>= fun g =>
            md.fks.foldlM addFkStep g) = Except.error e := rfl
        rw [hred3]
        constructor
        · rintro ⟨g', hg'⟩
          exact Except.noConfusion hg'
        · intro hall
          exact absurd hall.2.2 hnot
      | ok gP =>
        have hPok : ∀ p ∈ md.pks, PkRefOk md p := (hP gC.1).mp ⟨gP, hPc⟩
        obtain ⟨gF, hFc⟩ : ∃ g', md.fks.foldlM addFkStep gP = .ok g' :=
          (hF gP).mpr hfk
        have hred3 : ((Except.ok gP : Except String PyDiGraph) >>= fun g =>
            md.fks.foldlM addFkStep g) = md.fks.foldlM addFkStep gP := rfl
        rw [hred3, hFc]
        constructor
        · intro _
          exact ⟨hTok, hCok, hPok⟩
        · intro _
          exact ⟨gF, rfl⟩

/-- Witness for the amended C1 theorem on a well-formed store: one schema and
one table whose parent is present; construction succeeds. -/
theorem c1_structural_abort_amended_witness :
    ∃ g, _full_graph_factory
      { schemas := [(schema_id "c" (some "s"), ⟨some "s", "c"⟩)],
        tables := [(table_id "c" (some "s") "t",
          ⟨"c", some "s", "t", some "TABLE", none, none, none, none, none, none⟩)],
        columns := [], pks := [], fks := [], types := [] } false = .ok g :=
  (c1_structural_abort_amended _ false (by intro p hp; simp at hp)).mpr
    ⟨by
      intro p hp
      rw [List.mem_singleton] at hp
      subst hp
      decide,
     by intro p hp; simp at hp,
     by intro p hp; simp at hp⟩

/-! ## graph.py / graph_visitor.py: the depth-first visitor driver.

The Python driver keeps an explicit stack (append at the end, pop from the
end).  The embedding keeps the stack head-first: the head is the next entry
to pop, so the initial root entries appear reversed and the per-visit pushes
(reversed kind groups pushed in reversed canonical order in the source, so
that pops come out kind group by kind group in discovery order) appear as the
kind groups concatenated in canonical order, in discovery order, in front of
the rest of the stack.  Visitor callbacks are state transformers that may
fail (Python exceptions) and may return an edge-kind set to follow. -/

structure VisitStackEntry where
  from_node : Option String
  to_node : String
  edge_type : Option EdgeTypes
  edge_data : Option EdgeAttrs
deriving DecidableEq, Repr

structure DatabaseGraphVisitor (σ : Type) where
  visit_schema : σ → String → NodeMetadata →
    Except String (σ × Option (List EdgeTypes))
  visit_table : σ → String → NodeMetadata →
    Except String (σ × Option (List EdgeTypes))
  visit_column : σ → String → NodeMetadata →
    Except String (σ × Option (List EdgeTypes))
  visit_pk : σ → String → NodeMetadata →
    Except String (σ × Option (List EdgeTypes))
  visit_fk : σ → String → NodeMetadata →
    Except String (σ × Option (List EdgeTypes))
  visit_reference : σ → String → NodeMetadata → Option String → Option EdgeAttrs →
    Except String (σ × Option (List EdgeTypes))

/-- The fallback navigation map after the value-morphing step: keyed by the
string value of an edge type or node type.  Consulted by inbound edge type
first, then by destination node type (a root entry has edge type None, which
is never a dict key). -/
abbrev FallbackNav := List (String × List EdgeTypes)

def lookupFallback (fallback : FallbackNav) (edge_type : Option EdgeTypes)
    (to_node_type : String) : List EdgeTypes :=
  match edge_type with
  | some et =>
    match lookupK fallback et.value with
    | some f => f
    | none =>
      match lookupK fallback to_node_type with
      | some f => f
      | none => []
  | none =>
    match lookupK fallback to_node_type with
    | some f => f
    | none => []

def visitOrderValues : List String :=
  [NodeTypes.SCHEMA.value, NodeTypes.TABLE.value, NodeTypes.COLUMN.value,
   NodeTypes.PK.value, NodeTypes.FK.value]

/-- One pass over the outgoing edges of the visited node: the destination
node type is read unconditionally (KeyError on an attribute-less node), a
followed edge leading straight back to the node we came from raises the
VisitError, and followed edges are collected tagged with their destination
kind (a destination kind outside the canonical visit order is a KeyError on
the next_level dict). -/
def expandStep (g : PyDiGraph) (follow : List EdgeTypes) (e : VisitStackEntry)
    (acc : List (String × VisitStackEntry)) (out : String × EdgeAttrs) :
    Except String (List (String × VisitStackEntry)) :=
  match lookupK g.nodes out.1 with
  | none => .error "KeyError: node"
  | some oattrs =>
  match oattrs.node_type with
  | none => .error "KeyError: node_type"
  | some out_node_type =>
    if out.2.edge_type ∈ follow then
      if some out.1 = e.from_node then
        .error "Visit navigation data leads to a cycle. Aborting."
      else if out_node_type ∈ visitOrderValues then
        .ok (acc ++ [(out_node_type,
          { from_node := some e.to_node, to_node := out.1,
            edge_type := some out.2.edge_type, edge_data := some out.2 })])
      else .error "KeyError: next_level[out_node_type]"
    else .ok acc

def expandEntries (g : PyDiGraph) (follow : List EdgeTypes)
    (e : VisitStackEntry) : Except String (List VisitStackEntry) := do
  let pairs ← (g.outEdges e.to_node).foldlM (expandStep g follow e) []
  pure (visitOrderValues.foldr
    (fun t acc => (pairs.filter (fun p => p.1 = t)).map Prod.snd ++ acc) [])

/-- Dispatch of a visit: the reference-edge callback wins over the node-kind
callback; a node kind without a callback (type, index) is a KeyError on the
node_visit_funs dict. -/
def nodeVisitDispatch (vis : DatabaseGraphVisitor σ) (s : σ)
    (e : VisitStackEntry) (to_node_type : String) (node_data : NodeMetadata) :
    Except String (σ × Option (List EdgeTypes)) :=
  if e.edge_type = some EdgeTypes.REFERENCE then
    vis.visit_reference s e.to_node node_data e.from_node e.edge_data
  else if to_node_type = NodeTypes.SCHEMA.value then
    vis.visit_schema s e.to_node node_data
  else if to_node_type = NodeTypes.TABLE.value then
    vis.visit_table s e.to_node node_data
  else if to_node_type = NodeTypes.COLUMN.value then
    vis.visit_column s e.to_node node_data
  else if to_node_type = NodeTypes.PK.value then
    vis.visit_pk s e.to_node node_data
  else if to_node_type = NodeTypes.FK.value then
    vis.visit_fk s e.to_node node_data
  else .error "KeyError: node_visit_funs[to_node_type]"

/-- The navigation directive in force: the callback return value when there
is one, else the fallback map consulted by inbound edge type, then node type. -/
def followOfRetval (fallback : FallbackNav) (e : VisitStackEntry)
    (to_node_type : String) (retval : Option (List EdgeTypes)) : List EdgeTypes :=
  match retval with
  | some f => f
  | none => lookupFallback fallback e.edge_type to_node_type

def visitLoop (g : PyDiGraph) (md : DatabaseGraphMetadata)
    (vis : DatabaseGraphVisitor σ) (fallback : FallbackNav) :
    Nat → σ → List VisitStackEntry → Except String σ
  | _, s, [] => .ok s
  | 0, _, _ :: _ => .error "fuel exhausted"
  | fuel + 1, s, e :: rest =>
    match lookupK g.nodes e.to_node with
    | none => .error "KeyError: node"
    | some attrs =>
    match attrs.node_type with
    | none => .error "KeyError: node_type"
    | some to_node_type =>
    match md.get_node_metadata e.to_node with
    | none => .error "KeyError: node metadata"
    | some node_data =>
    match nodeVisitDispatch vis s e to_node_type node_data with
    | .error err => .error err
    | .ok (s', retval) =>
      match expandEntries g (followOfRetval fallback e to_node_type retval) e with
      | .error err => .error err
      | .ok next => visitLoop g md vis fallback fuel s' (next ++ rest)

/-- The roots: nodes of in-degree zero, in node insertion order. -/
def rootEntries (g : PyDiGraph) : List VisitStackEntry :=
  (g.nodes.filter (fun p => g.inDegree p.1 = 0)).map
    (fun p => ⟨none, p.1, none, none⟩)

/-- accept_visitor: the stack starts with one entry per root; since the
source pops from the far end of its stack list, the head-first embedding
starts from the reversed root list. -/
def accept_visitor (g : PyDiGraph) (md : DatabaseGraphMetadata)
    (vis : DatabaseGraphVisitor σ) (fallback : FallbackNav) (fuel : Nat)
    (s : σ) : Except String σ :=
  visitLoop g md vis fallback fuel s (rootEntries g).reverse

/-! ## scoring_cols.py: the concrete scorers as components and the composite
column scoring visitor -/

structure ScorerState where
  fact_scoring : NodeScoringObjective
  dimension_scoring : NodeScoringObjective
deriving Repr

def initialScorerState : ScorerState :=
  ⟨⟨"fact scoring", []⟩, ⟨"dimension scoring", []⟩⟩

/-- The closed world of concrete column scorers instantiated by the scoring
pipeline (each constructor is one class, holding its configuration). -/
inductive ScorerKind where
  | typeBased (defs : TypeScoringDefinition)
  | keyDq
  | keywordBased (defs : KeywordScoringDictionary)

def scorerVisitColumn (k : ScorerKind) (col_id : String)
    (row : MetadataColumnRow) (st : ScorerState) : Except String ScorerState :=
  match k with
  | .typeBased defs =>
    .ok { st with
      dimension_scoring := st.dimension_scoring.addAll (typeDimScores defs col_id row),
      fact_scoring := st.fact_scoring.addAll (typeFactScores defs col_id row) }
  | .keyDq => .ok st
  | .keywordBased defs =>
    (kwVisitColumnScores defs col_id row.column_name).map
      (fun l => { st with fact_scoring := st.fact_scoring.addAll l })

def scorerVisitPk (k : ScorerKind) (pk_id : String)
    (rows : List MetadataPrimaryKeyRow) (st : ScorerState) : ScorerState :=
  match k with
  | .keyDq =>
    { st with fact_scoring := st.fact_scoring.addAll (keyDqPkScores pk_id rows) }
  | _ => st

/-- A root-style reference visit would hand the scorer a None from node;
Python would then record scores under the None key.  The embedding folds that
unreachable case to the text None, which no composite identifier equals. -/
def fromIdStr : Option String → String
  | some s => s
  | none => "None"

def scorerVisitReference (k : ScorerKind) (col_id : String)
    (from_id : Option String) (ed : Option EdgeAttrs) (st : ScorerState) :
    Except String ScorerState :=
  match k with
  | .keyDq =>
    match ed with
    | none => .error "TypeError: edge_data is None"
    | some a =>
      match a.payload with
      | .fkRow row =>
        (keyDqReferenceScores col_id (fromIdStr from_id) row.fk_name).map
          (fun l => { st with fact_scoring := st.fact_scoring.addAll l })
      | _ => .error "KeyError: fk_name"
  | _ => .ok st

abbrev CompositeState := List (ScorerKind × ScorerState)

/-- CompositeColumnScoringVisitor as a DatabaseGraphVisitor: schema, table
and column visits broadcast to every component and return the fixed
navigation sets; the pk and reference visits broadcast and return none; the
composite inherits the no-op visit_fk and does not broadcast it. -/
def compositeGraphVisitor : DatabaseGraphVisitor CompositeState :=
  { visit_schema := fun s _ _ => .ok (s, some [EdgeTypes.SCHEMA_TABLE]),
    visit_table := fun s _ _ =>
      .ok (s, some [EdgeTypes.TABLE_COLUMN, EdgeTypes.TABLE_PK, EdgeTypes.TABLE_FK]),
    visit_column := fun s col_id nd =>
      match nd with
      | .columnRow row =>
        (s.mapM (fun p => (scorerVisitColumn p.1 col_id row p.2).map
          (fun st => (p.1, st)))).map
          (fun s' => (s', some [EdgeTypes.REFERENCE]))
      | _ => .error "AttributeError: column row expected",
    visit_pk := fun s pk_id nd =>
      match nd with
      | .pkRows rows =>
        .ok (s.map (fun p => (p.1, scorerVisitPk p.1 pk_id rows p.2)), none)
      | _ => .error "AttributeError: pk rows expected",
    visit_fk := fun s _ _ => .ok (s, none),
    visit_reference := fun s col_id _ from_id ed =>
      (s.mapM (fun p => (scorerVisitReference p.1 col_id from_id ed p.2).map
        (fun st => (p.1, st)))).map
        (fun s' => (s', none)) }

/-- functools.reduce with no initial value. -/
def reduce1 (f : α → α → Except String α) : List α → Except String α
  | [] => .error "TypeError: reduce() of empty iterable with no initial value"
  | x :: xs => xs.foldlM f x

def compositeFactScoring (s : CompositeState) : Except String NodeScoringObjective :=
  reduce1 NodeScoringObjective.merge (s.map (fun p => p.2.fact_scoring))

def compositeDimensionScoring (s : CompositeState) :
    Except String NodeScoringObjective :=
  reduce1 NodeScoringObjective.merge (s.map (fun p => p.2.dimension_scoring))

def defaultScorers : List ScorerKind :=
  [.typeBased _DEFAULT_TYPE_SCORING, .keyDq, .keywordBased _DEFAULT_KEYWORD_SCORING]

/-- Turn the totals of get_node_scores into the attribute dict and give every
node not present in the objective the -1 attribute value. -/
def scoreAttrDict (obj : NodeScoringObjective) (g : PyDiGraph) :
    List (String × Int) :=
  let base := (obj.get_node_scores none).map (fun r => (r.1, r.2.1))
  g.nodes.foldl
    (fun fs p => if (lookupK fs p.1).isSome then fs else fs ++ [(p.1, -1)]) base

/-- add_fact_and_dim_scores: runs the composite scoring visitor over the
graph (no fallback navigation), then computes the two node attribute dicts
that the source writes back onto the graph with set_node_attributes.  On any
exception nothing is returned and the graph attributes remain unwritten. -/
def add_fact_and_dim_scores (g : PyDiGraph) (md : DatabaseGraphMetadata)
    (scorers : List ScorerKind) (fuel : Nat) :
    Except String (List (String × Int) × List (String × Int)) := do
  let init : CompositeState := scorers.map (fun k => (k, initialScorerState))
  let final ← accept_visitor g md compositeGraphVisitor [] fuel init
  let factObj ← compositeFactScoring final
  let dimObj ← compositeDimensionScoring final
  pure (scoreAttrDict factObj g, scoreAttrDict dimObj g)

/-! ## Claim C7: the sales.price DECIMAL scenario -/

def c7ColRow : MetadataColumnRow :=
  ⟨"c", some "s", "sales", "price", 3, "DECIMAL", some 10, none, some 2, none, 1,
   none, none, none, none, none, 1, some "YES", none, none, none, none, none, none⟩

def c7Md : DatabaseGraphMetadata :=
  { schemas := [(schema_id "c" (some "s"), ⟨some "s", "c"⟩)],
    tables := [(table_id "c" (some "s") "sales",
      ⟨"c", some "s", "sales", some "TABLE", none, none, none, none, none, none⟩)],
    columns := [(column_id "c" (some "s") "sales" "price", c7ColRow)],
    pks := [], fks := [], types := [] }

def c7ColId : String := column_id "c" (some "s") "sales" "price"

/-- The composite fact objective produced by the default scoring traversal of
the C7 scenario graph. -/
def c7FactObjective : Except String NodeScoringObjective := do
  let g ← _full_graph_factory c7Md false
  let final ← accept_visitor g c7Md compositeGraphVisitor [] 100
    (defaultScorers.map (fun k => (k, initialScorerState)))
  compositeFactScoring final

def c7Run : Except String (List (String × Int) × List (String × Int)) := do
  let g ← _full_graph_factory c7Md false
  add_fact_and_dim_scores g c7Md defaultScorers 100

/-- C7: for the column sales.price of type DECIMAL scored with the default
scorers, the fact objective holds exactly two scores, +200 from the
type scorer (fact-viable DECIMAL) and +200 from the keyword scorer (exact
single-word match on price); the fact total is +400 and the dim_score
attribute written for the column is -1. -/
theorem c7_sales_price_scores :
    (c7FactObjective.map (fun o => scoresOf o.node_scores c7ColId)) =
      .ok [⟨c7ColId, 200, "viable data type for a fact (DECIMAL)"⟩,
           ⟨c7ColId, 200, "column name exactly matches a keyword: price"⟩] ∧
    (c7Run.map (fun r => lookupK r.1 c7ColId)) = .ok (some 400) ∧
    (c7Run.map (fun r => lookupK r.2 c7ColId)) = .ok (some (-1)) := by
  refine ⟨?_, ?_, ?_⟩ <;> rfl

/-! ## Claim C10: the empty composite -/

/-- Every callback of the composite visitor maps the empty component list to
the empty component list (or fails). -/
theorem compositeDispatch_nil (e : VisitStackEntry) (nd : NodeMetadata)
    (tt : String) :
    ∀ s' retval,
      nodeVisitDispatch compositeGraphVisitor [] e tt nd = .ok (s', retval) →
      s' = [] := by
  intro s' retval h
  rw [nodeVisitDispatch] at h
  split_ifs at h
  · rw [show compositeGraphVisitor.visit_reference [] e.to_node nd e.from_node
        e.edge_data = .ok ([], none) from rfl] at h
    exact (congrArg Prod.fst (Except.ok.inj h)).symm
  · rw [show compositeGraphVisitor.visit_schema [] e.to_node nd =
        .ok ([], some [EdgeTypes.SCHEMA_TABLE]) from rfl] at h
    exact (congrArg Prod.fst (Except.ok.inj h)).symm
  · rw [show compositeGraphVisitor.visit_table [] e.to_node nd =
        .ok ([], some [EdgeTypes.TABLE_COLUMN, EdgeTypes.TABLE_PK,
          EdgeTypes.TABLE_FK]) from rfl] at h
    exact (congrArg Prod.fst (Except.ok.inj h)).symm
  · cases nd with
    | columnRow r =>
      rw [show compositeGraphVisitor.visit_column [] e.to_node (.columnRow r) =
          .ok ([], some [EdgeTypes.REFERENCE]) from rfl] at h
      exact (congrArg Prod.fst (Except.ok.inj h)).symm
    | schemaRow r => exact Except.noConfusion h
    | tableRow r => exact Except.noConfusion h
    | pkRows l => exact Except.noConfusion h
    | fkRows l => exact Except.noConfusion h
    | typeRow r => exact Except.noConfusion h
  · cases nd with
    | pkRows l =>
      rw [show compositeGraphVisitor.visit_pk [] e.to_node (.pkRows l) =
          .ok ([], none) from rfl] at h
      exact (congrArg Prod.fst (Except.ok.inj h)).symm
    | schemaRow r => exact Except.noConfusion h
    | tableRow r => exact Except.noConfusion h
    | columnRow r => exact Except.noConfusion h
    | fkRows l => exact Except.noConfusion h
    | typeRow r => exact Except.noConfusion h
  · rw [show compositeGraphVisitor.visit_fk [] e.to_node nd =
        .ok ([], none) from rfl] at h
    exact (congrArg Prod.fst (Except.ok.inj h)).symm

/-- The traversal started on an empty composite state ends (when it ends) on
the empty composite state. -/
theorem visitLoop_nil_state (g : PyDiGraph) (md : DatabaseGraphMetadata)
    (fb : FallbackNav) :
    ∀ (fuel : Nat) (stack : List VisitStackEntry) (s' : CompositeState),
      visitLoop g md compositeGraphVisitor fb fuel [] stack = .ok s' →
      s' = [] := by
  intro fuel
  induction fuel with
  | zero =>
    intro stack s' h
    cases stack with
    | nil => exact (Except.ok.inj h).symm
    | cons e rest => exact absurd h (by rw [visitLoop]; simp)
  | succ fuel ih =>
    intro stack s' h
    cases stack with
    | nil => exact (Except.ok.inj h).symm
    | cons e rest =>
      rw [visitLoop] at h
      split at h
      · exact Except.noConfusion h
      split at h
      · exact Except.noConfusion h
      split at h
      · exact Except.noConfusion h
      split at h
      · exact Except.noConfusion h
      rename_i x2 oattrs heq3 schemav tt x1 nd heq1 x0 s1 retval hd
      have hs1 : s1 = [] := compositeDispatch_nil e nd schemav s1 retval hd
      subst hs1
      split at h <;>
        first
          | exact Except.noConfusion h
          | exact ih _ s' h

/-- C10: the composite with no components fails on reading either scoring
property (the merge reduction has no operand); consequently
add_fact_and_dim_scores with an empty scorer list never produces the
attribute dicts, and whenever the traversal itself completes the failure is
exactly the empty-reduce error raised after the traversal; no attribute is
written (the attribute dicts are only produced on success). -/
theorem c10_empty_composite_raises :
    compositeFactScoring [] =
      .error "TypeError: reduce() of empty iterable with no initial value" ∧
    compositeDimensionScoring [] =
      .error "TypeError: reduce() of empty iterable with no initial value" ∧
    (∀ (g : PyDiGraph) (md : DatabaseGraphMetadata) (fuel : Nat),
      (add_fact_and_dim_scores g md [] fuel).isOk = false) ∧
    (∀ (g : PyDiGraph) (md : DatabaseGraphMetadata) (fuel : Nat) s,
      accept_visitor g md compositeGraphVisitor [] fuel ([] : CompositeState) =
        .ok s →
      add_fact_and_dim_scores g md [] fuel =
        .error "TypeError: reduce() of empty iterable with no initial value") := by
  refine ⟨rfl, rfl, ?_, ?_⟩
  · intro g md fuel
    rw [add_fact_and_dim_scores]
    have hinit : (([] : List ScorerKind).map
        (fun k => (k, initialScorerState))) = ([] : CompositeState) := rfl
    rw [hinit]
    rcases ha : accept_visitor g md compositeGraphVisitor [] fuel
        ([] : CompositeState) with err | final
    · rfl
    · have : final = [] := visitLoop_nil_state g md [] fuel _ final ha
      subst this
      rfl
  · intro g md fuel s ha
    have hs : s = [] := visitLoop_nil_state g md [] fuel _ s ha
    subst hs
    rw [add_fact_and_dim_scores]
    have hinit : (([] : List ScorerKind).map
        (fun k => (k, initialScorerState))) = ([] : CompositeState) := rfl
    rw [hinit, ha]
    rfl

/-- Witness for C10 at the empty graph, where the traversal trivially
completes. -/
theorem c10_empty_composite_raises_witness :
    add_fact_and_dim_scores ⟨[], []⟩
      ⟨[], [], [], [], [], []⟩ [] 0 =
      .error "TypeError: reduce() of empty iterable with no initial value" :=
  c10_empty_composite_raises.2.2.2 ⟨[], []⟩ ⟨[], [], [], [], [], []⟩ 0 [] rfl

/-! ## Claim C8: a navigation directive walking straight back raises -/

def nodeTypeOf (g : PyDiGraph) (n : String) : Option String :=
  match lookupK g.nodes n with
  | some a => a.node_type
  | none => none

def cycleMsg : String := "Visit navigation data leads to a cycle. Aborting."

/-- When the followed out-edges include one leading back to the origin node
(and every destination is well typed, so that no KeyError preempts), the
expansion fold raises the VisitError. -/
theorem expandFold_cycle (g : PyDiGraph) (follow : List EdgeTypes)
    (e : VisitStackEntry) :
    ∀ (l : List (String × EdgeAttrs)) (acc : List (String × VisitStackEntry)),
      (∀ out ∈ l, ∃ t2, nodeTypeOf g out.1 = some t2 ∧ t2 ∈ visitOrderValues) →
      (∃ out ∈ l, out.2.edge_type ∈ follow ∧ some out.1 = e.from_node) →
      l.foldlM (expandStep g follow e) acc = .error cycleMsg := by
  intro l
  induction l with
  | nil =>
    intro acc _ h2
    simp at h2
  | cons out l ih =>
    intro acc h1 h2
    obtain ⟨t2, htype, hmem⟩ := h1 out (List.mem_cons_self out l)
    rcases hl : lookupK g.nodes out.1 with _ | a
    · rw [nodeTypeOf, hl] at htype; exact Option.noConfusion htype
    have hnt : a.node_type = some t2 := by rw [nodeTypeOf, hl] at htype; exact htype
    rw [List.foldlM_cons]
    by_cases htrig : out.2.edge_type ∈ follow ∧ some out.1 = e.from_node
    · have hstep : expandStep g follow e acc out = .error cycleMsg := by
        simp only [expandStep, hl, hnt, if_pos htrig.1, if_pos htrig.2]
        rfl
      rw [hstep]
      rfl
    · have hstep : ∃ acc', expandStep g follow e acc out = .ok acc' := by
        simp only [expandStep, hl, hnt]
        by_cases hf : out.2.edge_type ∈ follow
        · have hb : ¬ some out.1 = e.from_node := fun hb => htrig ⟨hf, hb⟩
          rw [if_pos hf, if_neg hb, if_pos hmem]
          exact ⟨_, rfl⟩
        · rw [if_neg hf]
          exact ⟨acc, rfl⟩
      obtain ⟨acc', hstep⟩ := hstep
      rw [hstep]
      have hred : ((Except.ok acc' : Except String (List (String × VisitStackEntry)))
          >>= fun acc => List.foldlM (expandStep g follow e) acc l) =
          List.foldlM (expandStep g follow e) acc' l := rfl
      rw [hred]
      refine ih acc' (fun o ho => h1 o (List.mem_cons_of_mem out ho)) ?_
      obtain ⟨o, ho, hof, hob⟩ := h2
      rcases List.mem_cons.mp ho with rfl | ho
      · exact absurd ⟨hof, hob⟩ htrig
      · exact ⟨o, ho, hof, hob⟩

theorem expandEntries_cycle (g : PyDiGraph) (follow : List EdgeTypes)
    (e : VisitStackEntry)
    (h1 : ∀ out ∈ g.outEdges e.to_node,
      ∃ t2, nodeTypeOf g out.1 = some t2 ∧ t2 ∈ visitOrderValues)
    (h2 : ∃ out ∈ g.outEdges e.to_node,
      out.2.edge_type ∈ follow ∧ some out.1 = e.from_node) :
    expandEntries g follow e = .error cycleMsg := by
  rw [expandEntries, expandFold_cycle g follow e (g.outEdges e.to_node) [] h1 h2]
  rfl

/-- C8: when the navigation directive in force at a visited node (callback
return value or fallback) follows an edge leading straight back to the node
it was reached from, the driver raises the VisitError (given that the scan
over the outgoing edges meets no earlier KeyError); and a traversal error
makes add_fact_and_dim_scores fail, so the fact_score / dim_score attribute
dicts are never produced and nothing is written back. -/
theorem c8_backtracking_directive_raises :
    (∀ (σ : Type) (g : PyDiGraph) (md : DatabaseGraphMetadata)
       (vis : DatabaseGraphVisitor σ) (fallback : FallbackNav) (fuel : Nat)
       (s : σ) (e : VisitStackEntry) (rest : List VisitStackEntry)
       (attrs : NodeAttrs) (tt : String) (nd : NodeMetadata) (s' : σ)
       (retval : Option (List EdgeTypes)),
       lookupK g.nodes e.to_node = some attrs →
       attrs.node_type = some tt →
       md.get_node_metadata e.to_node = some nd →
       nodeVisitDispatch vis s e tt nd = .ok (s', retval) →
       (∀ out ∈ g.outEdges e.to_node,
         ∃ t2, nodeTypeOf g out.1 = some t2 ∧ t2 ∈ visitOrderValues) →
       (∃ out ∈ g.outEdges e.to_node,
         out.2.edge_type ∈ followOfRetval fallback e tt retval ∧
           some out.1 = e.from_node) →
       visitLoop g md vis fallback (fuel + 1) s (e :: rest) = .error cycleMsg) ∧
    (∀ (g : PyDiGraph) (md : DatabaseGraphMetadata) (scorers : List ScorerKind)
       (fuel : Nat) (err : String),
       accept_visitor g md compositeGraphVisitor [] fuel
         (scorers.map (fun k => (k, initialScorerState))) = .error err →
       add_fact_and_dim_scores g md scorers fuel = .error err) := by
  constructor
  · intro σ g md vis fallback fuel s e rest attrs tt nd s' retval
      h1 h2 h3 h4 h5 h6
    rw [visitLoop]
    simp only [h1, h2, h3, h4,
      expandEntries_cycle g (followOfRetval fallback e tt retval) e h5 h6]
  · intro g md scorers fuel err ha
    rw [add_fact_and_dim_scores, ha]
    rfl

def c8Visitor : DatabaseGraphVisitor Unit :=
  { visit_schema := fun s _ _ => .ok (s, some [EdgeTypes.SCHEMA_TABLE]),
    visit_table := fun s _ _ => .ok (s, some [EdgeTypes.COLUMN_TABLE]),
    visit_column := fun s _ _ => .ok (s, none),
    visit_pk := fun s _ _ => .ok (s, none),
    visit_fk := fun s _ _ => .ok (s, none),
    visit_reference := fun s _ _ _ _ => .ok (s, none) }

def c8TableRow : MetadataTableRow :=
  ⟨"c", some "s", "t", some "TABLE", none, none, none, none, none, none⟩

def c8Graph : PyDiGraph :=
  { nodes := [(schema_id "c" (some "s"), ⟨some NodeTypes.SCHEMA.value, false⟩),
              (table_id "c" (some "s") "t", ⟨some NodeTypes.TABLE.value, false⟩)],
    edges := [((schema_id "c" (some "s"), table_id "c" (some "s") "t"),
                ⟨.SCHEMA_TABLE, .nopayload⟩),
              ((table_id "c" (some "s") "t", schema_id "c" (some "s")),
                ⟨.COLUMN_TABLE, .nopayload⟩)] }

def c8Md : DatabaseGraphMetadata :=
  { schemas := [(schema_id "c" (some "s"), ⟨some "s", "c"⟩)],
    tables := [(table_id "c" (some "s") "t", c8TableRow)],
    columns := [], pks := [], fks := [], types := [] }

def c8Entry : VisitStackEntry :=
  ⟨some (schema_id "c" (some "s")), table_id "c" (some "s") "t",
   some .SCHEMA_TABLE, some ⟨.SCHEMA_TABLE, .nopayload⟩⟩

def c8BadGraph : PyDiGraph := { nodes := [("x", ⟨none, false⟩)], edges := [] }

/-- Witness for C8: a visitor whose table directive walks back to the schema
raises the VisitError, and a composite traversal failure propagates out of
add_fact_and_dim_scores. -/
theorem c8_backtracking_directive_raises_witness :
    visitLoop c8Graph c8Md c8Visitor [] 1 () [c8Entry] = .error cycleMsg ∧
      add_fact_and_dim_scores c8BadGraph ⟨[], [], [], [], [], []⟩ defaultScorers 3 =
        .error "KeyError: node_type" :=
  ⟨c8_backtracking_directive_raises.1 Unit c8Graph c8Md c8Visitor [] 0 () c8Entry []
      ⟨some NodeTypes.TABLE.value, false⟩ NodeTypes.TABLE.value
      (.tableRow c8TableRow) () (some [EdgeTypes.COLUMN_TABLE])
      (by decide) rfl (by decide) rfl
      (by decide)
      ⟨(schema_id "c" (some "s"), ⟨.COLUMN_TABLE, .nopayload⟩), by decide,
        by decide, by decide⟩,
   c8_backtracking_directive_raises.2 c8BadGraph ⟨[], [], [], [], [], []⟩
     defaultScorers 3 "KeyError: node_type" rfl⟩

/-! ## Claim C5: sub-model extraction and disjointness.

get_isolated_submodels computes strongly connected components of the full
graph, discards singletons, and augments each remaining component with its
context nodes (schema sources of incoming schema-table edges, type targets
of outgoing column-type edges); it yields the induced subgraph of each such
node set.  The embedding computes the node sets, which is what the claim
speaks about. -/

def reachStep (acc : List String) (e : (String × String) × EdgeAttrs) :
    List String :=
  if e.1.1 ∈ acc ∧ e.1.2 ∉ acc then acc ++ [e.1.2] else acc

def reachExpand (g : PyDiGraph) (cur : List String) : List String :=
  g.edges.foldl reachStep cur

/-- Reachable set by saturation; the round count exceeds the largest possible
set, so the result is a fixed point of the expansion. -/
def reachList (g : PyDiGraph) (u : String) : List String :=
  (reachExpand g)^[g.edges.length + 1] [u]

def mutualReach (g : PyDiGraph) (u v : String) : Bool :=
  (reachList g u).contains v && (reachList g v).contains u

def componentOf (g : PyDiGraph) (n : String) : List String :=
  (g.nodes.map Prod.fst).filter (fun m => mutualReach g n m)

def dedupComps : List (List String) → List (List String) → List (List String)
  | _, [] => []
  | seen, x :: xs =>
    if x ∈ seen then dedupComps seen xs else x :: dedupComps (x :: seen) xs

/-- The strongly connected components, one representative list per class. -/
def sccs (g : PyDiGraph) : List (List String) :=
  dedupComps [] ((g.nodes.map Prod.fst).map (fun n => componentOf g n))

/-- Context nodes collected for one member of a component: sources of
incoming schema-table edges and targets of outgoing column-type edges. -/
def ctxOf (g : PyDiGraph) (node : String) : List String :=
  ((g.edges.filter
      (fun e => e.1.2 = node ∧ e.2.edge_type = EdgeTypes.SCHEMA_TABLE)).map
    (fun e => e.1.1)) ++
  ((g.edges.filter
      (fun e => e.1.1 = node ∧ e.2.edge_type = EdgeTypes.COLUMN_TYPE)).map
    (fun e => e.1.2))

/-- The node set of the sub-model built from one component (the source
accumulates it as a set; the embedding keeps a list with the same members). -/
def submodelOf (g : PyDiGraph) (comp : List String) : List String :=
  (comp.map (fun n => ctxOf g n ++ [n])).flatten

/-- get_isolated_submodels as the list of yielded node sets. -/
def get_isolated_submodels (g : PyDiGraph) : List (List String) :=
  (sccs g).filterMap
    (fun comp => if comp.length = 1 then none else some (submodelOf g comp))

/-! Edge shape facts of every built graph: schema-table edges always
originate at a composite schema identifier and column-type edges always
point at a composite type identifier, because the builder computes those
endpoints with the identifier functions. -/

def STCTok (e : (String × String) × EdgeAttrs) : Prop :=
  (e.2.edge_type = EdgeTypes.SCHEMA_TABLE → ∃ c s, e.1.1 = schema_id c s) ∧
  (e.2.edge_type = EdgeTypes.COLUMN_TYPE → ∃ t, e.1.2 = type_id t)

theorem addNode_edges (g : PyDiGraph) (n : String) (a : NodeAttrs) :
    (g.addNode n a).edges = g.edges := by
  rw [PyDiGraph.addNode]
  split <;> rfl

theorem ensureNode_edges (g : PyDiGraph) (n : String) :
    (g.ensureNode n).edges = g.edges := by
  rw [PyDiGraph.ensureNode]
  split <;> rfl

theorem mem_addEdge_edges {g : PyDiGraph} {u v : String} {a : EdgeAttrs}
    {e : (String × String) × EdgeAttrs} (h : e ∈ (g.addEdge u v a).edges) :
    e ∈ g.edges ∨ e = ((u, v), a) := by
  rw [PyDiGraph.addEdge] at h
  set g2 := (g.ensureNode u).ensureNode v with hg2
  have hge : g2.edges = g.edges := by
    rw [hg2, ensureNode_edges, ensureNode_edges]
  split at h
  · simp only at h
    rw [hge] at h
    rcases List.mem_map.mp h with ⟨q, hq, hqe⟩
    by_cases hk : q.1 = (u, v)
    · rw [if_pos hk] at hqe
      exact Or.inr hqe.symm
    · rw [if_neg hk] at hqe
      exact Or.inl (hqe ▸ hq)
  · simp only at h
    rw [hge] at h
    rcases List.mem_append.mp h with hq | hq
    · exact Or.inl hq
    · exact Or.inr (List.mem_singleton.mp hq)

/-- Pure fold preservation of an edge predicate. -/
theorem foldl_edges_pres {α : Type} {P : (String × String) × EdgeAttrs → Prop}
    (step : PyDiGraph → α → PyDiGraph)
    (hstep : ∀ g a, (∀ e ∈ g.edges, P e) → ∀ e ∈ (step g a).edges, P e) :
    ∀ (l : List α) (g : PyDiGraph), (∀ e ∈ g.edges, P e) →
      ∀ e ∈ (l.foldl step g).edges, P e := by
  intro l
  induction l with
  | nil => intro g hg; exact hg
  | cons a l ih =>
    intro g hg
    exact ih (step g a) (hstep g a hg)

/-- Fallible fold preservation of an edge predicate, through a projection of
the accumulator onto a graph. -/
theorem foldlM_proj_pres {σ α : Type} (proj : σ → PyDiGraph)
    {P : (String × String) × EdgeAttrs → Prop}
    (step : σ → α → Except String σ)
    (hstep : ∀ s a s', (∀ e ∈ (proj s).edges, P e) → step s a = .ok s' →
      ∀ e ∈ (proj s').edges, P e) :
    ∀ (l : List α) (s s' : σ), (∀ e ∈ (proj s).edges, P e) →
      l.foldlM step s = .ok s' → ∀ e ∈ (proj s').edges, P e := by
  intro l
  induction l with
  | nil =>
    intro s s' hs hok
    exact (Except.ok.inj hok) ▸ hs
  | cons a l ih =>
    intro s s' hs hok
    rw [List.foldlM_cons] at hok
    cases hsa : step s a with
    | error e =>
      rw [hsa] at hok
      exact Except.noConfusion hok
    | ok s1 =>
      rw [hsa] at hok
      exact ih s1 s' (hstep s a s1 hs hsa) hok

/-- Fallible fold preservation of an edge predicate. -/
theorem foldlM_edges_pres {α : Type} {P : (String × String) × EdgeAttrs → Prop}
    (step : PyDiGraph → α → Except String PyDiGraph)
    (hstep : ∀ g a g', (∀ e ∈ g.edges, P e) → step g a = .ok g' →
      ∀ e ∈ g'.edges, P e) :
    ∀ (l : List α) (g g' : PyDiGraph), (∀ e ∈ g.edges, P e) →
      l.foldlM step g = .ok g' → ∀ e ∈ g'.edges, P e :=
  foldlM_proj_pres (fun g => g) step hstep

theorem addEdge_pres {P : (String × String) × EdgeAttrs → Prop} {g : PyDiGraph}
    {u v : String} {a : EdgeAttrs} (hg : ∀ e ∈ g.edges, P e)
    (hn : P ((u, v), a)) : ∀ e ∈ (g.addEdge u v a).edges, P e := by
  intro e he
  rcases mem_addEdge_edges he with h | h
  · exact hg e h
  · exact h ▸ hn

theorem addNode_pres {P : (String × String) × EdgeAttrs → Prop} {g : PyDiGraph}
    {n : String} {a : NodeAttrs} (hg : ∀ e ∈ g.edges, P e) :
    ∀ e ∈ (g.addNode n a).edges, P e := by
  intro e he
  rw [addNode_edges] at he
  exact hg e he

theorem foldl_addNode_edges {β : Type} (attr : NodeAttrs) :
    ∀ (l : List (String × β)) (g : PyDiGraph),
      (l.foldl (fun g p => g.addNode p.1 attr) g).edges = g.edges := by
  intro l
  induction l with
  | nil => intro g; rfl
  | cons a l ih =>
    intro g
    rw [List.foldl_cons, ih, addNode_edges]

theorem factoryBase_edges (md : DatabaseGraphMetadata) (b : Bool) :
    (factoryBase md b).edges = [] := by
  rw [factoryBase]
  cases b
  · simp only [Bool.false_eq_true, if_false]
    exact foldl_addNode_edges _ md.schemas ⟨[], []⟩
  · simp only [if_true]
    rw [foldl_addNode_edges _ md.schemas, foldl_addNode_edges _ md.types]

/-- STCTok holds for every edge attribute record whose type is neither
schema-table nor column-type. -/
theorem STCTok_other {u v : String} {a : EdgeAttrs}
    (h1 : a.edge_type ≠ EdgeTypes.SCHEMA_TABLE)
    (h2 : a.edge_type ≠ EdgeTypes.COLUMN_TYPE) : STCTok ((u, v), a) :=
  ⟨fun h => absurd h h1, fun h => absurd h h2⟩

theorem addTableStep_STCT (md : DatabaseGraphMetadata) (g g' : PyDiGraph)
    (p : String × MetadataTableRow) (hg : ∀ e ∈ g.edges, STCTok e)
    (h : addTableStep md g p = .ok g') : ∀ e ∈ g'.edges, STCTok e := by
  rw [addTableStep] at h
  split at h
  · cases Except.ok.inj h
    exact addEdge_pres (addNode_pres hg)
      ⟨fun _ => ⟨p.2.table_cat, p.2.table_schem, rfl⟩, fun hct => by cases hct⟩
  · exact Except.noConfusion h

set_option maxHeartbeats 1600000 in
theorem addColumnStep_STCT (md : DatabaseGraphMetadata) (inc : Bool)
    (acc acc' : PyDiGraph × List String) (p : String × MetadataColumnRow)
    (hg : ∀ e ∈ acc.1.edges, STCTok e)
    (h : addColumnStep md inc acc p = .ok acc') : ∀ e ∈ acc'.1.edges, STCTok e := by
  obtain ⟨g, missing⟩ := acc
  rw [addColumnStep] at h
  split at h
  · split at h
    · dsimp only at h
      split at h
      · rw [← Except.ok.inj h]
        dsimp only
        exact addEdge_pres (addNode_pres (addEdge_pres (addEdge_pres
          (addNode_pres hg)
          (STCTok_other (fun hx => EdgeTypes.noConfusion hx)
            (fun hx => EdgeTypes.noConfusion hx)))
          (STCTok_other (fun hx => EdgeTypes.noConfusion hx)
            (fun hx => EdgeTypes.noConfusion hx))))
          ⟨fun hct => EdgeTypes.noConfusion hct, fun _ => ⟨p.2.type_name, rfl⟩⟩
      · rw [← Except.ok.inj h]
        dsimp only
        exact addEdge_pres (addEdge_pres (addEdge_pres
          (addNode_pres hg)
          (STCTok_other (fun hx => EdgeTypes.noConfusion hx)
            (fun hx => EdgeTypes.noConfusion hx)))
          (STCTok_other (fun hx => EdgeTypes.noConfusion hx)
            (fun hx => EdgeTypes.noConfusion hx)))
          ⟨fun hct => EdgeTypes.noConfusion hct, fun _ => ⟨p.2.type_name, rfl⟩⟩
    · rw [← Except.ok.inj h]
      dsimp only
      exact addEdge_pres (addEdge_pres (addNode_pres hg)
        (STCTok_other (fun hx => EdgeTypes.noConfusion hx)
          (fun hx => EdgeTypes.noConfusion hx)))
        (STCTok_other (fun hx => EdgeTypes.noConfusion hx)
          (fun hx => EdgeTypes.noConfusion hx))
  · exact Except.noConfusion h

theorem addPkStep_STCT (md : DatabaseGraphMetadata) (g g' : PyDiGraph)
    (p : String × List MetadataPrimaryKeyRow) (hg : ∀ e ∈ g.edges, STCTok e)
    (h : addPkStep md g p = .ok g') : ∀ e ∈ g'.edges, STCTok e := by
  obtain ⟨k, rows⟩ := p
  rw [addPkStep] at h
  cases rows with
  | nil => exact Except.noConfusion h
  | cons first rest =>
    dsimp only at h
    split at h
    · refine foldlM_edges_pres _ ?_ (first :: rest) _ g' ?_ h
      · intro g1 row g2 hg1 hstep
        split at hstep
        · cases Except.ok.inj hstep
          exact addEdge_pres hg1 (STCTok_other (by simp) (by simp))
        · exact Except.noConfusion hstep
      · exact addEdge_pres (addNode_pres hg) (STCTok_other (by simp) (by simp))
    · exact Except.noConfusion h

theorem addFkStep_STCT (g g' : PyDiGraph)
    (p : String × List MetadataForeignKeyRow) (hg : ∀ e ∈ g.edges, STCTok e)
    (h : addFkStep g p = .ok g') : ∀ e ∈ g'.edges, STCTok e := by
  obtain ⟨k, rows⟩ := p
  rw [addFkStep] at h
  cases rows with
  | nil => exact Except.noConfusion h
  | cons first rest =>
    dsimp only at h
    cases Except.ok.inj h
    refine foldl_edges_pres _ ?_ (first :: rest) _ ?_
    · intro g1 row hg1
      exact addEdge_pres (addEdge_pres (addEdge_pres (addEdge_pres hg1
        (STCTok_other (by simp) (by simp))) (STCTok_other (by simp) (by simp)))
        (STCTok_other (by simp) (by simp))) (STCTok_other (by simp) (by simp))
    · exact addEdge_pres (addEdge_pres (addNode_pres hg)
        (STCTok_other (by simp) (by simp))) (STCTok_other (by simp) (by simp))

/-- Every edge of a built graph satisfies the schema-table / column-type
endpoint shape. -/
theorem factory_STCT (md : DatabaseGraphMetadata) (b : Bool) (g : PyDiGraph)
    (h : _full_graph_factory md b = .ok g) : ∀ e ∈ g.edges, STCTok e := by
  rw [_full_graph_factory] at h
  cases hT : md.tables.foldlM (addTableStep md) (factoryBase md b) with
  | error e => rw [hT] at h; exact Except.noConfusion h
  | ok gT =>
    rw [hT] at h
    have hred : ((Except.ok gT : Except String PyDiGraph) >>= fun g =>
        md.columns.foldlM (addColumnStep md b) (g, []) >>= fun gm =>
          md.pks.foldlM (addPkStep md) gm.1 >>= fun g =>
            md.fks.foldlM addFkStep g) =
        (md.columns.foldlM (addColumnStep md b) (gT, []) >>= fun gm =>
          md.pks.foldlM (addPkStep md) gm.1 >>= fun g =>
            md.fks.foldlM addFkStep g) := rfl
    rw [hred] at h
    have hTok : ∀ e ∈ gT.edges, STCTok e := by
      refine foldlM_edges_pres (addTableStep md)
        (fun g a g' hg hs => addTableStep_STCT md g g' a hg hs) md.tables _ gT ?_ hT
      rw [factoryBase_edges]
      intro e he
      exact absurd he (List.not_mem_nil e)
    cases hC : md.columns.foldlM (addColumnStep md b) (gT, []) with
    | error e => rw [hC] at h; exact Except.noConfusion h
    | ok gC =>
      rw [hC] at h
      have hred2 : ((Except.ok gC : Except String (PyDiGraph × List String)) >>=
          fun gm => md.pks.foldlM (addPkStep md) gm.1 >>= fun g =>
            md.fks.foldlM addFkStep g) =
          (md.pks.foldlM (addPkStep md) gC.1 >>= fun g =>
            md.fks.foldlM addFkStep g) := rfl
      rw [hred2] at h
      have hCok : ∀ e ∈ gC.1.edges, STCTok e :=
        foldlM_proj_pres Prod.fst (addColumnStep md b)
          (fun s a s' hs hok => addColumnStep_STCT md b s s' a hs hok)
          md.columns (gT, []) gC hTok hC
      cases hP : md.pks.foldlM (addPkStep md) gC.1 with
      | error e => rw [hP] at h; exact Except.noConfusion h
      | ok gP =>
        rw [hP] at h
        have hred3 : ((Except.ok gP : Except String PyDiGraph) >>= fun g =>
            md.fks.foldlM addFkStep g) = md.fks.foldlM addFkStep gP := rfl
        rw [hred3] at h
        have hPok : ∀ e ∈ gP.edges, STCTok e :=
          foldlM_edges_pres (addPkStep md)
            (fun g a g' hg hs => addPkStep_STCT md g g' a hg hs)
            md.pks gC.1 gP hCok hP
        exact foldlM_edges_pres addFkStep
          (fun g a g' hg hs => addFkStep_STCT g g' a hg hs)
          md.fks gP g hPok h

/-! Correctness of the saturation-based reachable set: it is sound and
complete for the reflexive-transitive closure of the edge relation. -/

def edgeRel (g : PyDiGraph) (u v : String) : Prop :=
  ∃ a, ((u, v), a) ∈ g.edges

def ReachP (g : PyDiGraph) (u v : String) : Prop :=
  Relation.ReflTransGen (edgeRel g) u v

theorem reachStep_cases (acc : List String) (e : (String × String) × EdgeAttrs) :
    reachStep acc e = acc ∨
      (reachStep acc e = acc ++ [e.1.2] ∧ e.1.1 ∈ acc ∧ e.1.2 ∉ acc) := by
  rw [reachStep]
  by_cases h : e.1.1 ∈ acc ∧ e.1.2 ∉ acc
  · rw [if_pos h]; exact Or.inr ⟨rfl, h⟩
  · rw [if_neg h]; exact Or.inl rfl

theorem reachFold_append : ∀ (l : List ((String × String) × EdgeAttrs))
    (acc : List String), ∃ extra, l.foldl reachStep acc = acc ++ extra := by
  intro l
  induction l with
  | nil => intro acc; exact ⟨[], (List.append_nil acc).symm⟩
  | cons e l ih =>
    intro acc
    rw [List.foldl_cons]
    rcases reachStep_cases acc e with h | ⟨h, _⟩ <;> rw [h]
    · exact ih acc
    · obtain ⟨extra, hx⟩ := ih (acc ++ [e.1.2])
      exact ⟨[e.1.2] ++ extra, by rw [hx, List.append_assoc]⟩

theorem reachFold_mono {x : String} : ∀ (l : List ((String × String) × EdgeAttrs))
    (acc : List String), x ∈ acc → x ∈ l.foldl reachStep acc := by
  intro l acc hx
  obtain ⟨extra, hx2⟩ := reachFold_append l acc
  rw [hx2]
  exact List.mem_append_left extra hx

theorem reachFold_nodup : ∀ (l : List ((String × String) × EdgeAttrs))
    (acc : List String), acc.Nodup → (l.foldl reachStep acc).Nodup := by
  intro l
  induction l with
  | nil => intro acc h; exact h
  | cons e l ih =>
    intro acc h
    rw [List.foldl_cons]
    rcases reachStep_cases acc e with hs | ⟨hs, _, hnm⟩ <;> rw [hs]
    · exact ih acc h
    · refine ih _ (List.nodup_append.mpr ⟨h, List.nodup_singleton _, ?_⟩)
      intro y hy hy2
      rw [List.mem_singleton] at hy2
      exact hnm (hy2 ▸ hy)

theorem reachFold_subset {U : List String} :
    ∀ (l : List ((String × String) × EdgeAttrs)) (acc : List String),
      (∀ x ∈ acc, x ∈ U) → (∀ e ∈ l, e.1.2 ∈ U) →
      ∀ x ∈ l.foldl reachStep acc, x ∈ U := by
  intro l
  induction l with
  | nil => intro acc ha _; exact ha
  | cons e l ih =>
    intro acc ha hl
    rw [List.foldl_cons]
    refine ih _ ?_ (fun e2 he2 => hl e2 (List.mem_cons_of_mem e he2))
    rcases reachStep_cases acc e with hs | ⟨hs, _, _⟩ <;> rw [hs]
    · exact ha
    · intro x hx
      rcases List.mem_append.mp hx with hx | hx
      · exact ha x hx
      · rw [List.mem_singleton] at hx
        exact hx ▸ hl e (List.mem_cons_self e l)

theorem reachFold_closed_mem :
    ∀ (l : List ((String × String) × EdgeAttrs)) (acc : List String)
      (e : (String × String) × EdgeAttrs), e ∈ l → e.1.1 ∈ acc →
      e.1.2 ∈ l.foldl reachStep acc := by
  intro l
  induction l with
  | nil => intro acc e he; exact absurd he (List.not_mem_nil e)
  | cons e0 l ih =>
    intro acc e he h1
    rw [List.foldl_cons]
    rcases List.mem_cons.mp he with rfl | he
    · by_cases h2 : e.1.2 ∈ acc
      · refine reachFold_mono l _ ?_
        rcases reachStep_cases acc e with hs | ⟨hs, _, _⟩ <;> rw [hs]
        · exact h2
        · exact List.mem_append_left _ h2
      · have hs : reachStep acc e = acc ++ [e.1.2] := by
          rw [reachStep, if_pos ⟨h1, h2⟩]
        rw [hs]
        exact reachFold_mono l _ (List.mem_append_right _ (List.mem_singleton.mpr rfl))
    · refine ih _ e he ?_
      rcases reachStep_cases acc e0 with hs | ⟨hs, _, _⟩ <;> rw [hs]
      · exact h1
      · exact List.mem_append_left _ h1

theorem reachFold_sound (g : PyDiGraph) (u : String) :
    ∀ (l : List ((String × String) × EdgeAttrs)) (acc : List String),
      (∀ e ∈ l, e ∈ g.edges) → (∀ x ∈ acc, ReachP g u x) →
      ∀ x ∈ l.foldl reachStep acc, ReachP g u x := by
  intro l
  induction l with
  | nil => intro acc _ ha; exact ha
  | cons e l ih =>
    intro acc hl ha
    rw [List.foldl_cons]
    refine ih _ (fun e2 he2 => hl e2 (List.mem_cons_of_mem e he2)) ?_
    rcases reachStep_cases acc e with hs | ⟨hs, h1, _⟩ <;> rw [hs]
    · exact ha
    · intro x hx
      rcases List.mem_append.mp hx with hx | hx
      · exact ha x hx
      · rw [List.mem_singleton] at hx
        subst hx
        refine Relation.ReflTransGen.tail (ha e.1.1 h1) ?_
        exact ⟨e.2, by simpa using hl e (List.mem_cons_self e l)⟩

theorem reachList_sound (g : PyDiGraph) (u : String) :
    ∀ (k : Nat), ∀ x ∈ (reachExpand g)^[k] [u], ReachP g u x := by
  intro k
  induction k with
  | zero =>
    intro x hx
    rw [Function.iterate_zero_apply, List.mem_singleton] at hx
    exact hx ▸ Relation.ReflTransGen.refl
  | succ k ih =>
    intro x hx
    rw [Function.iterate_succ_apply'] at hx
    exact reachFold_sound g u g.edges _ (fun e he => he) ih x hx

theorem reachList_stable (g : PyDiGraph) (u : String) :
    reachExpand g (reachList g u) = reachList g u := by
  have hbound : ∀ k, ∀ x ∈ (reachExpand g)^[k] [u],
      x ∈ u :: g.edges.map (fun e => e.1.2) := by
    intro k
    induction k with
    | zero =>
      intro x hx
      rw [Function.iterate_zero_apply, List.mem_singleton] at hx
      exact hx ▸ List.mem_cons_self _ _
    | succ k ih =>
      intro x hx
      rw [Function.iterate_succ_apply'] at hx
      refine reachFold_subset g.edges _ ih ?_ x hx
      intro e he
      exact List.mem_cons_of_mem _ (List.mem_map.mpr ⟨e, he, rfl⟩)
  have hnodup : ∀ k, ((reachExpand g)^[k] [u]).Nodup := by
    intro k
    induction k with
    | zero => exact List.nodup_singleton u
    | succ k ih =>
      rw [Function.iterate_succ_apply']
      exact reachFold_nodup g.edges _ ih
  have hlen : ∀ k, ((reachExpand g)^[k] [u]).length ≤ g.edges.length + 1 := by
    intro k
    have hsub : (reachExpand g)^[k] [u] ⊆ u :: g.edges.map (fun e => e.1.2) :=
      fun x hx => hbound k x hx
    have := List.Subperm.length_le (List.Nodup.subperm (hnodup k) hsub)
    simpa using this
  have hgrow : ∀ k, (∃ j, j ≤ k ∧ reachExpand g ((reachExpand g)^[j] [u]) =
      (reachExpand g)^[j] [u]) ∨ k + 1 ≤ ((reachExpand g)^[k] [u]).length := by
    intro k
    induction k with
    | zero => exact Or.inr (by rw [Function.iterate_zero_apply]; exact Nat.le_refl 1)
    | succ k ih =>
      rcases ih with ⟨j, hj, hstable⟩ | hlen2
      · exact Or.inl ⟨j, Nat.le_succ_of_le hj, hstable⟩
      · by_cases hst : reachExpand g ((reachExpand g)^[k] [u]) = (reachExpand g)^[k] [u]
        · exact Or.inl ⟨k, Nat.le_succ k, hst⟩
        · refine Or.inr ?_
          rw [Function.iterate_succ_apply']
          obtain ⟨extra, hx⟩ := reachFold_append g.edges ((reachExpand g)^[k] [u])
          cases extra with
          | nil =>
            rw [List.append_nil] at hx
            exact absurd hx hst
          | cons y ys =>
            rw [reachExpand, hx, List.length_append]
            have := hlen2
            simp only [List.length_cons]
            omega
  have hpersist : ∀ (j i : Nat), reachExpand g ((reachExpand g)^[j] [u]) =
      (reachExpand g)^[j] [u] →
      (reachExpand g)^[j + i] [u] = (reachExpand g)^[j] [u] := by
    intro j i hst
    induction i with
    | zero => rfl
    | succ i ih =>
      have : j + (i + 1) = (j + i) + 1 := rfl
      rw [this, Function.iterate_succ_apply', ih, hst]
  rcases hgrow (g.edges.length + 1) with ⟨j, hj, hstable⟩ | hlen2
  · have hdecomp : g.edges.length + 1 = j + (g.edges.length + 1 - j) := by omega
    rw [reachList, hdecomp, hpersist j (g.edges.length + 1 - j) hstable]
    exact hstable
  · have := hlen (g.edges.length + 1)
    omega

theorem reachList_complete (g : PyDiGraph) (u v : String)
    (h : ReachP g u v) : v ∈ reachList g u := by
  induction h with
  | refl =>
    have : ∀ k, u ∈ (reachExpand g)^[k] [u] := by
      intro k
      induction k with
      | zero => exact List.mem_singleton.mpr rfl
      | succ k ih =>
        rw [Function.iterate_succ_apply']
        exact reachFold_mono g.edges _ ih
    exact this (g.edges.length + 1)
  | tail hab hbc ih =>
    rename_i b c
    obtain ⟨a, ha⟩ := hbc
    have : c ∈ reachExpand g (reachList g u) := by
      rw [reachExpand]
      exact reachFold_closed_mem g.edges (reachList g u) ((b, c), a) ha ih
    rw [reachList_stable g u] at this
    exact this

theorem mutualReach_iff (g : PyDiGraph) (u v : String) :
    mutualReach g u v = true ↔ (ReachP g u v ∧ ReachP g v u) := by
  rw [mutualReach, Bool.and_eq_true, List.elem_iff, List.elem_iff]
  constructor
  · rintro ⟨h1, h2⟩
    exact ⟨reachList_sound g u _ v h1, reachList_sound g v _ u h2⟩
  · rintro ⟨h1, h2⟩
    exact ⟨reachList_complete g u v h1, reachList_complete g v u h2⟩

theorem componentOf_eq_of_share (g : PyDiGraph) (n1 n2 x : String)
    (h1 : mutualReach g n1 x = true) (h2 : mutualReach g n2 x = true) :
    componentOf g n1 = componentOf g n2 := by
  rw [componentOf, componentOf]
  refine List.filter_congr ?_
  intro m _
  obtain ⟨h1a, h1b⟩ := (mutualReach_iff g n1 x).mp h1
  obtain ⟨h2a, h2b⟩ := (mutualReach_iff g n2 x).mp h2
  rw [Bool.eq_iff_iff, mutualReach_iff, mutualReach_iff]
  constructor
  · rintro ⟨ha, hb⟩
    exact ⟨Relation.ReflTransGen.trans h2a (Relation.ReflTransGen.trans h1b ha),
      Relation.ReflTransGen.trans hb (Relation.ReflTransGen.trans h1a h2b)⟩
  · rintro ⟨ha, hb⟩
    exact ⟨Relation.ReflTransGen.trans h1a (Relation.ReflTransGen.trans h2b ha),
      Relation.ReflTransGen.trans hb (Relation.ReflTransGen.trans h2a h1b)⟩

theorem mem_dedupComps (x : List String) :
    ∀ (seen l : List (List String)), x ∈ dedupComps seen l → x ∈ l := by
  intro seen l
  induction l generalizing seen with
  | nil => intro h; exact absurd h (List.not_mem_nil x)
  | cons y ys ih =>
    intro h
    rw [dedupComps] at h
    split at h
    · exact List.mem_cons_of_mem y (ih _ h)
    · rcases List.mem_cons.mp h with rfl | h
      · exact List.mem_cons_self x ys
      · exact List.mem_cons_of_mem y (ih _ h)

theorem sccs_mem {g : PyDiGraph} {C : List String} (h : C ∈ sccs g) :
    ∃ n, C = componentOf g n := by
  rcases List.mem_map.mp (mem_dedupComps C [] _ h) with ⟨n, _, hn⟩
  exact ⟨n, hn.symm⟩

theorem submodel_mem {g : PyDiGraph} {C : List String} {x : String}
    (h : x ∈ submodelOf g C) : ∃ n ∈ C, x ∈ ctxOf g n ∨ x = n := by
  rw [submodelOf] at h
  rcases List.mem_flatten.mp h with ⟨l, hl, hx⟩
  rcases List.mem_map.mp hl with ⟨n, hn, rfl⟩
  rcases List.mem_append.mp hx with hx | hx
  · exact ⟨n, hn, Or.inl hx⟩
  · exact ⟨n, hn, Or.inr (List.mem_singleton.mp hx)⟩

theorem ctx_shape {md : DatabaseGraphMetadata} {b : Bool} {g : PyDiGraph}
    (hfac : _full_graph_factory md b = .ok g) {n x : String}
    (h : x ∈ ctxOf g n) :
    (∃ c s, x = schema_id c s) ∨ (∃ t, x = type_id t) := by
  rw [ctxOf] at h
  rcases List.mem_append.mp h with h | h
  · rcases List.mem_map.mp h with ⟨e, he, rfl⟩
    rw [List.mem_filter] at he
    have hst : e.2.edge_type = EdgeTypes.SCHEMA_TABLE := (of_decide_eq_true he.2).2
    exact Or.inl ((factory_STCT md b g hfac e he.1).1 hst)
  · rcases List.mem_map.mp h with ⟨e, he, rfl⟩
    rw [List.mem_filter] at he
    have hct : e.2.edge_type = EdgeTypes.COLUMN_TYPE := (of_decide_eq_true he.2).2
    exact Or.inr ((factory_STCT md b g hfac e he.1).2 hct)

theorem mem_componentOf {g : PyDiGraph} {n m : String} :
    m ∈ componentOf g n ↔ m ∈ g.nodes.map Prod.fst ∧ mutualReach g n m = true := by
  rw [componentOf, List.mem_filter]

/-- C5: across distinct strongly connected components of a built graph (in
particular the nontrivial ones that get_isolated_submodels yields, one
sub-model per component), a node occurring in both sub-model node sets can
only be a context node: the source of a schema-table edge (a schema
identifier) or the target of a column-type edge (a type identifier).  Table,
column, pk and fk nodes never repeat across yielded sub-models. -/
theorem c5_submodels_share_only_context :
    ∀ (md : DatabaseGraphMetadata) (b : Bool) (g : PyDiGraph),
      _full_graph_factory md b = .ok g →
      ∀ C1 ∈ sccs g, ∀ C2 ∈ sccs g, 1 < C1.length → 1 < C2.length → C1 ≠ C2 →
      ∀ x, x ∈ submodelOf g C1 → x ∈ submodelOf g C2 →
      (∃ c s, x = schema_id c s) ∨ (∃ t, x = type_id t) := by
  intro md b g hfac C1 hC1 C2 hC2 _ _ hne x hx1 hx2
  obtain ⟨n1, rfl⟩ := sccs_mem hC1
  obtain ⟨n2, rfl⟩ := sccs_mem hC2
  obtain ⟨m1, hm1, hcase1⟩ := submodel_mem hx1
  obtain ⟨m2, hm2, hcase2⟩ := submodel_mem hx2
  rcases hcase1 with hctx | rfl
  · exact ctx_shape hfac hctx
  rcases hcase2 with hctx | rfl
  · exact ctx_shape hfac hctx
  exact absurd
    (componentOf_eq_of_share g n1 n2 x (mem_componentOf.mp hm1).2
      (mem_componentOf.mp hm2).2) hne

def c5ColRowA : MetadataColumnRow :=
  ⟨"c", some "s", "ta", "x1", 4, "INT", none, none, none, none, 1,
   none, none, none, none, none, 1, none, none, none, none, none, none, none⟩

def c5ColRowB : MetadataColumnRow :=
  ⟨"c", some "s", "tb", "x2", 4, "INT", none, none, none, none, 1,
   none, none, none, none, none, 1, none, none, none, none, none, none, none⟩

def c5Md : DatabaseGraphMetadata :=
  { schemas := [(schema_id "c" (some "s"), ⟨some "s", "c"⟩)],
    tables := [(table_id "c" (some "s") "ta",
      ⟨"c", some "s", "ta", some "TABLE", none, none, none, none, none, none⟩),
      (table_id "c" (some "s") "tb",
      ⟨"c", some "s", "tb", some "TABLE", none, none, none, none, none, none⟩)],
    columns := [(column_id "c" (some "s") "ta" "x1", c5ColRowA),
      (column_id "c" (some "s") "tb" "x2", c5ColRowB)],
    pks := [], fks := [], types := [] }

def c5G : PyDiGraph :=
  match _full_graph_factory c5Md false with
  | .ok g => g
  | .error _ => ⟨[], []⟩

set_option maxRecDepth 20000 in
/-- Witness for C5: two single-table components in one schema share exactly
the schema context node, which the theorem certifies as a schema identifier. -/
theorem c5_submodels_share_only_context_witness :
    (∃ c s, schema_id "c" (some "s") = schema_id c s) ∨
      (∃ t, schema_id "c" (some "s") = type_id t) :=
  c5_submodels_share_only_context c5Md false c5G rfl
    (componentOf c5G (table_id "c" (some "s") "ta")) (by decide)
    (componentOf c5G (table_id "c" (some "s") "tb")) (by decide)
    (by decide) (by decide) (by decide)
    (schema_id "c" (some "s")) (by decide) (by decide)

/-! ## Claim C9 groundwork: association-lookup facts and node-set lemmas -/

theorem lookupK_mem {β : Type} {l : List (String × β)} {k : String} {v : β}
    (h : lookupK l k = some v) : (k, v) ∈ l := by
  induction l with
  | nil => exact Option.noConfusion h
  | cons p rest ih =>
    obtain ⟨a, b⟩ := p
    rw [lookupK_cons] at h
    by_cases hak : a = k
    · rw [if_pos hak] at h
      exact List.mem_cons.mpr (Or.inl (by rw [hak, Option.some.inj h]))
    · rw [if_neg hak] at h
      exact List.mem_cons_of_mem _ (ih h)

theorem lookupK_isSome_mem {β : Type} {l : List (String × β)} {k : String}
    (h : (lookupK l k).isSome = true) :
    ∃ v, lookupK l k = some v ∧ (k, v) ∈ l := by
  cases hl : lookupK l k with
  | none => rw [hl] at h; exact Bool.noConfusion h
  | some v => exact ⟨v, rfl, lookupK_mem hl⟩

theorem mem_lookupK_isSome {β : Type} {l : List (String × β)} {k : String} {v : β}
    (h : (k, v) ∈ l) : (lookupK l k).isSome = true := by
  induction l with
  | nil => exact absurd h (List.not_mem_nil _)
  | cons p rest ih =>
    obtain ⟨a, b⟩ := p
    rw [lookupK_cons]
    by_cases hak : a = k
    · rw [if_pos hak]; rfl
    · rw [if_neg hak]
      rcases List.mem_cons.mp h with he | hm
      · exact absurd (congrArg Prod.fst he).symm hak
      · exact ih hm

theorem lookupK_none_of_heads {β : Type} {l : List (String × β)} {c : Char}
    (hl : ∀ p ∈ l, p.1.data.head? = some c) {k : String} {c2 : Char}
    (hk : k.data.head? = some c2) (hne : c ≠ c2) : lookupK l k = none := by
  induction l with
  | nil => rfl
  | cons p rest ih =>
    obtain ⟨a, b⟩ := p
    rw [lookupK_cons]
    have ha := hl (a, b) (List.mem_cons_self _ _)
    have hak : a ≠ k := by
      intro he
      rw [he, hk] at ha
      exact hne (Option.some.inj ha).symm
    rw [if_neg hak]
    exact ih (fun q hq => hl q (List.mem_cons_of_mem _ hq))

theorem key_head {β : Type} {l : List (String × β)} {c : Char}
    (hl : ∀ p ∈ l, p.1.data.head? = some c) {k : String}
    (h : (lookupK l k).isSome = true) : k.data.head? = some c := by
  obtain ⟨v, _, hm⟩ := lookupK_isSome_mem h
  exact hl (k, v) hm

theorem lookupK_append {β : Type} (l1 l2 : List (String × β)) (k : String) :
    lookupK (l1 ++ l2) k =
      match lookupK l1 k with
      | some v => some v
      | none => lookupK l2 k := by
  induction l1 with
  | nil => rfl
  | cons p rest ih =>
    obtain ⟨a, b⟩ := p
    rw [List.cons_append, lookupK_cons, lookupK_cons]
    by_cases hak : a = k
    · rw [if_pos hak, if_pos hak]
    · rw [if_neg hak, if_neg hak, ih]

theorem lookupK_isSome_map_keyfix {β : Type} {l : List (String × β)}
    (f : String × β → String × β) (hf : ∀ p, (f p).1 = p.1) (m : String) :
    (lookupK (l.map f) m).isSome = (lookupK l m).isSome := by
  induction l with
  | nil => rfl
  | cons p rest ih =>
    obtain ⟨a, b⟩ := p
    rw [List.map_cons]
    cases hq : f (a, b) with
    | mk a2 b2 =>
      have ha2 : a2 = a := by
        have hx := hf (a, b)
        rw [hq] at hx
        exact hx
      rw [lookupK_cons, lookupK_cons, ha2]
      by_cases ham : a = m
      · rw [if_pos ham, if_pos ham]; rfl
      · rw [if_neg ham, if_neg ham]; exact ih

theorem mem_addNode_nodes {g : PyDiGraph} {n : String} {a : NodeAttrs}
    {p : String × NodeAttrs} (h : p ∈ (g.addNode n a).nodes) :
    p ∈ g.nodes ∨ p = (n, a) := by
  rw [PyDiGraph.addNode] at h
  split at h
  · simp only at h
    rcases List.mem_map.mp h with ⟨q, hq, hqe⟩
    by_cases hk : q.1 = n
    · rw [if_pos hk] at hqe; exact Or.inr hqe.symm
    · rw [if_neg hk] at hqe; exact Or.inl (hqe ▸ hq)
  · simp only at h
    rcases List.mem_append.mp h with hq | hq
    · exact Or.inl hq
    · exact Or.inr (List.mem_singleton.mp hq)

theorem lookupK_isSome_addNode {g : PyDiGraph} {m : String}
    (h : (lookupK g.nodes m).isSome = true) (n : String) (a : NodeAttrs) :
    (lookupK (g.addNode n a).nodes m).isSome = true := by
  rw [PyDiGraph.addNode]
  split
  · simp only
    rw [lookupK_isSome_map_keyfix _ (fun p => by by_cases hp : p.1 = n <;> simp [hp]) m]
    exact h
  · simp only [lookupK_append]
    obtain ⟨v, hv⟩ := Option.isSome_iff_exists.mp h
    rw [hv]
    rfl

theorem lookupK_isSome_addNode_self (g : PyDiGraph) (n : String) (a : NodeAttrs) :
    (lookupK (g.addNode n a).nodes n).isSome = true := by
  rw [PyDiGraph.addNode]
  split
  · rename_i hs
    simp only
    rw [lookupK_isSome_map_keyfix _ (fun p => by by_cases hp : p.1 = n <;> simp [hp]) n]
    exact hs
  · rename_i hns
    simp only [lookupK_append]
    have hnone : lookupK g.nodes n = none := by
      cases hl : lookupK g.nodes n with
      | none => rfl
      | some v => rw [hl] at hns; exact absurd rfl hns
    rw [hnone]
    simp [lookupK]

theorem ensureNode_of_present {g : PyDiGraph} {n : String}
    (h : (lookupK g.nodes n).isSome = true) : g.ensureNode n = g := by
  rw [PyDiGraph.ensureNode, if_pos h]

theorem lookupK_isSome_ensureNode {g : PyDiGraph} {m : String}
    (h : (lookupK g.nodes m).isSome = true) (n : String) :
    (lookupK (g.ensureNode n).nodes m).isSome = true := by
  rw [PyDiGraph.ensureNode]
  split
  · exact h
  · simp only [lookupK_append]
    obtain ⟨v, hv⟩ := Option.isSome_iff_exists.mp h
    rw [hv]
    rfl

theorem addEdge_nodes (g : PyDiGraph) (u v : String) (a : EdgeAttrs) :
    (g.addEdge u v a).nodes = ((g.ensureNode u).ensureNode v).nodes := by
  simp only [PyDiGraph.addEdge]
  split <;> rfl

theorem addEdge_nodes_of_present {g : PyDiGraph} {u v : String} (a : EdgeAttrs)
    (hu : (lookupK g.nodes u).isSome = true)
    (hv : (lookupK g.nodes v).isSome = true) :
    (g.addEdge u v a).nodes = g.nodes := by
  rw [addEdge_nodes, ensureNode_of_present hu, ensureNode_of_present hv]

/-- Monotone growth of the node-key set of a graph. -/
def PyDiGraph.Extends (g g2 : PyDiGraph) : Prop :=
  ∀ m, (lookupK g.nodes m).isSome = true → (lookupK g2.nodes m).isSome = true

theorem extends_refl (g : PyDiGraph) : g.Extends g := fun _ h => h

theorem extends_trans {a b c : PyDiGraph} (h1 : a.Extends b) (h2 : b.Extends c) :
    a.Extends c := fun m h => h2 m (h1 m h)

theorem extends_addNode (g : PyDiGraph) (n : String) (a : NodeAttrs) :
    g.Extends (g.addNode n a) := fun _ h => lookupK_isSome_addNode h n a

theorem extends_ensureNode (g : PyDiGraph) (n : String) :
    g.Extends (g.ensureNode n) := fun _ h => lookupK_isSome_ensureNode h n

theorem extends_addEdge (g : PyDiGraph) (u v : String) (a : EdgeAttrs) :
    g.Extends (g.addEdge u v a) := by
  intro m h
  rw [addEdge_nodes]
  exact extends_ensureNode _ v m (extends_ensureNode g u m h)

/-! ## Claim C9: well-formedness invariant of graphs built without type nodes -/

/-- A node carries the node_type of the metadata partition its key belongs to. -/
def TypedPair (md : DatabaseGraphMetadata) (p : String × NodeAttrs) : Prop :=
  ((lookupK md.schemas p.1).isSome = true ∧
    p.2.node_type = some NodeTypes.SCHEMA.value) ∨
  ((lookupK md.tables p.1).isSome = true ∧
    p.2.node_type = some NodeTypes.TABLE.value) ∨
  ((lookupK md.columns p.1).isSome = true ∧
    p.2.node_type = some NodeTypes.COLUMN.value) ∨
  ((lookupK md.pks p.1).isSome = true ∧
    p.2.node_type = some NodeTypes.PK.value) ∨
  ((lookupK md.fks p.1).isSome = true ∧
    p.2.node_type = some NodeTypes.FK.value)

/-- Per-edge facts read by the traversal: the partition of the destination of
the followed edge kinds, and the named foreign-key payload of reference edges. -/
def EdgeOk (md : DatabaseGraphMetadata) (e : (String × String) × EdgeAttrs) : Prop :=
  (e.2.edge_type = EdgeTypes.SCHEMA_TABLE →
    (lookupK md.tables e.1.2).isSome = true) ∧
  (e.2.edge_type = EdgeTypes.TABLE_COLUMN →
    (lookupK md.columns e.1.2).isSome = true) ∧
  (e.2.edge_type = EdgeTypes.TABLE_PK →
    (lookupK md.pks e.1.2).isSome = true) ∧
  (e.2.edge_type = EdgeTypes.TABLE_FK →
    (lookupK md.fks e.1.2).isSome = true) ∧
  (e.2.edge_type = EdgeTypes.REFERENCE →
    (lookupK md.columns e.1.2).isSome = true ∧
    ∃ row, e.2.payload = EdgePayload.fkRow row ∧ row.fk_name.isSome = true)

theorem EdgeOk_other {md : DatabaseGraphMetadata} {u v : String} {a : EdgeAttrs}
    (h1 : a.edge_type ≠ EdgeTypes.SCHEMA_TABLE)
    (h2 : a.edge_type ≠ EdgeTypes.TABLE_COLUMN)
    (h3 : a.edge_type ≠ EdgeTypes.TABLE_PK)
    (h4 : a.edge_type ≠ EdgeTypes.TABLE_FK)
    (h5 : a.edge_type ≠ EdgeTypes.REFERENCE) : EdgeOk md ((u, v), a) :=
  ⟨fun h => absurd h h1, fun h => absurd h h2, fun h => absurd h h3,
   fun h => absurd h h4, fun h => absurd h h5⟩

/-- The structural invariant of built graphs: every node is typed by its
metadata partition, every edge satisfies the per-edge facts, and every edge
endpoint is a node of the graph (no attribute-less placeholder exists). -/
def GInv (md : DatabaseGraphMetadata) (g : PyDiGraph) : Prop :=
  (∀ p ∈ g.nodes, TypedPair md p) ∧
  (∀ e ∈ g.edges, EdgeOk md e ∧
     (lookupK g.nodes e.1.1).isSome = true ∧
     (lookupK g.nodes e.1.2).isSome = true)

/-- The store keys of the five row partitions start with their five distinct
partition prefix letters, as the composite identifier scheme guarantees. -/
def KeysShaped (md : DatabaseGraphMetadata) : Prop :=
  (∀ p ∈ md.schemas, p.1.data.head? = some 's') ∧
  (∀ p ∈ md.tables, p.1.data.head? = some 't') ∧
  (∀ p ∈ md.columns, p.1.data.head? = some 'c') ∧
  (∀ p ∈ md.pks, p.1.data.head? = some 'p') ∧
  (∀ p ∈ md.fks, p.1.data.head? = some 'f')

/-- One foreign-key store entry whose referenced and referencing tables and
member columns all exist and whose rows all carry a foreign-key name. -/
def fkEntryOkB (md : DatabaseGraphMetadata)
    (p : String × List MetadataForeignKeyRow) : Bool :=
  match p.2 with
  | [] => false
  | first_row :: _ =>
    (lookupK md.tables (table_id first_row.pktable_cat first_row.pktable_schem
      first_row.pktable_name)).isSome &&
    (lookupK md.tables (table_id first_row.fktable_cat first_row.fktable_schem
      first_row.fktable_name)).isSome &&
    p.2.all (fun row =>
      (lookupK md.columns (column_id row.fktable_cat row.fktable_schem
        row.fktable_name row.fkcolumn_name)).isSome &&
      (lookupK md.columns (column_id row.pktable_cat row.pktable_schem
        row.pktable_name row.pkcolumn_name)).isSome &&
      row.fk_name.isSome)

def FkEndpointsOk (md : DatabaseGraphMetadata) : Prop :=
  ∀ p ∈ md.fks, fkEntryOkB md p = true

/-- Every stored column name splits into at least one word, so the keyword
scorer assert cannot fire. -/
def ColumnsOk (md : DatabaseGraphMetadata) : Prop :=
  ∀ p ∈ md.columns, _db_identifier_to_lc_words p.2.column_name ≠ []

/-- All keys of an association list are nodes of the graph. -/
def KeysPresent {β : Type} (m : List (String × β)) (g : PyDiGraph) : Prop :=
  ∀ k, (lookupK m k).isSome = true → (lookupK g.nodes k).isSome = true

theorem KeysPresent_mono {β : Type} {m : List (String × β)} {g g2 : PyDiGraph}
    (hE : g.Extends g2) (h : KeysPresent m g) : KeysPresent m g2 :=
  fun k hk => hE k (h k hk)

theorem GInv_addNode {md : DatabaseGraphMetadata} {g : PyDiGraph}
    (hI : GInv md g) {n : String} {a : NodeAttrs} (ht : TypedPair md (n, a)) :
    GInv md (g.addNode n a) := by
  constructor
  · intro p hp
    rcases mem_addNode_nodes hp with h | h
    · exact hI.1 p h
    · rw [h]; exact ht
  · intro e he
    rw [addNode_edges] at he
    obtain ⟨h1, h2, h3⟩ := hI.2 e he
    exact ⟨h1, lookupK_isSome_addNode h2 n a, lookupK_isSome_addNode h3 n a⟩

theorem GInv_addEdge {md : DatabaseGraphMetadata} {g : PyDiGraph} {u v : String}
    {a : EdgeAttrs} (hI : GInv md g)
    (hu : (lookupK g.nodes u).isSome = true)
    (hv : (lookupK g.nodes v).isSome = true)
    (he : EdgeOk md ((u, v), a)) : GInv md (g.addEdge u v a) := by
  have hn : (g.addEdge u v a).nodes = g.nodes := addEdge_nodes_of_present a hu hv
  constructor
  · intro p hp
    rw [hn] at hp
    exact hI.1 p hp
  · intro e hm
    rw [hn]
    rcases mem_addEdge_edges hm with h | h
    · exact hI.2 e h
    · rw [h]
      exact ⟨he, hu, hv⟩

/-! Generic fold preservation and establishment lemmas. -/

theorem foldlM_inv {σ α : Type} (I : σ → Prop) (step : σ → α → Except String σ) :
    ∀ (l : List α), (∀ s a, a ∈ l → I s → ∀ s2, step s a = .ok s2 → I s2) →
      ∀ s s2, I s → l.foldlM step s = .ok s2 → I s2 := by
  intro l
  induction l with
  | nil =>
    intro _ s s2 hs h
    exact (Except.ok.inj h) ▸ hs
  | cons a rest ih =>
    intro hstep s s2 hs h
    rw [List.foldlM_cons] at h
    cases ha : step s a with
    | error e => rw [ha] at h; exact Except.noConfusion h
    | ok s1 =>
      rw [ha] at h
      exact ih (fun s b hb => hstep s b (List.mem_cons_of_mem _ hb)) s1 s2
        (hstep s a (List.mem_cons_self _ _) hs s1 ha) h

theorem foldl_inv {σ α : Type} (I : σ → Prop) (step : σ → α → σ) :
    ∀ (l : List α), (∀ s a, a ∈ l → I s → I (step s a)) →
      ∀ s, I s → I (l.foldl step s) := by
  intro l
  induction l with
  | nil => intro _ s hs; exact hs
  | cons a rest ih =>
    intro hstep s hs
    rw [List.foldl_cons]
    exact ih (fun s b hb => hstep s b (List.mem_cons_of_mem _ hb)) (step s a)
      (hstep s a (List.mem_cons_self _ _) hs)

theorem foldlM_mono_prop {σ α : Type} (P : σ → Prop)
    (step : σ → α → Except String σ)
    (hmono : ∀ s a s2, step s a = .ok s2 → P s → P s2) :
    ∀ (l : List α) (s s2 : σ), l.foldlM step s = .ok s2 → P s → P s2 :=
  fun l s s2 h hs =>
    foldlM_inv P step l (fun s a _ hsa s2 hst => hmono s a s2 hst hsa) s s2 hs h

theorem foldlM_establish {σ α : Type} (Q : σ → α → Prop)
    (step : σ → α → Except String σ)
    (hmono : ∀ s a s2 b, step s a = .ok s2 → Q s b → Q s2 b)
    (hself : ∀ s a s2, step s a = .ok s2 → Q s2 a) :
    ∀ (l : List α) (s s2 : σ), l.foldlM step s = .ok s2 → ∀ a ∈ l, Q s2 a := by
  intro l
  induction l with
  | nil =>
    intro s s2 h a ha
    exact absurd ha (List.not_mem_nil a)
  | cons x rest ih =>
    intro s s2 h a ha
    rw [List.foldlM_cons] at h
    cases hx : step s x with
    | error e => rw [hx] at h; exact Except.noConfusion h
    | ok s1 =>
      rw [hx] at h
      rcases List.mem_cons.mp ha with rfl | hm
      · exact foldlM_mono_prop (fun s => Q s a) step
          (fun s b s2 hst hq => hmono s b s2 a hst hq) rest s1 s2 h
          (hself s a s1 hx)
      · exact ih s1 s2 h a hm

theorem foldl_establish {σ α : Type} (Q : σ → α → Prop) (step : σ → α → σ)
    (hmono : ∀ s a b, Q s b → Q (step s a) b)
    (hself : ∀ s a, Q (step s a) a) :
    ∀ (l : List α) (s : σ), ∀ a ∈ l, Q (l.foldl step s) a := by
  intro l
  induction l with
  | nil =>
    intro s a ha
    exact absurd ha (List.not_mem_nil a)
  | cons x rest ih =>
    intro s a ha
    rw [List.foldl_cons]
    rcases List.mem_cons.mp ha with rfl | hm
    · exact foldl_inv (fun s => Q s a) step rest
        (fun s b _ hq => hmono s b a hq) (step s a) (hself s a)
    · exact ih (step s x) a hm

theorem foldlM_graph_extends {α : Type}
    (step : PyDiGraph → α → Except String PyDiGraph)
    (hstep : ∀ (g : PyDiGraph) (a : α) (g2 : PyDiGraph),
      step g a = .ok g2 → g.Extends g2) :
    ∀ (l : List α) (g g2 : PyDiGraph), l.foldlM step g = .ok g2 →
      g.Extends g2 := by
  intro l
  induction l with
  | nil =>
    intro g g2 h
    exact (Except.ok.inj h) ▸ extends_refl g
  | cons a rest ih =>
    intro g g2 h
    rw [List.foldlM_cons] at h
    cases ha : step g a with
    | error e => rw [ha] at h; exact Except.noConfusion h
    | ok g1 =>
      rw [ha] at h
      exact extends_trans (hstep g a g1 ha) (ih g1 g2 h)

theorem foldl_graph_extends {α : Type} (step : PyDiGraph → α → PyDiGraph)
    (hstep : ∀ (g : PyDiGraph) (a : α), g.Extends (step g a)) :
    ∀ (l : List α) (g : PyDiGraph), g.Extends (l.foldl step g) := by
  intro l
  induction l with
  | nil => intro g; exact extends_refl g
  | cons a rest ih =>
    intro g
    rw [List.foldl_cons]
    exact extends_trans (hstep g a) (ih (step g a))

/-! Per-step growth, self-presence and invariant preservation of the builder. -/

theorem addTableStep_extends (md : DatabaseGraphMetadata) :
    ∀ (g : PyDiGraph) (p : String × MetadataTableRow) (g2 : PyDiGraph),
      addTableStep md g p = .ok g2 → g.Extends g2 := by
  intro g p g2 h
  rw [addTableStep] at h
  split at h
  · cases Except.ok.inj h
    exact extends_trans (extends_addNode g p.1 _) (extends_addEdge _ _ _ _)
  · exact Except.noConfusion h

theorem addTableStep_self (md : DatabaseGraphMetadata) {g g2 : PyDiGraph}
    {p : String × MetadataTableRow} (h : addTableStep md g p = .ok g2) :
    (lookupK g2.nodes p.1).isSome = true := by
  rw [addTableStep] at h
  split at h
  · cases Except.ok.inj h
    exact (extends_addEdge _ _ _ _) _ (lookupK_isSome_addNode_self g p.1 _)
  · exact Except.noConfusion h

theorem addTableStep_GInv (md : DatabaseGraphMetadata) {g g2 : PyDiGraph}
    {p : String × MetadataTableRow} (hp : p ∈ md.tables)
    (hI : GInv md g) (hS : KeysPresent md.schemas g)
    (h : addTableStep md g p = .ok g2) : GInv md g2 := by
  rw [addTableStep] at h
  split at h
  · rename_i hassert
    cases Except.ok.inj h
    exact GInv_addEdge
      (GInv_addNode hI (Or.inr (Or.inl ⟨mem_lookupK_isSome hp, rfl⟩)))
      ((extends_addNode g p.1 _) _ (hS _ hassert))
      (lookupK_isSome_addNode_self g p.1 _)
      ⟨fun _ => mem_lookupK_isSome hp, fun hx => EdgeTypes.noConfusion hx,
       fun hx => EdgeTypes.noConfusion hx, fun hx => EdgeTypes.noConfusion hx,
       fun hx => EdgeTypes.noConfusion hx⟩
  · exact Except.noConfusion h

theorem addColumnStep_extends (md : DatabaseGraphMetadata) :
    ∀ (acc : PyDiGraph × List String) (p : String × MetadataColumnRow)
      (acc2 : PyDiGraph × List String),
      addColumnStep md false acc p = .ok acc2 → acc.1.Extends acc2.1 := by
  intro acc p acc2 h
  obtain ⟨g, missing⟩ := acc
  rw [addColumnStep] at h
  split at h
  · simp only [Bool.false_eq_true, if_false] at h
    cases Except.ok.inj h
    dsimp only
    exact extends_trans (extends_addNode _ _ _)
      (extends_trans (extends_addEdge _ _ _ _) (extends_addEdge _ _ _ _))
  · exact Except.noConfusion h

theorem addColumnStep_self (md : DatabaseGraphMetadata)
    {acc acc2 : PyDiGraph × List String} {p : String × MetadataColumnRow}
    (h : addColumnStep md false acc p = .ok acc2) :
    (lookupK acc2.1.nodes p.1).isSome = true := by
  obtain ⟨g, missing⟩ := acc
  rw [addColumnStep] at h
  split at h
  · simp only [Bool.false_eq_true, if_false] at h
    cases Except.ok.inj h
    dsimp only
    exact (extends_addEdge _ _ _ _) _ ((extends_addEdge _ _ _ _) _
      (lookupK_isSome_addNode_self g p.1 _))
  · exact Except.noConfusion h

theorem addColumnStep_GInv (md : DatabaseGraphMetadata)
    {acc acc2 : PyDiGraph × List String} {p : String × MetadataColumnRow}
    (hp : p ∈ md.columns) (hI : GInv md acc.1) (hT : KeysPresent md.tables acc.1)
    (h : addColumnStep md false acc p = .ok acc2) : GInv md acc2.1 := by
  obtain ⟨g, missing⟩ := acc
  rw [addColumnStep] at h
  split at h
  · rename_i hassert
    simp only [Bool.false_eq_true, if_false] at h
    cases Except.ok.inj h
    dsimp only at hI hT ⊢
    have hp1 : (lookupK md.columns p.1).isSome = true := mem_lookupK_isSome hp
    have hT1 := hT _ hassert
    exact GInv_addEdge
      (GInv_addEdge (GInv_addNode hI (Or.inr (Or.inr (Or.inl ⟨hp1, rfl⟩))))
        (lookupK_isSome_addNode hT1 p.1 _)
        (lookupK_isSome_addNode_self g p.1 _)
        ⟨fun hx => EdgeTypes.noConfusion hx, fun _ => hp1,
         fun hx => EdgeTypes.noConfusion hx, fun hx => EdgeTypes.noConfusion hx,
         fun hx => EdgeTypes.noConfusion hx⟩)
      ((extends_addEdge _ _ _ _) _ (lookupK_isSome_addNode_self g p.1 _))
      ((extends_addEdge _ _ _ _) _ (lookupK_isSome_addNode hT1 p.1 _))
      (EdgeOk_other (fun hx => EdgeTypes.noConfusion hx)
        (fun hx => EdgeTypes.noConfusion hx) (fun hx => EdgeTypes.noConfusion hx)
        (fun hx => EdgeTypes.noConfusion hx) (fun hx => EdgeTypes.noConfusion hx))
  · exact Except.noConfusion h

theorem addPkStep_extends (md : DatabaseGraphMetadata) :
    ∀ (g : PyDiGraph) (p : String × List MetadataPrimaryKeyRow) (g2 : PyDiGraph),
      addPkStep md g p = .ok g2 → g.Extends g2 := by
  intro g p g2 h
  obtain ⟨k, rows⟩ := p
  rw [addPkStep] at h
  cases rows with
  | nil => exact Except.noConfusion h
  | cons first rest =>
    dsimp only at h
    split at h
    · have hfold : ((g.addNode k ⟨some NodeTypes.PK.value, false⟩).addEdge
          (table_id first.table_cat first.table_schem first.table_name) k
          ⟨.TABLE_PK, .nopayload⟩).Extends g2 := by
        refine foldlM_graph_extends _ ?_ (first :: rest) _ g2 h
        intro g1 row g3 hs
        split at hs
        · cases Except.ok.inj hs
          exact extends_addEdge _ _ _ _
        · exact Except.noConfusion hs
      exact extends_trans (extends_addNode _ _ _)
        (extends_trans (extends_addEdge _ _ _ _) hfold)
    · exact Except.noConfusion h

theorem addPkStep_GInv (md : DatabaseGraphMetadata) {g g2 : PyDiGraph}
    {p : String × List MetadataPrimaryKeyRow} (hp : p ∈ md.pks)
    (hI : GInv md g) (hT : KeysPresent md.tables g)
    (hC : KeysPresent md.columns g)
    (h : addPkStep md g p = .ok g2) : GInv md g2 := by
  obtain ⟨k, rows⟩ := p
  rw [addPkStep] at h
  cases rows with
  | nil => exact Except.noConfusion h
  | cons first rest =>
    dsimp only at h
    split at h
    · rename_i hassert
      have hbase : GInv md ((g.addNode k ⟨some NodeTypes.PK.value, false⟩).addEdge
          (table_id first.table_cat first.table_schem first.table_name) k
          ⟨.TABLE_PK, .nopayload⟩) :=
        GInv_addEdge
          (GInv_addNode hI (Or.inr (Or.inr (Or.inr (Or.inl
            ⟨mem_lookupK_isSome hp, rfl⟩)))))
          ((extends_addNode g k _) _ (hT _ hassert))
          (lookupK_isSome_addNode_self g k _)
          ⟨fun hx => EdgeTypes.noConfusion hx, fun hx => EdgeTypes.noConfusion hx,
           fun _ => mem_lookupK_isSome hp, fun hx => EdgeTypes.noConfusion hx,
           fun hx => EdgeTypes.noConfusion hx⟩
      refine (foldlM_inv (fun g1 => GInv md g1 ∧
          (lookupK g1.nodes k).isSome = true ∧ KeysPresent md.columns g1)
          _ (first :: rest) ?_ _ g2
          ⟨hbase, (extends_addEdge _ _ _ _) _ (lookupK_isSome_addNode_self g k _),
           KeysPresent_mono (extends_addEdge _ _ _ _)
             (KeysPresent_mono (extends_addNode _ _ _) hC)⟩ h).1
      intro g1 row _ hI1 g3 hs
      obtain ⟨hg1, hk1, hc1⟩ := hI1
      split at hs
      · rename_i hassertc
        cases Except.ok.inj hs
        exact ⟨GInv_addEdge hg1 hk1 (hc1 _ hassertc)
            (EdgeOk_other (fun hx => EdgeTypes.noConfusion hx)
              (fun hx => EdgeTypes.noConfusion hx)
              (fun hx => EdgeTypes.noConfusion hx)
              (fun hx => EdgeTypes.noConfusion hx)
              (fun hx => EdgeTypes.noConfusion hx)),
          (extends_addEdge _ _ _ _) _ hk1,
          KeysPresent_mono (extends_addEdge _ _ _ _) hc1⟩
      · exact Except.noConfusion hs
    · exact Except.noConfusion h

theorem addFkStep_extends :
    ∀ (g : PyDiGraph) (p : String × List MetadataForeignKeyRow) (g2 : PyDiGraph),
      addFkStep g p = .ok g2 → g.Extends g2 := by
  intro g p g2 h
  obtain ⟨k, rows⟩ := p
  rw [addFkStep] at h
  cases rows with
  | nil => exact Except.noConfusion h
  | cons first rest =>
    dsimp only at h
    cases Except.ok.inj h
    have hfold := foldl_graph_extends
      (fun (g1 : PyDiGraph) (row : MetadataForeignKeyRow) =>
        (((g1.addEdge (column_id row.fktable_cat row.fktable_schem
            row.fktable_name row.fkcolumn_name) k
            ⟨.COLUMN_FK, .fkRow row⟩).addEdge k
          (column_id row.pktable_cat row.pktable_schem row.pktable_name
            row.pkcolumn_name) ⟨.FK_COLUMN, .fkRow row⟩).addEdge
          (column_id row.fktable_cat row.fktable_schem row.fktable_name
            row.fkcolumn_name)
          (column_id row.pktable_cat row.pktable_schem row.pktable_name
            row.pkcolumn_name) ⟨.REFERENCE, .fkRow row⟩).addEdge
          (column_id row.pktable_cat row.pktable_schem row.pktable_name
            row.pkcolumn_name)
          (column_id row.fktable_cat row.fktable_schem row.fktable_name
            row.fkcolumn_name) ⟨.REFERENCE_BY, .fkRow row⟩)
      (fun g1 row =>
        extends_trans (extends_addEdge _ _ _ _) (extends_trans
          (extends_addEdge _ _ _ _) (extends_trans (extends_addEdge _ _ _ _)
            (extends_addEdge _ _ _ _)))) (first :: rest)
      (((g.addNode k ⟨some NodeTypes.FK.value, false⟩).addEdge
        (table_id first.fktable_cat first.fktable_schem first.fktable_name) k
        ⟨.TABLE_FK, .nopayload⟩).addEdge k
        (table_id first.pktable_cat first.pktable_schem first.pktable_name)
        ⟨.FK_TABLE, .nopayload⟩)
    exact extends_trans (extends_addNode _ _ _)
      (extends_trans (extends_addEdge _ _ _ _)
        (extends_trans (extends_addEdge _ _ _ _) hfold))

theorem addFkStep_GInv (md : DatabaseGraphMetadata) {g g2 : PyDiGraph}
    {p : String × List MetadataForeignKeyRow} (hp : p ∈ md.fks)
    (hok : fkEntryOkB md p = true)
    (hI : GInv md g) (hT : KeysPresent md.tables g)
    (hC : KeysPresent md.columns g)
    (h : addFkStep g p = .ok g2) : GInv md g2 := by
  obtain ⟨k, rows⟩ := p
  rw [addFkStep] at h
  cases rows with
  | nil => exact Except.noConfusion h
  | cons first rest =>
    dsimp only at h
    cases Except.ok.inj h
    rw [fkEntryOkB] at hok
    simp only [Bool.and_eq_true, List.all_eq_true] at hok
    obtain ⟨⟨hpkt, hfkt⟩, hall⟩ := hok
    have hbase : GInv md (((g.addNode k ⟨some NodeTypes.FK.value, false⟩).addEdge
        (table_id first.fktable_cat first.fktable_schem first.fktable_name) k
        ⟨.TABLE_FK, .nopayload⟩).addEdge k
        (table_id first.pktable_cat first.pktable_schem first.pktable_name)
        ⟨.FK_TABLE, .nopayload⟩) :=
      GInv_addEdge
        (GInv_addEdge
          (GInv_addNode hI (Or.inr (Or.inr (Or.inr (Or.inr
            ⟨mem_lookupK_isSome hp, rfl⟩)))))
          ((extends_addNode g k _) _ (hT _ hfkt))
          (lookupK_isSome_addNode_self g k _)
          ⟨fun hx => EdgeTypes.noConfusion hx, fun hx => EdgeTypes.noConfusion hx,
           fun hx => EdgeTypes.noConfusion hx, fun _ => mem_lookupK_isSome hp,
           fun hx => EdgeTypes.noConfusion hx⟩)
        ((extends_addEdge _ _ _ _) _ (lookupK_isSome_addNode_self g k _))
        ((extends_addEdge _ _ _ _) _ ((extends_addNode g k _) _ (hT _ hpkt)))
        (EdgeOk_other (fun hx => EdgeTypes.noConfusion hx)
          (fun hx => EdgeTypes.noConfusion hx) (fun hx => EdgeTypes.noConfusion hx)
          (fun hx => EdgeTypes.noConfusion hx) (fun hx => EdgeTypes.noConfusion hx))
    refine (foldl_inv (fun g1 => GInv md g1 ∧
        (lookupK g1.nodes k).isSome = true ∧ KeysPresent md.columns g1)
        _ (first :: rest) ?_ _
        ⟨hbase,
         (extends_addEdge _ _ _ _) _ ((extends_addEdge _ _ _ _) _
           (lookupK_isSome_addNode_self g k _)),
         KeysPresent_mono (extends_addEdge _ _ _ _)
           (KeysPresent_mono (extends_addEdge _ _ _ _)
             (KeysPresent_mono (extends_addNode _ _ _) hC))⟩).1
    intro g1 row hrow hI1
    obtain ⟨hg1, hk1, hc1⟩ := hI1
    obtain ⟨⟨hfc, hpc⟩, hname⟩ := hall row hrow
    have huf : (lookupK g1.nodes (column_id row.fktable_cat row.fktable_schem
        row.fktable_name row.fkcolumn_name)).isSome = true := hc1 _ hfc
    have hup : (lookupK g1.nodes (column_id row.pktable_cat row.pktable_schem
        row.pktable_name row.pkcolumn_name)).isSome = true := hc1 _ hpc
    refine ⟨?_, ?_, ?_⟩
    · exact GInv_addEdge
        (GInv_addEdge
          (GInv_addEdge
            (GInv_addEdge hg1 huf hk1
              (EdgeOk_other (fun hx => EdgeTypes.noConfusion hx)
                (fun hx => EdgeTypes.noConfusion hx)
                (fun hx => EdgeTypes.noConfusion hx)
                (fun hx => EdgeTypes.noConfusion hx)
                (fun hx => EdgeTypes.noConfusion hx)))
            ((extends_addEdge _ _ _ _) _ hk1)
            ((extends_addEdge _ _ _ _) _ hup)
            (EdgeOk_other (fun hx => EdgeTypes.noConfusion hx)
              (fun hx => EdgeTypes.noConfusion hx)
              (fun hx => EdgeTypes.noConfusion hx)
              (fun hx => EdgeTypes.noConfusion hx)
              (fun hx => EdgeTypes.noConfusion hx)))
          ((extends_addEdge _ _ _ _) _ ((extends_addEdge _ _ _ _) _ huf))
          ((extends_addEdge _ _ _ _) _ ((extends_addEdge _ _ _ _) _ hup))
          ⟨fun hx => EdgeTypes.noConfusion hx, fun hx => EdgeTypes.noConfusion hx,
           fun hx => EdgeTypes.noConfusion hx, fun hx => EdgeTypes.noConfusion hx,
           fun _ => ⟨hpc, ⟨row, rfl, hname⟩⟩⟩)
        ((extends_addEdge _ _ _ _) _ ((extends_addEdge _ _ _ _) _
          ((extends_addEdge _ _ _ _) _ hup)))
        ((extends_addEdge _ _ _ _) _ ((extends_addEdge _ _ _ _) _
          ((extends_addEdge _ _ _ _) _ huf)))
        (EdgeOk_other (fun hx => EdgeTypes.noConfusion hx)
          (fun hx => EdgeTypes.noConfusion hx) (fun hx => EdgeTypes.noConfusion hx)
          (fun hx => EdgeTypes.noConfusion hx) (fun hx => EdgeTypes.noConfusion hx))
    · exact (extends_addEdge _ _ _ _) _ ((extends_addEdge _ _ _ _) _
        ((extends_addEdge _ _ _ _) _ ((extends_addEdge _ _ _ _) _ hk1)))
    · exact KeysPresent_mono (extends_addEdge _ _ _ _)
        (KeysPresent_mono (extends_addEdge _ _ _ _)
          (KeysPresent_mono (extends_addEdge _ _ _ _)
            (KeysPresent_mono (extends_addEdge _ _ _ _) hc1)))

theorem factoryBase_facts (md : DatabaseGraphMetadata) :
    GInv md (factoryBase md false) ∧ KeysPresent md.schemas (factoryBase md false) := by
  rw [factoryBase]
  simp only [Bool.false_eq_true, if_false]
  constructor
  · refine foldl_inv (GInv md) _ md.schemas ?_ ⟨[], []⟩ ⟨?_, ?_⟩
    · intro gx p hp hI
      exact GInv_addNode hI (Or.inl ⟨mem_lookupK_isSome hp, rfl⟩)
    · intro p hp
      exact absurd hp (List.not_mem_nil p)
    · intro e he
      exact absurd he (List.not_mem_nil e)
  · intro k hk
    obtain ⟨v, _, hm⟩ := lookupK_isSome_mem hk
    exact foldl_establish (fun gx p => (lookupK gx.nodes p.1).isSome = true) _
      (fun s a b hq => lookupK_isSome_addNode hq a.1 _)
      (fun s a => lookupK_isSome_addNode_self s a.1 _)
      md.schemas ⟨[], []⟩ (k, v) hm

/-- The graph built without type nodes satisfies the structural invariant,
provided all foreign-key endpoints exist in the store. -/
theorem factory_GInv (md : DatabaseGraphMetadata) (g : PyDiGraph)
    (hfac : _full_graph_factory md false = .ok g) (hFk : FkEndpointsOk md) :
    GInv md g := by
  rw [_full_graph_factory] at hfac
  cases hT : md.tables.foldlM (addTableStep md) (factoryBase md false) with
  | error e => rw [hT] at hfac; exact Except.noConfusion hfac
  | ok gT =>
    rw [hT] at hfac
    have hred : ((Except.ok gT : Except String PyDiGraph) >>= fun g =>
        md.columns.foldlM (addColumnStep md false) (g, []) >>= fun gm =>
          md.pks.foldlM (addPkStep md) gm.1 >>= fun g =>
            md.fks.foldlM addFkStep g) =
        (md.columns.foldlM (addColumnStep md false) (gT, []) >>= fun gm =>
          md.pks.foldlM (addPkStep md) gm.1 >>= fun g =>
            md.fks.foldlM addFkStep g) := rfl
    rw [hred] at hfac
    have hbase := factoryBase_facts md
    have hTI : GInv md gT ∧ KeysPresent md.schemas gT :=
      foldlM_inv (fun gx => GInv md gx ∧ KeysPresent md.schemas gx)
        (addTableStep md) md.tables
        (fun s a ha hs s2 hst => ⟨addTableStep_GInv md ha hs.1 hs.2 hst,
          KeysPresent_mono (addTableStep_extends md s a s2 hst) hs.2⟩)
        _ gT hbase hT
    have hTP : KeysPresent md.tables gT := by
      intro k hk
      obtain ⟨v, _, hm⟩ := lookupK_isSome_mem hk
      exact foldlM_establish (fun gx p => (lookupK gx.nodes p.1).isSome = true)
        (addTableStep md)
        (fun s a s2 b hst hq => addTableStep_extends md s a s2 hst b.1 hq)
        (fun s a s2 hst => addTableStep_self md hst)
        md.tables _ gT hT (k, v) hm
    cases hc : md.columns.foldlM (addColumnStep md false) (gT, []) with
    | error e => rw [hc] at hfac; exact Except.noConfusion hfac
    | ok gC =>
      rw [hc] at hfac
      have hred2 : ((Except.ok gC : Except String (PyDiGraph × List String)) >>=
          fun gm => md.pks.foldlM (addPkStep md) gm.1 >>= fun g =>
            md.fks.foldlM addFkStep g) =
          (md.pks.foldlM (addPkStep md) gC.1 >>= fun g =>
            md.fks.foldlM addFkStep g) := rfl
      rw [hred2] at hfac
      have hCI : GInv md gC.1 ∧ KeysPresent md.tables gC.1 :=
        foldlM_inv (fun acc => GInv md acc.1 ∧ KeysPresent md.tables acc.1)
          (addColumnStep md false) md.columns
          (fun s a ha hs s2 hst => ⟨addColumnStep_GInv md ha hs.1 hs.2 hst,
            KeysPresent_mono (addColumnStep_extends md s a s2 hst) hs.2⟩)
          _ gC ⟨hTI.1, hTP⟩ hc
      have hCP : KeysPresent md.columns gC.1 := by
        intro k hk
        obtain ⟨v, _, hm⟩ := lookupK_isSome_mem hk
        exact foldlM_establish
          (fun acc p => (lookupK acc.1.nodes p.1).isSome = true)
          (addColumnStep md false)
          (fun s a s2 b hst hq => addColumnStep_extends md s a s2 hst b.1 hq)
          (fun s a s2 hst => addColumnStep_self md hst)
          md.columns _ gC hc (k, v) hm
      cases hpk : md.pks.foldlM (addPkStep md) gC.1 with
      | error e => rw [hpk] at hfac; exact Except.noConfusion hfac
      | ok gP =>
        rw [hpk] at hfac
        have hred3 : ((Except.ok gP : Except String PyDiGraph) >>= fun g =>
            md.fks.foldlM addFkStep g) = md.fks.foldlM addFkStep gP := rfl
        rw [hred3] at hfac
        have hPI : GInv md gP ∧ KeysPresent md.tables gP ∧
            KeysPresent md.columns gP :=
          foldlM_inv (fun gx => GInv md gx ∧ KeysPresent md.tables gx ∧
              KeysPresent md.columns gx)
            (addPkStep md) md.pks
            (fun s a ha hs s2 hst => ⟨addPkStep_GInv md ha hs.1 hs.2.1 hs.2.2 hst,
              KeysPresent_mono (addPkStep_extends md s a s2 hst) hs.2.1,
              KeysPresent_mono (addPkStep_extends md s a s2 hst) hs.2.2⟩)
            _ gP ⟨hCI.1, hCI.2, hCP⟩ hpk
        exact (foldlM_inv (fun gx => GInv md gx ∧ KeysPresent md.tables gx ∧
            KeysPresent md.columns gx)
          addFkStep md.fks
          (fun s a ha hs s2 hst => ⟨addFkStep_GInv md ha (hFk a ha) hs.1 hs.2.1
              hs.2.2 hst,
            KeysPresent_mono (addFkStep_extends s a s2 hst) hs.2.1,
            KeysPresent_mono (addFkStep_extends s a s2 hst) hs.2.2⟩)
          gP g hPI hfac).1

/-! Node kind determination: the five node_type values are distinct, and the
five partition key prefixes are distinct, so a typed node of a well-formed
graph belongs to exactly one store partition. -/

theorem typed_of_type_schema {md : DatabaseGraphMetadata} {n : String}
    {a : NodeAttrs} (ht : TypedPair md (n, a))
    (hv : a.node_type = some NodeTypes.SCHEMA.value) :
    (lookupK md.schemas n).isSome = true := by
  rcases ht with ⟨h, _⟩ | ⟨_, hx⟩ | ⟨_, hx⟩ | ⟨_, hx⟩ | ⟨_, hx⟩
  · exact h
  all_goals rw [hv] at hx; exact absurd (Option.some.inj hx) (by decide)

theorem typed_of_type_table {md : DatabaseGraphMetadata} {n : String}
    {a : NodeAttrs} (ht : TypedPair md (n, a))
    (hv : a.node_type = some NodeTypes.TABLE.value) :
    (lookupK md.tables n).isSome = true := by
  rcases ht with ⟨_, hx⟩ | ⟨h, _⟩ | ⟨_, hx⟩ | ⟨_, hx⟩ | ⟨_, hx⟩
  case inr.inl => exact h
  all_goals rw [hv] at hx; exact absurd (Option.some.inj hx) (by decide)

theorem typed_of_type_column {md : DatabaseGraphMetadata} {n : String}
    {a : NodeAttrs} (ht : TypedPair md (n, a))
    (hv : a.node_type = some NodeTypes.COLUMN.value) :
    (lookupK md.columns n).isSome = true := by
  rcases ht with ⟨_, hx⟩ | ⟨_, hx⟩ | ⟨h, _⟩ | ⟨_, hx⟩ | ⟨_, hx⟩
  case inr.inr.inl => exact h
  all_goals rw [hv] at hx; exact absurd (Option.some.inj hx) (by decide)

theorem typed_of_type_pk {md : DatabaseGraphMetadata} {n : String}
    {a : NodeAttrs} (ht : TypedPair md (n, a))
    (hv : a.node_type = some NodeTypes.PK.value) :
    (lookupK md.pks n).isSome = true := by
  rcases ht with ⟨_, hx⟩ | ⟨_, hx⟩ | ⟨_, hx⟩ | ⟨h, _⟩ | ⟨_, hx⟩
  case inr.inr.inr.inl => exact h
  all_goals rw [hv] at hx; exact absurd (Option.some.inj hx) (by decide)

theorem typed_of_type_fk {md : DatabaseGraphMetadata} {n : String}
    {a : NodeAttrs} (ht : TypedPair md (n, a))
    (hv : a.node_type = some NodeTypes.FK.value) :
    (lookupK md.fks n).isSome = true := by
  rcases ht with ⟨_, hx⟩ | ⟨_, hx⟩ | ⟨_, hx⟩ | ⟨_, hx⟩ | ⟨h, _⟩
  case inr.inr.inr.inr => exact h
  all_goals rw [hv] at hx; exact absurd (Option.some.inj hx) (by decide)

theorem heads_clash {n : String} {c1 c2 : Char} (h1 : n.data.head? = some c1)
    (h2 : n.data.head? = some c2) (hne : c1 ≠ c2) : False := by
  rw [h1] at h2
  exact hne (Option.some.inj h2)

theorem type_of_key_table {md : DatabaseGraphMetadata} (hS : KeysShaped md)
    {n : String} {a : NodeAttrs} (ht : TypedPair md (n, a))
    (hk : (lookupK md.tables n).isSome = true) :
    a.node_type = some NodeTypes.TABLE.value := by
  have hh := key_head hS.2.1 hk
  rcases ht with ⟨h, _⟩ | ⟨_, hx⟩ | ⟨h, _⟩ | ⟨h, _⟩ | ⟨h, _⟩
  · exact absurd (heads_clash (key_head hS.1 h) hh (by decide)) not_false
  · exact hx
  · exact absurd (heads_clash (key_head hS.2.2.1 h) hh (by decide)) not_false
  · exact absurd (heads_clash (key_head hS.2.2.2.1 h) hh (by decide)) not_false
  · exact absurd (heads_clash (key_head hS.2.2.2.2 h) hh (by decide)) not_false

theorem type_of_key_column {md : DatabaseGraphMetadata} (hS : KeysShaped md)
    {n : String} {a : NodeAttrs} (ht : TypedPair md (n, a))
    (hk : (lookupK md.columns n).isSome = true) :
    a.node_type = some NodeTypes.COLUMN.value := by
  have hh := key_head hS.2.2.1 hk
  rcases ht with ⟨h, _⟩ | ⟨h, _⟩ | ⟨_, hx⟩ | ⟨h, _⟩ | ⟨h, _⟩
  · exact absurd (heads_clash (key_head hS.1 h) hh (by decide)) not_false
  · exact absurd (heads_clash (key_head hS.2.1 h) hh (by decide)) not_false
  · exact hx
  · exact absurd (heads_clash (key_head hS.2.2.2.1 h) hh (by decide)) not_false
  · exact absurd (heads_clash (key_head hS.2.2.2.2 h) hh (by decide)) not_false

theorem type_of_key_pk {md : DatabaseGraphMetadata} (hS : KeysShaped md)
    {n : String} {a : NodeAttrs} (ht : TypedPair md (n, a))
    (hk : (lookupK md.pks n).isSome = true) :
    a.node_type = some NodeTypes.PK.value := by
  have hh := key_head hS.2.2.2.1 hk
  rcases ht with ⟨h, _⟩ | ⟨h, _⟩ | ⟨h, _⟩ | ⟨_, hx⟩ | ⟨h, _⟩
  · exact absurd (heads_clash (key_head hS.1 h) hh (by decide)) not_false
  · exact absurd (heads_clash (key_head hS.2.1 h) hh (by decide)) not_false
  · exact absurd (heads_clash (key_head hS.2.2.1 h) hh (by decide)) not_false
  · exact hx
  · exact absurd (heads_clash (key_head hS.2.2.2.2 h) hh (by decide)) not_false

theorem type_of_key_fk {md : DatabaseGraphMetadata} (hS : KeysShaped md)
    {n : String} {a : NodeAttrs} (ht : TypedPair md (n, a))
    (hk : (lookupK md.fks n).isSome = true) :
    a.node_type = some NodeTypes.FK.value := by
  have hh := key_head hS.2.2.2.2 hk
  rcases ht with ⟨h, _⟩ | ⟨h, _⟩ | ⟨h, _⟩ | ⟨h, _⟩ | ⟨_, hx⟩
  · exact absurd (heads_clash (key_head hS.1 h) hh (by decide)) not_false
  · exact absurd (heads_clash (key_head hS.2.1 h) hh (by decide)) not_false
  · exact absurd (heads_clash (key_head hS.2.2.1 h) hh (by decide)) not_false
  · exact absurd (heads_clash (key_head hS.2.2.2.1 h) hh (by decide)) not_false
  · exact hx

/-! The metadata union index, resolved per partition. -/

theorem gnm_schema {md : DatabaseGraphMetadata} {n : String}
    (hk : (lookupK md.schemas n).isSome = true) :
    ∃ r, lookupK md.schemas n = some r ∧
      md.get_node_metadata n = some (.schemaRow r) := by
  obtain ⟨r, hr, _⟩ := lookupK_isSome_mem hk
  refine ⟨r, hr, ?_⟩
  rw [DatabaseGraphMetadata.get_node_metadata, hr]

theorem gnm_table {md : DatabaseGraphMetadata} (hS : KeysShaped md) {n : String}
    (hk : (lookupK md.tables n).isSome = true) :
    ∃ r, lookupK md.tables n = some r ∧
      md.get_node_metadata n = some (.tableRow r) := by
  have hh := key_head hS.2.1 hk
  obtain ⟨r, hr, _⟩ := lookupK_isSome_mem hk
  refine ⟨r, hr, ?_⟩
  rw [DatabaseGraphMetadata.get_node_metadata,
    lookupK_none_of_heads hS.1 hh (by decide), hr]

theorem gnm_column {md : DatabaseGraphMetadata} (hS : KeysShaped md) {n : String}
    (hk : (lookupK md.columns n).isSome = true) :
    ∃ r, lookupK md.columns n = some r ∧
      md.get_node_metadata n = some (.columnRow r) := by
  have hh := key_head hS.2.2.1 hk
  obtain ⟨r, hr, _⟩ := lookupK_isSome_mem hk
  refine ⟨r, hr, ?_⟩
  rw [DatabaseGraphMetadata.get_node_metadata,
    lookupK_none_of_heads hS.1 hh (by decide),
    lookupK_none_of_heads hS.2.1 hh (by decide), hr]

theorem gnm_pk {md : DatabaseGraphMetadata} (hS : KeysShaped md) {n : String}
    (hk : (lookupK md.pks n).isSome = true) :
    ∃ l, lookupK md.pks n = some l ∧
      md.get_node_metadata n = some (.pkRows l) := by
  have hh := key_head hS.2.2.2.1 hk
  obtain ⟨l, hl, _⟩ := lookupK_isSome_mem hk
  refine ⟨l, hl, ?_⟩
  rw [DatabaseGraphMetadata.get_node_metadata,
    lookupK_none_of_heads hS.1 hh (by decide),
    lookupK_none_of_heads hS.2.1 hh (by decide),
    lookupK_none_of_heads hS.2.2.1 hh (by decide), hl]

theorem gnm_fk {md : DatabaseGraphMetadata} (hS : KeysShaped md) {n : String}
    (hk : (lookupK md.fks n).isSome = true) :
    ∃ l, lookupK md.fks n = some l ∧
      md.get_node_metadata n = some (.fkRows l) := by
  have hh := key_head hS.2.2.2.2 hk
  obtain ⟨l, hl, _⟩ := lookupK_isSome_mem hk
  refine ⟨l, hl, ?_⟩
  rw [DatabaseGraphMetadata.get_node_metadata,
    lookupK_none_of_heads hS.1 hh (by decide),
    lookupK_none_of_heads hS.2.1 hh (by decide),
    lookupK_none_of_heads hS.2.2.1 hh (by decide),
    lookupK_none_of_heads hS.2.2.2.1 hh (by decide), hl]

/-! Success of the composite visitor callbacks. -/

theorem mapM_ok {α β : Type} (f : α → Except String β) :
    ∀ (l : List α), (∀ x ∈ l, ∃ y, f x = .ok y) →
      ∃ l2, l.mapM f = .ok l2 := by
  intro l
  induction l with
  | nil => exact fun _ => ⟨[], rfl⟩
  | cons x rest ih =>
    intro h
    obtain ⟨y, hy⟩ := h x (List.mem_cons_self _ _)
    obtain ⟨l2, hl2⟩ := ih (fun b hb => h b (List.mem_cons_of_mem _ hb))
    refine ⟨y :: l2, ?_⟩
    rw [List.mapM_cons, hy, hl2]
    rfl

theorem kwVisit_ok (d : KeywordScoringDictionary) (col_id nm : String)
    (h : _db_identifier_to_lc_words nm ≠ []) :
    ∃ l, kwVisitColumnScores d col_id nm = .ok l := by
  cases hw : _db_identifier_to_lc_words nm with
  | nil => exact absurd hw h
  | cons w ws =>
    cases ws with
    | nil =>
      refine ⟨kwSinglewordScores d col_id w, ?_⟩
      rw [kwVisitColumnScores, hw]
    | cons w2 ws2 =>
      refine ⟨kwMultiwordScores d col_id (w :: w2 :: ws2), ?_⟩
      rw [kwVisitColumnScores, hw]

theorem scorerVisitColumn_ok (k : ScorerKind) (col_id : String)
    (row : MetadataColumnRow) (st : ScorerState)
    (h : _db_identifier_to_lc_words row.column_name ≠ []) :
    ∃ st2, scorerVisitColumn k col_id row st = .ok st2 := by
  cases k with
  | typeBased defs => exact ⟨_, rfl⟩
  | keyDq => exact ⟨_, rfl⟩
  | keywordBased defs =>
    obtain ⟨l, hl⟩ := kwVisit_ok defs col_id row.column_name h
    refine ⟨{ st with fact_scoring := st.fact_scoring.addAll l }, ?_⟩
    show (kwVisitColumnScores defs col_id row.column_name).map _ = _
    rw [hl]
    rfl

theorem scorerVisitReference_ok (k : ScorerKind) (col_id : String)
    (from_id : Option String) (a : EdgeAttrs) {row : MetadataForeignKeyRow}
    (hrow : a.payload = .fkRow row) (hname : row.fk_name.isSome = true)
    (st : ScorerState) :
    ∃ st2, scorerVisitReference k col_id from_id (some a) st = .ok st2 := by
  cases k with
  | typeBased d => exact ⟨st, rfl⟩
  | keywordBased d => exact ⟨st, rfl⟩
  | keyDq =>
    obtain ⟨nm, hnm⟩ := Option.isSome_iff_exists.mp hname
    refine ⟨{ st with fact_scoring := st.fact_scoring.addAll (
      [NodeDisqualified col_id
        ("column is referenced in a foreign key (" ++ nm ++ ")"),
       NodeDisqualified (fromIdStr from_id)
        ("column is a foreign key (" ++ nm ++ ")")]) }, ?_⟩
    simp only [scorerVisitReference, hrow, keyDqReferenceScores, hnm]
    rfl

theorem lookupFallback_nil (et : Option EdgeTypes) (t : String) :
    lookupFallback [] et t = [] := by
  cases et <;> rfl

/-! Composite dispatch, one lemma per node kind. -/

theorem dispatch_schema (s : CompositeState) (e : VisitStackEntry)
    (nd : NodeMetadata) (href : ¬ e.edge_type = some EdgeTypes.REFERENCE) :
    nodeVisitDispatch compositeGraphVisitor s e NodeTypes.SCHEMA.value nd =
      .ok (s, some [EdgeTypes.SCHEMA_TABLE]) := by
  rw [nodeVisitDispatch, if_neg href, if_pos rfl]
  rfl

theorem dispatch_table (s : CompositeState) (e : VisitStackEntry)
    (nd : NodeMetadata) (href : ¬ e.edge_type = some EdgeTypes.REFERENCE) :
    nodeVisitDispatch compositeGraphVisitor s e NodeTypes.TABLE.value nd =
      .ok (s, some [EdgeTypes.TABLE_COLUMN, EdgeTypes.TABLE_PK,
        EdgeTypes.TABLE_FK]) := by
  rw [nodeVisitDispatch, if_neg href, if_neg (by decide), if_pos rfl]
  rfl

theorem dispatch_column (s : CompositeState) (e : VisitStackEntry)
    (row : MetadataColumnRow)
    (href : ¬ e.edge_type = some EdgeTypes.REFERENCE)
    (hw : _db_identifier_to_lc_words row.column_name ≠ []) :
    ∃ s2, nodeVisitDispatch compositeGraphVisitor s e NodeTypes.COLUMN.value
      (.columnRow row) = .ok (s2, some [EdgeTypes.REFERENCE]) := by
  rw [nodeVisitDispatch, if_neg href, if_neg (by decide), if_neg (by decide),
    if_pos rfl]
  obtain ⟨l2, hl2⟩ := mapM_ok
    (fun p : ScorerKind × ScorerState =>
      (scorerVisitColumn p.1 e.to_node row p.2).map (fun st => (p.1, st))) s
    (fun p _ => by
      obtain ⟨st2, hst2⟩ := scorerVisitColumn_ok p.1 e.to_node row p.2 hw
      exact ⟨(p.1, st2), by dsimp only; rw [hst2]; rfl⟩)
  refine ⟨l2, ?_⟩
  simp only [compositeGraphVisitor]
  rw [hl2]
  rfl

theorem dispatch_pk (s : CompositeState) (e : VisitStackEntry)
    (rows : List MetadataPrimaryKeyRow)
    (href : ¬ e.edge_type = some EdgeTypes.REFERENCE) :
    nodeVisitDispatch compositeGraphVisitor s e NodeTypes.PK.value
      (.pkRows rows) =
      .ok (s.map (fun p => (p.1, scorerVisitPk p.1 e.to_node rows p.2)),
        none) := by
  rw [nodeVisitDispatch, if_neg href, if_neg (by decide), if_neg (by decide),
    if_neg (by decide), if_pos rfl]
  rfl

theorem dispatch_fk (s : CompositeState) (e : VisitStackEntry)
    (nd : NodeMetadata) (href : ¬ e.edge_type = some EdgeTypes.REFERENCE) :
    nodeVisitDispatch compositeGraphVisitor s e NodeTypes.FK.value nd =
      .ok (s, none) := by
  rw [nodeVisitDispatch, if_neg href, if_neg (by decide), if_neg (by decide),
    if_neg (by decide), if_neg (by decide), if_pos rfl]
  rfl

theorem dispatch_reference (s : CompositeState) (e : VisitStackEntry)
    (t : String) (nd : NodeMetadata) {a : EdgeAttrs}
    (href : e.edge_type = some EdgeTypes.REFERENCE)
    (ha : e.edge_data = some a) {row : MetadataForeignKeyRow}
    (hrow : a.payload = .fkRow row) (hname : row.fk_name.isSome = true) :
    ∃ s2, nodeVisitDispatch compositeGraphVisitor s e t nd = .ok (s2, none) := by
  rw [nodeVisitDispatch, if_pos href]
  obtain ⟨l2, hl2⟩ := mapM_ok
    (fun p : ScorerKind × ScorerState =>
      (scorerVisitReference p.1 e.to_node e.from_node e.edge_data p.2).map
        (fun st => (p.1, st))) s
    (fun p _ => by
      obtain ⟨st2, hst2⟩ :=
        scorerVisitReference_ok p.1 e.to_node e.from_node a hrow hname p.2
      exact ⟨(p.1, st2), by dsimp only; rw [ha, hst2]; rfl⟩)
  refine ⟨l2, ?_⟩
  simp only [compositeGraphVisitor]
  rw [hl2]
  rfl

/-! Termination measure of the composite traversal: a stack entry is ranked
by the kind of its destination node (reference arrivals rank zero, since they
never push), and weighs base to the power of its rank, the base exceeding the
number of entries one visit can push. -/

def typeRank (t : String) : Nat :=
  if t = NodeTypes.SCHEMA.value then 3
  else if t = NodeTypes.TABLE.value then 2
  else if t = NodeTypes.COLUMN.value then 1
  else 0

def entryRank (g : PyDiGraph) (e : VisitStackEntry) : Nat :=
  if e.edge_type = some EdgeTypes.REFERENCE then 0
  else
    match lookupK g.nodes e.to_node with
    | some a =>
      match a.node_type with
      | some t => typeRank t
      | none => 0
    | none => 0

def stackBase (g : PyDiGraph) : Nat := g.edges.length + 1

def stackMeasure (g : PyDiGraph) (stack : List VisitStackEntry) : Nat :=
  (stack.map (fun e => stackBase g ^ entryRank g e)).sum

theorem stackMeasure_cons (g : PyDiGraph) (e : VisitStackEntry)
    (l : List VisitStackEntry) :
    stackMeasure g (e :: l) = stackBase g ^ entryRank g e + stackMeasure g l := by
  simp [stackMeasure]

theorem stackMeasure_append (g : PyDiGraph) (l1 l2 : List VisitStackEntry) :
    stackMeasure g (l1 ++ l2) = stackMeasure g l1 + stackMeasure g l2 := by
  simp [stackMeasure]

theorem entryRank_of {g : PyDiGraph} {e : VisitStackEntry} {a : NodeAttrs}
    {t : String} (href : ¬ e.edge_type = some EdgeTypes.REFERENCE)
    (ha : lookupK g.nodes e.to_node = some a) (ht : a.node_type = some t) :
    entryRank g e = typeRank t := by
  rw [entryRank, if_neg href, ha]
  dsimp only
  rw [ht]

theorem entryRank_ref {g : PyDiGraph} {e : VisitStackEntry}
    (href : e.edge_type = some EdgeTypes.REFERENCE) : entryRank g e = 0 := by
  rw [entryRank, if_pos href]

theorem stackMeasure_le (g : PyDiGraph) (k : Nat) :
    ∀ (l : List VisitStackEntry), (∀ e ∈ l, entryRank g e ≤ k) →
      stackMeasure g l ≤ l.length * stackBase g ^ k := by
  intro l
  induction l with
  | nil => intro _; simp [stackMeasure]
  | cons e rest ih =>
    intro h
    rw [stackMeasure_cons, List.length_cons, Nat.succ_mul]
    have h1 : stackBase g ^ entryRank g e ≤ stackBase g ^ k :=
      Nat.pow_le_pow_right (Nat.le_add_left 1 g.edges.length)
        (h e (List.mem_cons_self _ _))
    have h2 := ih (fun x hx => h x (List.mem_cons_of_mem _ hx))
    omega

theorem outEdges_mem {g : PyDiGraph} {u : String} {out : String × EdgeAttrs}
    (h : out ∈ g.outEdges u) : ((u, out.1), out.2) ∈ g.edges := by
  rw [PyDiGraph.outEdges] at h
  rcases List.mem_filterMap.mp h with ⟨e, he, hmap⟩
  by_cases hc : e.1.1 = u
  · rw [if_pos hc] at hmap
    have hout : (e.1.2, e.2) = out := Option.some.inj hmap
    obtain ⟨⟨a, b⟩, c⟩ := e
    dsimp only at hc hout
    rw [← hout]
    dsimp only
    rw [hc] at he
    exact he
  · rw [if_neg hc] at hmap
    exact Option.noConfusion hmap

theorem outEdges_length_le (g : PyDiGraph) (u : String) :
    (g.outEdges u).length ≤ g.edges.length :=
  List.length_filterMap_le _ _

/-- The destination of every out-edge of a well-formed graph is a typed node
of one of the five visitable kinds. -/
theorem target_typed {md : DatabaseGraphMetadata} {g : PyDiGraph}
    (hI : GInv md g) {u : String} {out : String × EdgeAttrs}
    (hm : out ∈ g.outEdges u) :
    ∃ a, lookupK g.nodes out.1 = some a ∧
      ∃ t, a.node_type = some t ∧ t ∈ visitOrderValues := by
  have he := outEdges_mem hm
  obtain ⟨_, _, hv⟩ := hI.2 _ he
  obtain ⟨a, ha⟩ := Option.isSome_iff_exists.mp hv
  have ht := hI.1 (out.1, a) (lookupK_mem ha)
  refine ⟨a, ha, ?_⟩
  rcases ht with ⟨_, h⟩ | ⟨_, h⟩ | ⟨_, h⟩ | ⟨_, h⟩ | ⟨_, h⟩
  exacts [⟨_, h, by decide⟩, ⟨_, h, by decide⟩, ⟨_, h, by decide⟩,
    ⟨_, h, by decide⟩, ⟨_, h, by decide⟩]

/-! The per-visit expansion, characterized as a filterMap over the out-edges
followed by the per-kind regrouping. -/

def pushOf (e : VisitStackEntry) (out : String × EdgeAttrs) : VisitStackEntry :=
  { from_node := some e.to_node, to_node := out.1,
    edge_type := some out.2.edge_type, edge_data := some out.2 }

def pushPair (g : PyDiGraph) (follow : List EdgeTypes) (e : VisitStackEntry)
    (out : String × EdgeAttrs) : Option (String × VisitStackEntry) :=
  match lookupK g.nodes out.1 with
  | some a =>
    match a.node_type with
    | some t => if out.2.edge_type ∈ follow then some (t, pushOf e out) else none
    | none => none
  | none => none

theorem expandFold_ok (g : PyDiGraph) (follow : List EdgeTypes)
    (e : VisitStackEntry) :
    ∀ (outs : List (String × EdgeAttrs)) (acc : List (String × VisitStackEntry)),
      (∀ out ∈ outs, ∃ a, lookupK g.nodes out.1 = some a ∧
        ∃ t, a.node_type = some t ∧ t ∈ visitOrderValues) →
      (∀ out ∈ outs, out.2.edge_type ∈ follow → ¬ some out.1 = e.from_node) →
      outs.foldlM (expandStep g follow e) acc =
        .ok (acc ++ outs.filterMap (pushPair g follow e)) := by
  intro outs
  induction outs with
  | nil =>
    intro acc _ _
    rw [List.foldlM_nil, List.filterMap_nil, List.append_nil]
    rfl
  | cons out rest ih =>
    intro acc h1 h2
    obtain ⟨a, ha, t, ht, htv⟩ := h1 out (List.mem_cons_self _ _)
    rw [List.foldlM_cons, List.filterMap_cons]
    have hstep : expandStep g follow e acc out =
        .ok (acc ++ (if out.2.edge_type ∈ follow
          then [(t, pushOf e out)] else [])) := by
      by_cases hf : out.2.edge_type ∈ follow
      · simp only [expandStep, ha, ht, if_pos hf,
          if_neg (h2 out (List.mem_cons_self _ _) hf), if_pos htv, pushOf]
      · simp only [expandStep, ha, ht, if_neg hf, List.append_nil]
    have hpp : pushPair g follow e out =
        (if out.2.edge_type ∈ follow then some (t, pushOf e out) else none) := by
      rw [pushPair, ha]
      dsimp only
      rw [ht]
    rw [hstep]
    have hbind : ((Except.ok (acc ++ (if out.2.edge_type ∈ follow
        then [(t, pushOf e out)] else [])) :
          Except String (List (String × VisitStackEntry))) >>=
        fun s => rest.foldlM (expandStep g follow e) s) =
        rest.foldlM (expandStep g follow e)
          (acc ++ (if out.2.edge_type ∈ follow
            then [(t, pushOf e out)] else [])) := rfl
    rw [hbind, ih _ (fun o ho => h1 o (List.mem_cons_of_mem _ ho))
      (fun o ho => h2 o (List.mem_cons_of_mem _ ho)), hpp]
    by_cases hf : out.2.edge_type ∈ follow
    · rw [if_pos hf, if_pos hf]
      rw [List.append_assoc]
      rfl
    · rw [if_neg hf, if_neg hf, List.append_nil]

/-- The per-kind regrouping of expandEntries. -/
def regroupBy (ts : List String) (pairs : List (String × VisitStackEntry)) :
    List VisitStackEntry :=
  ts.foldr (fun t acc => (pairs.filter (fun p => p.1 = t)).map Prod.snd ++ acc) []

theorem regroupBy_congr : ∀ (ts : List String)
    (pairs pairs2 : List (String × VisitStackEntry)),
    (∀ t ∈ ts, pairs.filter (fun p => p.1 = t) =
      pairs2.filter (fun p => p.1 = t)) →
    regroupBy ts pairs = regroupBy ts pairs2 := by
  intro ts
  induction ts with
  | nil => intro _ _ _; rfl
  | cons t rest ih =>
    intro pairs pairs2 h
    rw [show regroupBy (t :: rest) pairs =
        (pairs.filter (fun p => p.1 = t)).map Prod.snd ++ regroupBy rest pairs
        from rfl,
      show regroupBy (t :: rest) pairs2 =
        (pairs2.filter (fun p => p.1 = t)).map Prod.snd ++ regroupBy rest pairs2
        from rfl,
      h t (List.mem_cons_self _ _),
      ih pairs pairs2 (fun t2 ht2 => h t2 (List.mem_cons_of_mem _ ht2))]

theorem regroup_perm : ∀ (ts : List String), ts.Nodup →
    ∀ (pairs : List (String × VisitStackEntry)),
      (∀ pr ∈ pairs, pr.1 ∈ ts) →
      (regroupBy ts pairs).Perm (pairs.map Prod.snd) := by
  intro ts
  induction ts with
  | nil =>
    intro _ pairs h
    cases pairs with
    | nil => exact List.Perm.refl _
    | cons pr rest =>
      exact absurd (h pr (List.mem_cons_self _ _)) (List.not_mem_nil _)
  | cons t rest ih =>
    intro hnd pairs h
    obtain ⟨hnotin, hnd2⟩ := List.nodup_cons.mp hnd
    have hcong : regroupBy rest pairs =
        regroupBy rest (pairs.filter (fun pr => !decide (pr.1 = t))) := by
      refine regroupBy_congr rest _ _ ?_
      intro t2 ht2
      rw [List.filter_filter]
      refine List.filter_congr ?_
      intro pr _
      have ht2t : ¬ t2 = t := fun he => hnotin (he ▸ ht2)
      by_cases hp : pr.1 = t2
      · simp [hp, ht2t]
      · simp [hp]
    have hih : (regroupBy rest (pairs.filter (fun pr => !decide (pr.1 = t)))).Perm
        ((pairs.filter (fun pr => !decide (pr.1 = t))).map Prod.snd) := by
      refine ih hnd2 _ ?_
      intro pr hpr
      obtain ⟨hmem, hne⟩ := List.mem_filter.mp hpr
      rcases List.mem_cons.mp (h pr hmem) with hx | hx
      · rw [hx] at hne
        simp at hne
      · exact hx
    have hsplit : ((pairs.filter (fun pr => decide (pr.1 = t))).map Prod.snd ++
        (pairs.filter (fun pr => !decide (pr.1 = t))).map Prod.snd).Perm
        (pairs.map Prod.snd) := by
      rw [← List.map_append]
      exact List.Perm.map Prod.snd (List.filter_append_perm _ pairs)
    have hhead : regroupBy (t :: rest) pairs =
        (pairs.filter (fun p => p.1 = t)).map Prod.snd ++ regroupBy rest pairs :=
      rfl
    rw [hhead, hcong]
    exact List.Perm.trans (List.Perm.append_left _ hih) hsplit

theorem expandEntries_ok (g : PyDiGraph) (follow : List EdgeTypes)
    (e : VisitStackEntry)
    (h1 : ∀ out ∈ g.outEdges e.to_node, ∃ a, lookupK g.nodes out.1 = some a ∧
      ∃ t, a.node_type = some t ∧ t ∈ visitOrderValues)
    (h2 : ∀ out ∈ g.outEdges e.to_node, out.2.edge_type ∈ follow →
      ¬ some out.1 = e.from_node) :
    expandEntries g follow e =
      .ok (regroupBy visitOrderValues
        ((g.outEdges e.to_node).filterMap (pushPair g follow e))) ∧
    (regroupBy visitOrderValues
      ((g.outEdges e.to_node).filterMap (pushPair g follow e))).Perm
      (((g.outEdges e.to_node).filterMap (pushPair g follow e)).map Prod.snd) := by
  constructor
  · rw [expandEntries]
    have hfold := expandFold_ok g follow e (g.outEdges e.to_node) [] h1 h2
    rw [List.nil_append] at hfold
    rw [hfold]
    rfl
  · refine regroup_perm visitOrderValues (by decide) _ ?_
    intro pr hpr
    rcases List.mem_filterMap.mp hpr with ⟨out, hout, hpp⟩
    obtain ⟨a, ha, t, ht, htv⟩ := h1 out hout
    rw [pushPair, ha] at hpp
    dsimp only at hpp
    rw [ht] at hpp
    dsimp only at hpp
    by_cases hf : out.2.edge_type ∈ follow
    · rw [if_pos hf] at hpp
      rw [← (Option.some.inj hpp)]
      exact htv
    · rw [if_neg hf] at hpp
      exact Option.noConfusion hpp

/-- Membership in the expansion result: every pushed entry is the push of a
followed out-edge. -/
theorem mem_pushes {g : PyDiGraph} {follow : List EdgeTypes}
    {e x : VisitStackEntry}
    (h : x ∈ ((g.outEdges e.to_node).filterMap (pushPair g follow e)).map
      Prod.snd) :
    ∃ out ∈ g.outEdges e.to_node, out.2.edge_type ∈ follow ∧ x = pushOf e out := by
  rcases List.mem_map.mp h with ⟨pr, hpr, hx⟩
  rcases List.mem_filterMap.mp hpr with ⟨out, hout, hpp⟩
  rw [pushPair] at hpp
  cases ha : lookupK g.nodes out.1 with
  | none => rw [ha] at hpp; exact Option.noConfusion hpp
  | some a =>
    rw [ha] at hpp
    dsimp only at hpp
    cases ht : a.node_type with
    | none => rw [ht] at hpp; exact Option.noConfusion hpp
    | some t =>
      rw [ht] at hpp
      dsimp only at hpp
      by_cases hf : out.2.edge_type ∈ follow
      · rw [if_pos hf] at hpp
        refine ⟨out, hout, hf, ?_⟩
        rw [← hx, ← (Option.some.inj hpp)]
      · rw [if_neg hf] at hpp
        exact Option.noConfusion hpp

/-- Invariant of the entries a composite traversal can ever hold on its
stack: the destination exists, and the entry is either a root, a reference
arrival carrying a named foreign-key payload, a schema-table push from a
schema node, or a table-column / table-pk / table-fk push from a table node. -/
def EntryOk (md : DatabaseGraphMetadata) (g : PyDiGraph)
    (e : VisitStackEntry) : Prop :=
  (lookupK g.nodes e.to_node).isSome = true ∧
  ((e.from_node = none ∧ e.edge_type = none) ∨
   (e.edge_type = some EdgeTypes.REFERENCE ∧
     ∃ a, e.edge_data = some a ∧ ∃ row, a.payload = EdgePayload.fkRow row ∧
       row.fk_name.isSome = true) ∨
   (e.edge_type = some EdgeTypes.SCHEMA_TABLE ∧
     (lookupK md.tables e.to_node).isSome = true ∧
     ∃ fn, e.from_node = some fn ∧ (lookupK md.schemas fn).isSome = true) ∨
   (((e.edge_type = some EdgeTypes.TABLE_COLUMN ∧
       (lookupK md.columns e.to_node).isSome = true) ∨
     (e.edge_type = some EdgeTypes.TABLE_PK ∧
       (lookupK md.pks e.to_node).isSome = true) ∨
     (e.edge_type = some EdgeTypes.TABLE_FK ∧
       (lookupK md.fks e.to_node).isSome = true)) ∧
     ∃ fn, e.from_node = some fn ∧ (lookupK md.tables fn).isSome = true))

theorem key_two_partitions {β γ : Type} {l1 : List (String × β)}
    {l2 : List (String × γ)} {c1 c2 : Char}
    (h1 : ∀ p ∈ l1, p.1.data.head? = some c1)
    (h2 : ∀ p ∈ l2, p.1.data.head? = some c2) (hne : c1 ≠ c2) {k : String}
    (hk1 : (lookupK l1 k).isSome = true)
    (hk2 : (lookupK l2 k).isSome = true) : False :=
  heads_clash (key_head h1 hk1) (key_head h2 hk2) hne

theorem visitLoop_step {σ : Type} (g : PyDiGraph) (md : DatabaseGraphMetadata)
    (vis : DatabaseGraphVisitor σ) (fb : FallbackNav) (fuel : Nat) (s : σ)
    (e : VisitStackEntry) (rest : List VisitStackEntry) {attrs : NodeAttrs}
    {t : String} {nd : NodeMetadata} {s2 : σ} {retval : Option (List EdgeTypes)}
    {next : List VisitStackEntry}
    (h1 : lookupK g.nodes e.to_node = some attrs)
    (h2 : attrs.node_type = some t)
    (h3 : md.get_node_metadata e.to_node = some nd)
    (h4 : nodeVisitDispatch vis s e t nd = .ok (s2, retval))
    (h5 : expandEntries g (followOfRetval fb e t retval) e = .ok next) :
    visitLoop g md vis fb (fuel + 1) s (e :: rest) =
      visitLoop g md vis fb fuel s2 (next ++ rest) := by
  simp only [visitLoop, h1, h2, h3, h4, h5]

theorem measure_step {g : PyDiGraph} {e : VisitStackEntry}
    {next rest : List VisitStackEntry} {fuel r : Nat}
    (hr : entryRank g e = r)
    (hlen : next.length ≤ g.edges.length)
    (hlt : ∀ x ∈ next, entryRank g x < r)
    (hM : stackMeasure g (e :: rest) ≤ fuel + 1) :
    stackMeasure g (next ++ rest) ≤ fuel := by
  rw [stackMeasure_cons, hr] at hM
  rw [stackMeasure_append]
  have hpos : 0 < stackBase g ^ r := Nat.pow_pos (Nat.succ_pos g.edges.length)
  cases next with
  | nil =>
    have h0 : stackMeasure g ([] : List VisitStackEntry) = 0 := rfl
    omega
  | cons x xs =>
    have hr1 : 1 ≤ r := by
      have := hlt x (List.mem_cons_self _ _)
      omega
    have hXpos : 0 < stackBase g ^ (r - 1) :=
      Nat.pow_pos (Nat.succ_pos g.edges.length)
    have hble : stackMeasure g (x :: xs) ≤
        (x :: xs).length * stackBase g ^ (r - 1) :=
      stackMeasure_le g (r - 1) (x :: xs) (fun y hy => by
        have := hlt y hy
        omega)
    have hmul : (x :: xs).length * stackBase g ^ (r - 1) ≤
        g.edges.length * stackBase g ^ (r - 1) :=
      Nat.mul_le_mul_right _ hlen
    have hrr : r - 1 + 1 = r := by omega
    have h2 : stackBase g ^ r = stackBase g ^ (r - 1) * stackBase g := by
      rw [← Nat.pow_succ, Nat.succ_eq_add_one, hrr]
    have h3 : stackBase g ^ r =
        g.edges.length * stackBase g ^ (r - 1) + stackBase g ^ (r - 1) := by
      rw [h2, stackBase]
      ring
    omega

/-- All root entries satisfy the stack invariant. -/
theorem rootEntries_EntryOk (md : DatabaseGraphMetadata) (g : PyDiGraph) :
    ∀ e ∈ (rootEntries g).reverse, EntryOk md g e := by
  intro e he
  rw [List.mem_reverse, rootEntries] at he
  rcases List.mem_map.mp he with ⟨p, hp, hpe⟩
  rw [← hpe]
  exact ⟨mem_lookupK_isSome (List.mem_filter.mp hp).1, Or.inl ⟨rfl, rfl⟩⟩

theorem followOfRetval_none_nil (e : VisitStackEntry) (t : String) :
    followOfRetval [] e t none = [] :=
  lookupFallback_nil e.edge_type t

theorem expandEntries_ok2 (g : PyDiGraph) (follow : List EdgeTypes)
    (e : VisitStackEntry)
    (h1 : ∀ out ∈ g.outEdges e.to_node, ∃ a, lookupK g.nodes out.1 = some a ∧
      ∃ t, a.node_type = some t ∧ t ∈ visitOrderValues)
    (h2 : ∀ out ∈ g.outEdges e.to_node, out.2.edge_type ∈ follow →
      ¬ some out.1 = e.from_node) :
    ∃ next, expandEntries g follow e = .ok next ∧
      next.Perm (((g.outEdges e.to_node).filterMap
        (pushPair g follow e)).map Prod.snd) :=
  ⟨_, (expandEntries_ok g follow e h1 h2).1, (expandEntries_ok g follow e h1 h2).2⟩

theorem pushes_length_le {g : PyDiGraph} {follow : List EdgeTypes}
    {e : VisitStackEntry} {next : List VisitStackEntry}
    (hperm : next.Perm (((g.outEdges e.to_node).filterMap
      (pushPair g follow e)).map Prod.snd)) :
    next.length ≤ g.edges.length := by
  rw [hperm.length_eq, List.length_map]
  exact Nat.le_trans (List.length_filterMap_le _ _) (outEdges_length_le g e.to_node)

/-- The composite scoring traversal terminates successfully on a well-formed
graph from any stack of well-formed entries, given fuel at least the stack
measure: every visit pops one entry and pushes only entries of strictly
smaller rank, and every callback, node-type read, metadata lookup and
back-edge check succeeds. -/
theorem visitLoop_completes (md : DatabaseGraphMetadata) (g : PyDiGraph)
    (hI : GInv md g) (hS : KeysShaped md) (hC : ColumnsOk md) :
    ∀ (fuel : Nat) (stack : List VisitStackEntry) (s : CompositeState),
      (∀ e ∈ stack, EntryOk md g e) →
      stackMeasure g stack ≤ fuel →
      ∃ s2, visitLoop g md compositeGraphVisitor [] fuel s stack = .ok s2 := by
  intro fuel
  induction fuel with
  | zero =>
    intro stack s hE hM
    cases stack with
    | nil => exact ⟨s, rfl⟩
    | cons e rest =>
      exfalso
      rw [stackMeasure_cons] at hM
      have hpos : 0 < stackBase g ^ entryRank g e :=
        Nat.pow_pos (Nat.succ_pos g.edges.length)
      omega
  | succ fuel ih =>
    intro stack s hE hM
    cases stack with
    | nil => exact ⟨s, rfl⟩
    | cons e rest =>
      obtain ⟨hpres, hprov⟩ := hE e (List.mem_cons_self _ _)
      obtain ⟨attrs, hattrs⟩ := Option.isSome_iff_exists.mp hpres
      have hTyped := hI.1 (e.to_node, attrs) (lookupK_mem hattrs)
      have hrest : ∀ x ∈ rest, EntryOk md g x :=
        fun x hx => hE x (List.mem_cons_of_mem _ hx)
      by_cases href : e.edge_type = some EdgeTypes.REFERENCE
      · -- a reference arrival: the edge callback runs and nothing is pushed
        have hpay : ∃ a, e.edge_data = some a ∧
            ∃ row, a.payload = EdgePayload.fkRow row ∧
              row.fk_name.isSome = true := by
          rcases hprov with ⟨_, h0⟩ | ⟨_, hp⟩ | ⟨hq, _⟩ | ⟨hq3, _⟩
          · rw [href] at h0
            exact Option.noConfusion h0
          · exact hp
          · rw [href] at hq
            exact absurd (Option.some.inj hq) (by decide)
          · rcases hq3 with ⟨hq, _⟩ | ⟨hq, _⟩ | ⟨hq, _⟩ <;>
              (rw [href] at hq; exact absurd (Option.some.inj hq) (by decide))
        obtain ⟨ea, hea, row, hrow, hname⟩ := hpay
        have hndx : ∃ nd, md.get_node_metadata e.to_node = some nd := by
          rcases hTyped with ⟨h, _⟩ | ⟨h, _⟩ | ⟨h, _⟩ | ⟨h, _⟩ | ⟨h, _⟩
          · obtain ⟨r2, _, hg2⟩ := gnm_schema h
            exact ⟨_, hg2⟩
          · obtain ⟨r2, _, hg2⟩ := gnm_table hS h
            exact ⟨_, hg2⟩
          · obtain ⟨r2, _, hg2⟩ := gnm_column hS h
            exact ⟨_, hg2⟩
          · obtain ⟨l2, _, hg2⟩ := gnm_pk hS h
            exact ⟨_, hg2⟩
          · obtain ⟨l2, _, hg2⟩ := gnm_fk hS h
            exact ⟨_, hg2⟩
        obtain ⟨nd, hnd⟩ := hndx
        have htx : ∃ t, attrs.node_type = some t := by
          rcases hTyped with ⟨_, h⟩ | ⟨_, h⟩ | ⟨_, h⟩ | ⟨_, h⟩ | ⟨_, h⟩ <;>
            exact ⟨_, h⟩
        obtain ⟨t, ht⟩ := htx
        obtain ⟨s2, hdisp⟩ := dispatch_reference s e t nd href hea hrow hname
        obtain ⟨next, hnext, hperm⟩ := expandEntries_ok2 g
          (followOfRetval [] e t none) e
          (fun out ho => target_typed hI ho)
          (fun out ho hf => by
            rw [followOfRetval_none_nil] at hf
            exact absurd hf (List.not_mem_nil _))
        rw [visitLoop_step g md compositeGraphVisitor [] fuel s e rest hattrs ht
          hnd hdisp hnext]
        refine ih _ s2 ?_ ?_
        · intro x hx
          rcases List.mem_append.mp hx with hx | hx
          · obtain ⟨out, _, hf, _⟩ := mem_pushes (hperm.mem_iff.mp hx)
            rw [followOfRetval_none_nil] at hf
            exact absurd hf (List.not_mem_nil _)
          · exact hrest x hx
        · refine measure_step (entryRank_ref href) (pushes_length_le hperm)
            ?_ hM
          intro x hx
          obtain ⟨out, _, hf, _⟩ := mem_pushes (hperm.mem_iff.mp hx)
          rw [followOfRetval_none_nil] at hf
          exact absurd hf (List.not_mem_nil _)
      · rcases hTyped with ⟨hk, hv⟩ | ⟨hk, hv⟩ | ⟨hk, hv⟩ | ⟨hk, hv⟩ | ⟨hk, hv⟩
        · -- schema visit
          obtain ⟨r2, hr2, hgnm⟩ := gnm_schema hk
          have hfrom : e.from_node = none := by
            rcases hprov with ⟨h0, _⟩ | ⟨hq, _⟩ | ⟨_, hq2, _⟩ | ⟨hq3, _⟩
            · exact h0
            · exact absurd hq href
            · exact (key_two_partitions hS.2.1 hS.1 (by decide) hq2 hk).elim
            · rcases hq3 with ⟨_, hq2⟩ | ⟨_, hq2⟩ | ⟨_, hq2⟩
              · exact (key_two_partitions hS.2.2.1 hS.1 (by decide) hq2 hk).elim
              · exact (key_two_partitions hS.2.2.2.1 hS.1 (by decide) hq2 hk).elim
              · exact (key_two_partitions hS.2.2.2.2 hS.1 (by decide) hq2 hk).elim
          obtain ⟨next, hnext, hperm⟩ := expandEntries_ok2 g
            [EdgeTypes.SCHEMA_TABLE] e
            (fun out ho => target_typed hI ho)
            (fun out ho hf hcon => by
              rw [hfrom] at hcon
              exact Option.noConfusion hcon)
          have hdisp := dispatch_schema s e (NodeMetadata.schemaRow r2) href
          rw [visitLoop_step g md compositeGraphVisitor [] fuel s e rest hattrs
            hv hgnm hdisp hnext]
          have hpush : ∀ x ∈ next, EntryOk md g x ∧ entryRank g x < 3 := by
            intro x hx
            obtain ⟨out, ho, hf, hxe⟩ := mem_pushes (hperm.mem_iff.mp hx)
            have hedge := hI.2 _ (outEdges_mem ho)
            have hst : out.2.edge_type = EdgeTypes.SCHEMA_TABLE :=
              List.mem_singleton.mp hf
            have htab := hedge.1.1 hst
            obtain ⟨a2, ha2⟩ := Option.isSome_iff_exists.mp hedge.2.2
            have hv2 := type_of_key_table hS
              (hI.1 (out.1, a2) (lookupK_mem ha2)) htab
            subst hxe
            constructor
            · refine ⟨hedge.2.2, Or.inr (Or.inr (Or.inl ⟨?_, htab,
                e.to_node, rfl, hk⟩))⟩
              rw [show (pushOf e out).edge_type = some out.2.edge_type from rfl,
                hst]
            · have hrk : entryRank g (pushOf e out) =
                  typeRank NodeTypes.TABLE.value :=
                entryRank_of (fun hcon => by
                  rw [show (pushOf e out).edge_type = some out.2.edge_type
                    from rfl, hst] at hcon
                  exact absurd (Option.some.inj hcon) (by decide)) ha2 hv2
              rw [hrk]
              decide
          refine ih _ s ?_ ?_
          · intro x hx
            rcases List.mem_append.mp hx with hx | hx
            · exact (hpush x hx).1
            · exact hrest x hx
          · refine measure_step (entryRank_of href hattrs hv)
              (pushes_length_le hperm) ?_ hM
            intro x hx
            have := (hpush x hx).2
            have hq : typeRank NodeTypes.SCHEMA.value = 3 := by decide
            omega
        · -- table visit
          obtain ⟨r2, hr2, hgnm⟩ := gnm_table hS hk
          have hfrom : e.from_node = none ∨
              ∃ fn, e.from_node = some fn ∧
                (lookupK md.schemas fn).isSome = true := by
            rcases hprov with ⟨h0, _⟩ | ⟨hq, _⟩ | ⟨_, _, hf3⟩ | ⟨hq3, _⟩
            · exact Or.inl h0
            · exact absurd hq href
            · exact Or.inr hf3
            · rcases hq3 with ⟨_, hq2⟩ | ⟨_, hq2⟩ | ⟨_, hq2⟩
              · exact (key_two_partitions hS.2.2.1 hS.2.1 (by decide) hq2 hk).elim
              · exact (key_two_partitions hS.2.2.2.1 hS.2.1 (by decide)
                  hq2 hk).elim
              · exact (key_two_partitions hS.2.2.2.2 hS.2.1 (by decide)
                  hq2 hk).elim
          obtain ⟨next, hnext, hperm⟩ := expandEntries_ok2 g
            [EdgeTypes.TABLE_COLUMN, EdgeTypes.TABLE_PK, EdgeTypes.TABLE_FK] e
            (fun out ho => target_typed hI ho)
            (fun out ho hf hcon => by
              have hedge := hI.2 _ (outEdges_mem ho)
              simp only [List.mem_cons, List.not_mem_nil, or_false] at hf
              have hhead : out.1.data.head? = some 'c' ∨
                  out.1.data.head? = some 'p' ∨ out.1.data.head? = some 'f' := by
                rcases hf with hf | hf | hf
                · exact Or.inl (key_head hS.2.2.1 (hedge.1.2.1 hf))
                · exact Or.inr (Or.inl (key_head hS.2.2.2.1 (hedge.1.2.2.1 hf)))
                · exact Or.inr (Or.inr (key_head hS.2.2.2.2
                    (hedge.1.2.2.2.1 hf)))
              rcases hfrom with h0 | ⟨fn, hfn, hsch⟩
              · rw [h0] at hcon
                exact Option.noConfusion hcon
              · rw [hfn] at hcon
                have hout1 : out.1 = fn := Option.some.inj hcon
                have hfh := key_head hS.1 hsch
                rw [← hout1] at hfh
                rcases hhead with hh | hh | hh
                · exact heads_clash hh hfh (by decide)
                · exact heads_clash hh hfh (by decide)
                · exact heads_clash hh hfh (by decide))
          have hdisp := dispatch_table s e (NodeMetadata.tableRow r2) href
          rw [visitLoop_step g md compositeGraphVisitor [] fuel s e rest hattrs
            hv hgnm hdisp hnext]
          have hpush : ∀ x ∈ next, EntryOk md g x ∧ entryRank g x < 2 := by
            intro x hx
            obtain ⟨out, ho, hf, hxe⟩ := mem_pushes (hperm.mem_iff.mp hx)
            have hedge := hI.2 _ (outEdges_mem ho)
            obtain ⟨a2, ha2⟩ := Option.isSome_iff_exists.mp hedge.2.2
            have hT2 := hI.1 (out.1, a2) (lookupK_mem ha2)
            simp only [List.mem_cons, List.not_mem_nil, or_false] at hf
            have hety : (pushOf e out).edge_type = some out.2.edge_type := rfl
            subst hxe
            rcases hf with hf | hf | hf
            · have hcols := hedge.1.2.1 hf
              have hv2 := type_of_key_column hS hT2 hcols
              refine ⟨⟨hedge.2.2, Or.inr (Or.inr (Or.inr ⟨Or.inl ⟨?_, hcols⟩,
                e.to_node, rfl, hk⟩))⟩, ?_⟩
              · rw [hety, hf]
              · have hrk : entryRank g (pushOf e out) =
                    typeRank NodeTypes.COLUMN.value :=
                  entryRank_of (fun hcon => by
                    rw [hety, hf] at hcon
                    exact absurd (Option.some.inj hcon) (by decide)) ha2 hv2
                rw [hrk]
                decide
            · have hpks := hedge.1.2.2.1 hf
              have hv2 := type_of_key_pk hS hT2 hpks
              refine ⟨⟨hedge.2.2, Or.inr (Or.inr (Or.inr ⟨Or.inr (Or.inl
                ⟨?_, hpks⟩), e.to_node, rfl, hk⟩))⟩, ?_⟩
              · rw [hety, hf]
              · have hrk : entryRank g (pushOf e out) =
                    typeRank NodeTypes.PK.value :=
                  entryRank_of (fun hcon => by
                    rw [hety, hf] at hcon
                    exact absurd (Option.some.inj hcon) (by decide)) ha2 hv2
                rw [hrk]
                decide
            · have hfks := hedge.1.2.2.2.1 hf
              have hv2 := type_of_key_fk hS hT2 hfks
              refine ⟨⟨hedge.2.2, Or.inr (Or.inr (Or.inr ⟨Or.inr (Or.inr
                ⟨?_, hfks⟩), e.to_node, rfl, hk⟩))⟩, ?_⟩
              · rw [hety, hf]
              · have hrk : entryRank g (pushOf e out) =
                    typeRank NodeTypes.FK.value :=
                  entryRank_of (fun hcon => by
                    rw [hety, hf] at hcon
                    exact absurd (Option.some.inj hcon) (by decide)) ha2 hv2
                rw [hrk]
                decide
          refine ih _ s ?_ ?_
          · intro x hx
            rcases List.mem_append.mp hx with hx | hx
            · exact (hpush x hx).1
            · exact hrest x hx
          · refine measure_step (entryRank_of href hattrs hv)
              (pushes_length_le hperm) ?_ hM
            intro x hx
            have := (hpush x hx).2
            have hq : typeRank NodeTypes.TABLE.value = 2 := by decide
            omega
        · -- column visit
          obtain ⟨r2, hr2, hgnm⟩ := gnm_column hS hk
          have hw : _db_identifier_to_lc_words r2.column_name ≠ [] :=
            hC (e.to_node, r2) (lookupK_mem hr2)
          have hfrom : e.from_node = none ∨
              ∃ fn, e.from_node = some fn ∧
                (lookupK md.tables fn).isSome = true := by
            rcases hprov with ⟨h0, _⟩ | ⟨hq, _⟩ | ⟨_, hq2, _⟩ | ⟨hq3, hf3⟩
            · exact Or.inl h0
            · exact absurd hq href
            · exact (key_two_partitions hS.2.1 hS.2.2.1 (by decide) hq2 hk).elim
            · exact Or.inr hf3
          obtain ⟨next, hnext, hperm⟩ := expandEntries_ok2 g
            [EdgeTypes.REFERENCE] e
            (fun out ho => target_typed hI ho)
            (fun out ho hf hcon => by
              have hedge := hI.2 _ (outEdges_mem ho)
              have hrefe : out.2.edge_type = EdgeTypes.REFERENCE :=
                List.mem_singleton.mp hf
              have hcols := (hedge.1.2.2.2.2 hrefe).1
              have hh := key_head hS.2.2.1 hcols
              rcases hfrom with h0 | ⟨fn, hfn, htabs⟩
              · rw [h0] at hcon
                exact Option.noConfusion hcon
              · rw [hfn] at hcon
                have hout1 : out.1 = fn := Option.some.inj hcon
                have hfh := key_head hS.2.1 htabs
                rw [← hout1] at hfh
                exact heads_clash hh hfh (by decide))
          obtain ⟨s2, hdisp⟩ := dispatch_column s e r2 href hw
          rw [visitLoop_step g md compositeGraphVisitor [] fuel s e rest hattrs
            hv hgnm hdisp hnext]
          have hpush : ∀ x ∈ next, EntryOk md g x ∧ entryRank g x < 1 := by
            intro x hx
            obtain ⟨out, ho, hf, hxe⟩ := mem_pushes (hperm.mem_iff.mp hx)
            have hedge := hI.2 _ (outEdges_mem ho)
            have hrefe : out.2.edge_type = EdgeTypes.REFERENCE :=
              List.mem_singleton.mp hf
            obtain ⟨hcols, row, hrow, hname⟩ := hedge.1.2.2.2.2 hrefe
            have hety : (pushOf e out).edge_type = some out.2.edge_type := rfl
            subst hxe
            refine ⟨⟨hedge.2.2, Or.inr (Or.inl ⟨?_, out.2, rfl, row, hrow,
              hname⟩)⟩, ?_⟩
            · rw [hety, hrefe]
            · have hrk : entryRank g (pushOf e out) = 0 :=
                entryRank_ref (by rw [hety, hrefe])
              rw [hrk]
              decide
          refine ih _ s2 ?_ ?_
          · intro x hx
            rcases List.mem_append.mp hx with hx | hx
            · exact (hpush x hx).1
            · exact hrest x hx
          · refine measure_step (entryRank_of href hattrs hv)
              (pushes_length_le hperm) ?_ hM
            intro x hx
            have := (hpush x hx).2
            have hq : typeRank NodeTypes.COLUMN.value = 1 := by decide
            omega
        · -- pk visit
          obtain ⟨l2, hl2, hgnm⟩ := gnm_pk hS hk
          obtain ⟨next, hnext, hperm⟩ := expandEntries_ok2 g
            (followOfRetval [] e NodeTypes.PK.value none) e
            (fun out ho => target_typed hI ho)
            (fun out ho hf => by
              rw [followOfRetval_none_nil] at hf
              exact absurd hf (List.not_mem_nil _))
          have hdisp := dispatch_pk s e l2 href
          rw [visitLoop_step g md compositeGraphVisitor [] fuel s e rest hattrs
            hv hgnm hdisp hnext]
          refine ih _ _ ?_ ?_
          · intro x hx
            rcases List.mem_append.mp hx with hx | hx
            · obtain ⟨out, _, hf, _⟩ := mem_pushes (hperm.mem_iff.mp hx)
              rw [followOfRetval_none_nil] at hf
              exact absurd hf (List.not_mem_nil _)
            · exact hrest x hx
          · refine measure_step (entryRank_of href hattrs hv)
              (pushes_length_le hperm) ?_ hM
            intro x hx
            obtain ⟨out, _, hf, _⟩ := mem_pushes (hperm.mem_iff.mp hx)
            rw [followOfRetval_none_nil] at hf
            exact absurd hf (List.not_mem_nil _)
        · -- fk visit
          obtain ⟨l2, hl2, hgnm⟩ := gnm_fk hS hk
          obtain ⟨next, hnext, hperm⟩ := expandEntries_ok2 g
            (followOfRetval [] e NodeTypes.FK.value none) e
            (fun out ho => target_typed hI ho)
            (fun out ho hf => by
              rw [followOfRetval_none_nil] at hf
              exact absurd hf (List.not_mem_nil _))
          have hdisp := dispatch_fk s e (NodeMetadata.fkRows l2) href
          rw [visitLoop_step g md compositeGraphVisitor [] fuel s e rest hattrs
            hv hgnm hdisp hnext]
          refine ih _ s ?_ ?_
          · intro x hx
            rcases List.mem_append.mp hx with hx | hx
            · obtain ⟨out, _, hf, _⟩ := mem_pushes (hperm.mem_iff.mp hx)
              rw [followOfRetval_none_nil] at hf
              exact absurd hf (List.not_mem_nil _)
            · exact hrest x hx
          · refine measure_step (entryRank_of href hattrs hv)
              (pushes_length_le hperm) ?_ hM
            intro x hx
            obtain ⟨out, _, hf, _⟩ := mem_pushes (hperm.mem_iff.mp hx)
            rw [followOfRetval_none_nil] at hf
            exact absurd hf (List.not_mem_nil _)

instance (md : DatabaseGraphMetadata) : Decidable (KeysShaped md) :=
  inferInstanceAs (Decidable (
    (∀ p ∈ md.schemas, p.1.data.head? = some 's') ∧
    (∀ p ∈ md.tables, p.1.data.head? = some 't') ∧
    (∀ p ∈ md.columns, p.1.data.head? = some 'c') ∧
    (∀ p ∈ md.pks, p.1.data.head? = some 'p') ∧
    (∀ p ∈ md.fks, p.1.data.head? = some 'f')))

instance (md : DatabaseGraphMetadata) : Decidable (FkEndpointsOk md) :=
  inferInstanceAs (Decidable (∀ p ∈ md.fks, fkEntryOkB md p = true))

instance (md : DatabaseGraphMetadata) : Decidable (ColumnsOk md) :=
  inferInstanceAs (Decidable
    (∀ p ∈ md.columns, _db_identifier_to_lc_words p.2.column_name ≠ []))

def c9TypeRow : MetadataTypeInfoRow :=
  ⟨"INT", 4, none, none, none, none, none, none, none, none, none, none,
   none, none, none, none, none, none⟩

def c9TypeMd : DatabaseGraphMetadata :=
  { schemas := [], tables := [], columns := [], pks := [], fks := [],
    types := [(type_id "INT", c9TypeRow)] }

def c9TypeG : PyDiGraph :=
  match _full_graph_factory c9TypeMd true with
  | .ok g => g
  | .error _ => ⟨[], []⟩

/-- Counterexample to C9: with type nodes included, an unreferenced type node
is a root of in-degree zero, but the node_visit_funs dispatch table of
accept_visitor has no entry for the type kind, so the traversal raises a
KeyError instead of completing: the original claim fails on this store. -/
theorem c9_type_root_raises :
    _full_graph_factory c9TypeMd true = .ok c9TypeG ∧
    rootEntries c9TypeG = [⟨none, type_id "INT", none, none⟩] ∧
    accept_visitor c9TypeG c9TypeMd compositeGraphVisitor [] 5
      (defaultScorers.map (fun k => (k, initialScorerState))) =
      .error "KeyError: node_visit_funs[to_node_type]" :=
  ⟨rfl, rfl, rfl⟩

/-- C9 (amended): accept_visitor starts from the in-degree-zero roots and
dispatches the kind-specific callback at every visited node, but it completes
without error only when no type or index node is reachable: for a graph built
with include_type_nodes disabled from a store with shaped keys, existing
foreign-key endpoints, named foreign keys and splittable column names, the
composite scoring traversal returns a final state (given fuel at least the
root-stack measure); visiting any type node instead raises the
node_visit_funs KeyError exhibited by the companion counterexample. -/
theorem c9_traversal_amended :
    ∀ (md : DatabaseGraphMetadata) (g : PyDiGraph),
      _full_graph_factory md false = .ok g →
      KeysShaped md → FkEndpointsOk md → ColumnsOk md →
      ∀ (fuel : Nat) (s : CompositeState),
        stackMeasure g (rootEntries g).reverse ≤ fuel →
        ∃ s2, accept_visitor g md compositeGraphVisitor [] fuel s = .ok s2 := by
  intro md g hfac hS hFk hC fuel s hM
  have hI := factory_GInv md g hfac hFk
  rw [accept_visitor]
  exact visitLoop_completes md g hI hS hC fuel _ s (rootEntries_EntryOk md g) hM

def c9AMd : DatabaseGraphMetadata :=
  { schemas := [(schema_id "c9" (some "s"), ⟨some "s", "c9"⟩)],
    tables := [(table_id "c9" (some "s") "ta",
      ⟨"c9", some "s", "ta", some "TABLE", none, none, none, none, none, none⟩)],
    columns := [(column_id "c9" (some "s") "ta" "x1",
      ⟨"c9", some "s", "ta", "x1", 4, "INT", none, none, none, none, 1,
       none, none, none, none, none, 1, none, none, none, none, none, none,
       none⟩)],
    pks := [], fks := [], types := [] }

def c9AG : PyDiGraph :=
  match _full_graph_factory c9AMd false with
  | .ok g => g
  | .error _ => ⟨[], []⟩

set_option maxRecDepth 20000 in
/-- Witness for the amended C9 theorem: the one-schema, one-table, one-column
store traverses to completion. -/
theorem c9_traversal_amended_witness :
    ∃ s2, accept_visitor c9AG c9AMd compositeGraphVisitor [] 100
      (defaultScorers.map (fun k => (k, initialScorerState))) = .ok s2 :=
  c9_traversal_amended c9AMd c9AG rfl (by decide) (by decide) (by decide)
    100 _ (by decide)

/-! ## Claim C2 groundwork: characterization of a successful expansion -/

theorem expandStep_ok_inv {g : PyDiGraph} {follow : List EdgeTypes}
    {e : VisitStackEntry} {acc res : List (String × VisitStackEntry)}
    {out : String × EdgeAttrs}
    (h : expandStep g follow e acc out = .ok res) :
    res = acc ++ (pushPair g follow e out).toList ∧
    ∀ pr, pushPair g follow e out = some pr → pr.1 ∈ visitOrderValues := by
  rw [expandStep] at h
  cases hl : lookupK g.nodes out.1 with
  | none =>
    rw [hl] at h
    exact Except.noConfusion h
  | some a =>
    rw [hl] at h
    dsimp only at h
    cases ht : a.node_type with
    | none =>
      rw [ht] at h
      exact Except.noConfusion h
    | some t =>
      rw [ht] at h
      dsimp only at h
      have hpp : pushPair g follow e out =
          (if out.2.edge_type ∈ follow then some (t, pushOf e out) else none) := by
        rw [pushPair, hl]
        dsimp only
        rw [ht]
      by_cases hf : out.2.edge_type ∈ follow
      · rw [if_pos hf] at h
        by_cases hb : some out.1 = e.from_node
        · rw [if_pos hb] at h
          exact Except.noConfusion h
        · rw [if_neg hb] at h
          by_cases hv : t ∈ visitOrderValues
          · rw [if_pos hv] at h
            refine ⟨?_, ?_⟩
            · rw [← Except.ok.inj h, hpp, if_pos hf]
              rfl
            · intro pr hpr
              rw [hpp, if_pos hf] at hpr
              rw [← Option.some.inj hpr]
              exact hv
          · rw [if_neg hv] at h
            exact Except.noConfusion h
      · rw [if_neg hf] at h
        refine ⟨?_, ?_⟩
        · rw [← Except.ok.inj h, hpp, if_neg hf]
          simp
        · intro pr hpr
          rw [hpp, if_neg hf] at hpr
          exact Option.noConfusion hpr

theorem expandFold_inv {g : PyDiGraph} {follow : List EdgeTypes}
    {e : VisitStackEntry} :
    ∀ (outs : List (String × EdgeAttrs))
      (acc res : List (String × VisitStackEntry)),
      outs.foldlM (expandStep g follow e) acc = .ok res →
      res = acc ++ outs.filterMap (pushPair g follow e) ∧
      ∀ pr ∈ outs.filterMap (pushPair g follow e), pr.1 ∈ visitOrderValues := by
  intro outs
  induction outs with
  | nil =>
    intro acc res h
    rw [List.foldlM_nil] at h
    refine ⟨?_, ?_⟩
    · rw [← Except.ok.inj h, List.filterMap_nil, List.append_nil]
    · intro pr hpr
      exact absurd hpr (List.not_mem_nil pr)
  | cons out rest ih =>
    intro acc res h
    rw [List.foldlM_cons] at h
    cases hstep : expandStep g follow e acc out with
    | error err =>
      rw [hstep] at h
      exact Except.noConfusion h
    | ok acc1 =>
      rw [hstep] at h
      have hred : ((Except.ok acc1 :
          Except String (List (String × VisitStackEntry))) >>=
          fun s => rest.foldlM (expandStep g follow e) s) =
          rest.foldlM (expandStep g follow e) acc1 := rfl
      rw [hred] at h
      obtain ⟨hacc1, hvo1⟩ := expandStep_ok_inv hstep
      obtain ⟨hres, hvo2⟩ := ih acc1 res h
      rw [List.filterMap_cons]
      cases hpp : pushPair g follow e out with
      | none =>
        refine ⟨?_, ?_⟩
        · rw [hres, hacc1, hpp]
          simp
        · intro pr hpr
          exact hvo2 pr hpr
      | some pr0 =>
        refine ⟨?_, ?_⟩
        · rw [hres, hacc1, hpp]
          simp [List.append_assoc]
        · intro pr hpr
          rcases List.mem_cons.mp hpr with hpr | hpr
          · exact hpr ▸ hvo1 pr0 hpp
          · exact hvo2 pr hpr

theorem expandEntries_inv {g : PyDiGraph} {follow : List EdgeTypes}
    {e : VisitStackEntry} {next : List VisitStackEntry}
    (h : expandEntries g follow e = .ok next) :
    next = regroupBy visitOrderValues
      ((g.outEdges e.to_node).filterMap (pushPair g follow e)) ∧
    next.Perm (((g.outEdges e.to_node).filterMap
      (pushPair g follow e)).map Prod.snd) := by
  rw [expandEntries] at h
  cases hfold : (g.outEdges e.to_node).foldlM (expandStep g follow e) [] with
  | error err =>
    rw [hfold] at h
    exact Except.noConfusion h
  | ok pairs =>
    rw [hfold] at h
    obtain ⟨hpairs, hvo⟩ := expandFold_inv _ [] pairs hfold
    rw [List.nil_append] at hpairs
    subst hpairs
    have hnext : next = regroupBy visitOrderValues
        ((g.outEdges e.to_node).filterMap (pushPair g follow e)) := by
      have hred : ((Except.ok ((g.outEdges e.to_node).filterMap
          (pushPair g follow e)) :
            Except String (List (String × VisitStackEntry))) >>=
          fun pairs => pure (visitOrderValues.foldr
            (fun t acc => (pairs.filter (fun p => p.1 = t)).map Prod.snd ++ acc)
            [])) =
          (pure (visitOrderValues.foldr
            (fun t acc => (((g.outEdges e.to_node).filterMap
              (pushPair g follow e)).filter (fun p => p.1 = t)).map Prod.snd
                ++ acc) []) :
            Except String (List VisitStackEntry)) := rfl
      rw [hred] at h
      exact (Except.ok.inj h).symm
    refine ⟨hnext, ?_⟩
    rw [hnext]
    exact regroup_perm visitOrderValues (by decide) _ hvo

/-! Objective bookkeeping: per-node totals together with a potential that
cancels the sentinel of every counted disqualification, so that a bounded
number of bounded positive contributions keeps the potential small while
each disqualification drags the raw total 100000 below it. -/

def dqCountL (l : List NodeScore) : Nat :=
  (l.filter (fun sc => sc.score = -100000)).length

def phiOf (l : List NodeScore) : Int :=
  totalOf l + 100000 * (dqCountL l : Int)

theorem totalOf_append (l1 l2 : List NodeScore) :
    totalOf (l1 ++ l2) = totalOf l1 + totalOf l2 := by
  simp [totalOf]

theorem dqCountL_append (l1 l2 : List NodeScore) :
    dqCountL (l1 ++ l2) = dqCountL l1 + dqCountL l2 := by
  simp [dqCountL]

theorem phiOf_append (l1 l2 : List NodeScore) :
    phiOf (l1 ++ l2) = phiOf l1 + phiOf l2 := by
  rw [phiOf, phiOf, phiOf, totalOf_append, dqCountL_append]
  push_cast
  ring

theorem phiOf_all_dq : ∀ (l : List NodeScore),
    (∀ sc ∈ l, sc.score = -100000) → phiOf l = 0 := by
  intro l
  induction l with
  | nil => intro _; rfl
  | cons sc l ih =>
    intro h
    have hsc := h sc (List.mem_cons_self _ _)
    have hl := ih (fun x hx => h x (List.mem_cons_of_mem _ hx))
    have h1 : totalOf (sc :: l) = -100000 + totalOf l := by
      rw [totalOf, List.map_cons, List.sum_cons, hsc, totalOf]
    have h2 : dqCountL (sc :: l) = 1 + dqCountL l := by
      rw [dqCountL, List.filter_cons, if_pos (by simp [hsc]), List.length_cons,
        dqCountL]
      omega
    rw [phiOf] at hl
    rw [phiOf, h1, h2]
    push_cast
    omega

theorem phiOf_single_nonneg (c r : String) (v : Int) (h : 0 ≤ v) :
    phiOf [⟨c, v, r⟩] = v := by
  have hne : ¬ (NodeScore.score ⟨c, v, r⟩ = -100000) := by
    dsimp only
    omega
  rw [phiOf]
  simp [totalOf, dqCountL, hne]

theorem phiOf_filter_all_dq (l : List NodeScore) (n : String)
    (h : ∀ sc ∈ l, sc.score = -100000) :
    phiOf (l.filter (fun sc => sc.node_id = n)) = 0 :=
  phiOf_all_dq _ (fun sc hsc => h sc (List.mem_of_mem_filter hsc))

theorem scoresOf_scoresMapAdd (m : ScoresMap) (s : NodeScore) (n : String) :
    scoresOf (scoresMapAdd m s) n =
      scoresOf m n ++ (if s.node_id = n then [s] else []) := by
  induction m with
  | nil =>
    by_cases h : s.node_id = n <;>
      simp [scoresMapAdd, scoresOf_cons, scoresOf_nil, h]
  | cons p rest ih =>
    obtain ⟨k, l⟩ := p
    rw [scoresMapAdd]
    by_cases hk : k = s.node_id
    · rw [if_pos hk]
      by_cases hn : k = n
      · have hsn : s.node_id = n := hk ▸ hn
        rw [scoresOf_cons, if_pos hn, scoresOf_cons, if_pos hn, if_pos hsn]
      · have hsn : ¬ s.node_id = n := fun hx => hn (hk.trans hx)
        rw [scoresOf_cons, if_neg hn, scoresOf_cons, if_neg hn, if_neg hsn,
          List.append_nil]
    · rw [if_neg hk]
      by_cases hn : k = n
      · have hsn : ¬ s.node_id = n := fun hx => hk ((hx.trans hn.symm).symm)
        rw [scoresOf_cons, if_pos hn, scoresOf_cons, if_pos hn, if_neg hsn,
          List.append_nil]
      · rw [scoresOf_cons, if_neg hn, scoresOf_cons, if_neg hn, ih]

theorem scoresOf_addAll :
    ∀ (L : List NodeScore) (o : NodeScoringObjective) (n : String),
      scoresOf (o.addAll L).node_scores n =
        scoresOf o.node_scores n ++ L.filter (fun sc => sc.node_id = n) := by
  intro L
  induction L with
  | nil =>
    intro o n
    rw [NodeScoringObjective.addAll, List.foldl_nil, List.filter_nil,
      List.append_nil]
  | cons s L ih =>
    intro o n
    rw [NodeScoringObjective.addAll, List.foldl_cons,
      ← NodeScoringObjective.addAll, ih, List.filter_cons]
    have hadd : scoresOf (o.add s).node_scores n =
        scoresOf o.node_scores n ++ (if s.node_id = n then [s] else []) :=
      scoresOf_scoresMapAdd o.node_scores s n
    rw [hadd]
    by_cases hs : s.node_id = n
    · rw [if_pos hs, if_pos (by simp [hs])]
      simp
    · rw [if_neg hs, if_neg (by simp [hs])]
      simp

theorem name_addAll :
    ∀ (L : List NodeScore) (o : NodeScoringObjective),
      (o.addAll L).name = o.name := by
  intro L
  induction L with
  | nil => intro o; rfl
  | cons s L ih =>
    intro o
    rw [NodeScoringObjective.addAll, List.foldl_cons,
      ← NodeScoringObjective.addAll, ih]
    rfl

theorem keys_scoresMapAdd_sub (s : NodeScore) :
    ∀ (m : ScoresMap), ∀ x ∈ (scoresMapAdd m s).map Prod.fst,
      x ∈ m.map Prod.fst ∨ x = s.node_id := by
  intro m
  induction m with
  | nil =>
    intro x hx
    rw [scoresMapAdd] at hx
    simp only [List.map_cons, List.map_nil, List.mem_singleton] at hx
    exact Or.inr hx
  | cons p rest ih =>
    obtain ⟨k, l⟩ := p
    intro x hx
    rw [scoresMapAdd] at hx
    by_cases hk : k = s.node_id
    · rw [if_pos hk, List.map_cons] at hx
      rw [List.map_cons]
      exact Or.inl hx
    · rw [if_neg hk, List.map_cons] at hx
      rcases List.mem_cons.mp hx with hx | hx
      · rw [List.map_cons]
        exact Or.inl (List.mem_cons.mpr (Or.inl hx))
      · rcases ih x hx with h | h
        · rw [List.map_cons]
          exact Or.inl (List.mem_cons.mpr (Or.inr h))
        · exact Or.inr h

theorem nodup_scoresMapAdd (s : NodeScore) :
    ∀ (m : ScoresMap), KeysNodup m → KeysNodup (scoresMapAdd m s) := by
  intro m
  induction m with
  | nil =>
    intro _
    rw [scoresMapAdd]
    exact List.nodup_singleton _
  | cons p rest ih =>
    obtain ⟨k, l⟩ := p
    intro hnd
    rw [KeysNodup, List.map_cons, List.nodup_cons] at hnd
    obtain ⟨hk1, hk2⟩ := hnd
    rw [scoresMapAdd]
    by_cases hk : k = s.node_id
    · rw [if_pos hk]
      rw [KeysNodup, List.map_cons, List.nodup_cons]
      exact ⟨hk1, hk2⟩
    · rw [if_neg hk]
      rw [KeysNodup, List.map_cons, List.nodup_cons]
      refine ⟨?_, ih hk2⟩
      intro hmem
      rcases keys_scoresMapAdd_sub s rest k hmem with h | h
      · exact hk1 h
      · exact hk h

theorem nodup_addAll :
    ∀ (L : List NodeScore) (o : NodeScoringObjective),
      KeysNodup o.node_scores → KeysNodup (o.addAll L).node_scores := by
  intro L
  induction L with
  | nil => intro o h; exact h
  | cons s L ih =>
    intro o h
    rw [NodeScoringObjective.addAll, List.foldl_cons,
      ← NodeScoringObjective.addAll]
    exact ih _ (nodup_scoresMapAdd s _ h)

def nodePhi (o : NodeScoringObjective) (n : String) : Int :=
  phiOf (scoresOf o.node_scores n)

theorem nodePhi_addAll (o : NodeScoringObjective) (L : List NodeScore)
    (n : String) :
    nodePhi (o.addAll L) n =
      nodePhi o n + phiOf (L.filter (fun sc => sc.node_id = n)) := by
  rw [nodePhi, scoresOf_addAll, phiOf_append, nodePhi]

theorem filter_nodeid_all {L : List NodeScore} {c : String}
    (h : ∀ sc ∈ L, sc.node_id = c) (n : String) :
    L.filter (fun sc => sc.node_id = n) = if c = n then L else [] := by
  induction L with
  | nil => by_cases hc : c = n <;> simp [hc]
  | cons sc L ih =>
    have hsc := h sc (List.mem_cons_self _ _)
    have hL := ih (fun x hx => h x (List.mem_cons_of_mem _ hx))
    by_cases hc : c = n
    · rw [List.filter_cons, if_pos (by simp [hsc, hc]), hL, if_pos hc,
        if_pos hc]
    · rw [List.filter_cons, if_neg (by simp [hsc, hc]), hL, if_neg hc,
        if_neg hc]

theorem sumVals_nonneg :
    ∀ (l : List (String × Int)), (∀ q ∈ l, 0 ≤ q.2) → 0 ≤ sumVals l := by
  intro l
  induction l with
  | nil => intro _; exact Int.le_refl 0
  | cons q l ih =>
    intro h
    rw [sumVals, List.map_cons, List.sum_cons]
    have h1 := h q (List.mem_cons_self _ _)
    have h2 := ih (fun x hx => h x (List.mem_cons_of_mem _ hx))
    rw [sumVals] at h2
    omega

theorem sumVals_sublist_le :
    ∀ {l1 l2 : List (String × Int)}, List.Sublist l1 l2 →
      (∀ q ∈ l2, 0 ≤ q.2) → sumVals l1 ≤ sumVals l2 := by
  intro l1 l2 hs
  induction hs with
  | slnil => intro _; exact Int.le_refl 0
  | cons q hsub ih =>
    intro h
    have h1 := h q (List.mem_cons_self _ _)
    have h2 := ih (fun x hx => h x (List.mem_cons_of_mem _ hx))
    have h3 : ∀ l : List (String × Int),
        sumVals (q :: l) = q.2 + sumVals l := by
      intro l
      rw [sumVals, List.map_cons, List.sum_cons, sumVals]
    rw [h3]
    omega
  | cons₂ q hsub ih =>
    intro h
    have h2 := ih (fun x hx => h x (List.mem_cons_of_mem _ hx))
    have h3 : ∀ l : List (String × Int),
        sumVals (q :: l) = q.2 + sumVals l := by
      intro l
      rw [sumVals, List.map_cons, List.sum_cons, sumVals]
    rw [h3, h3]
    omega

theorem sumVals_perm_eq {l1 l2 : List (String × Int)} (h : l1.Perm l2) :
    sumVals l1 = sumVals l2 := by
  rw [sumVals, sumVals]
  exact (h.map (fun p => p.2)).sum_eq

theorem sumVals_subperm_le {l1 l2 : List (String × Int)}
    (h : List.Subperm l1 l2) (hpos : ∀ q ∈ l2, 0 ≤ q.2) :
    sumVals l1 ≤ sumVals l2 := by
  obtain ⟨l3, hp, hs⟩ := h
  rw [← sumVals_perm_eq hp]
  exact sumVals_sublist_le hs hpos

theorem sumVals_filter_le (l : List (String × Int))
    (p : String × Int → Bool) (hpos : ∀ q ∈ l, 0 ≤ q.2) :
    sumVals (l.filter p) ≤ sumVals l :=
  sumVals_sublist_le (List.filter_sublist l) hpos

theorem eraseDupsLoop_nodup :
    ∀ (as bs : List String), bs.Nodup → (List.eraseDups.loop as bs).Nodup := by
  intro as
  induction as with
  | nil =>
    intro bs h
    rw [List.eraseDups.loop]
    exact List.nodup_reverse.mpr h
  | cons a as ih =>
    intro bs h
    rw [List.eraseDups.loop]
    cases he : bs.elem a with
    | true =>
      simp only [he]
      exact ih bs h
    | false =>
      simp only [he]
      refine ih (a :: bs) (List.nodup_cons.mpr ⟨?_, h⟩)
      intro hmem
      have h2 : bs.elem a = true := List.elem_iff.mpr hmem
      rw [he] at h2
      exact Bool.noConfusion h2

theorem eraseDupsLoop_mem :
    ∀ (as bs : List String) (x : String),
      x ∈ List.eraseDups.loop as bs → x ∈ as ∨ x ∈ bs := by
  intro as
  induction as with
  | nil =>
    intro bs x h
    rw [List.eraseDups.loop] at h
    exact Or.inr (List.mem_reverse.mp h)
  | cons a as ih =>
    intro bs x h
    rw [List.eraseDups.loop] at h
    cases he : bs.elem a with
    | true =>
      simp only [he] at h
      rcases ih bs x h with h | h
      · exact Or.inl (List.mem_cons_of_mem _ h)
      · exact Or.inr h
    | false =>
      simp only [he] at h
      rcases ih (a :: bs) x h with h | h
      · exact Or.inl (List.mem_cons_of_mem _ h)
      · rcases List.mem_cons.mp h with h | h
        · exact Or.inl (h ▸ List.mem_cons_self _ _)
        · exact Or.inr h

theorem nodup_eraseDupsStr (l : List String) : l.eraseDups.Nodup := by
  rw [List.eraseDups]
  exact eraseDupsLoop_nodup l [] List.nodup_nil

theorem mem_eraseDupsStr {l : List String} {x : String}
    (h : x ∈ l.eraseDups) : x ∈ l := by
  rw [List.eraseDups] at h
  rcases eraseDupsLoop_mem l [] x h with h | h
  · exact h
  · exact absurd h (List.not_mem_nil x)

theorem strong_keys (d : KeywordScoringDictionary) (ws : List String) :
    (d.get_strongly_matching_keywords ws).map Prod.fst =
      (ws.filter (fun w => (lookupK d.fact_scores w).isSome)).eraseDups := by
  rw [KeywordScoringDictionary.get_strongly_matching_keywords]
  have hall : ∀ w ∈ (ws.filter
      (fun w => (lookupK d.fact_scores w).isSome)).eraseDups,
      (lookupK d.fact_scores w).isSome = true :=
    fun w hw => (List.mem_filter.mp (mem_eraseDupsStr hw)).2
  revert hall
  generalize (ws.filter (fun w => (lookupK d.fact_scores w).isSome)).eraseDups = L
  intro hall
  induction L with
  | nil => rfl
  | cons w L ih =>
    obtain ⟨v, hv⟩ :=
      Option.isSome_iff_exists.mp (hall w (List.mem_cons_self _ _))
    have hx : Option.map (fun v => (w, v)) (lookupK d.fact_scores w) =
        some (w, v) := by
      rw [hv]
      rfl
    rw [List.filterMap_cons, hx]
    dsimp only
    rw [List.map_cons, ih (fun x hx2 => hall x (List.mem_cons_of_mem _ hx2))]

theorem strong_mem (d : KeywordScoringDictionary) (ws : List String)
    {pr : String × Int} (h : pr ∈ d.get_strongly_matching_keywords ws) :
    pr ∈ d.fact_scores := by
  rw [KeywordScoringDictionary.get_strongly_matching_keywords] at h
  rcases List.mem_filterMap.mp h with ⟨w, _, hw⟩
  cases hv : lookupK d.fact_scores w with
  | none =>
    rw [hv] at hw
    exact Option.noConfusion hw
  | some v =>
    rw [hv] at hw
    dsimp only [Option.map] at hw
    rw [← Option.some.inj hw]
    exact lookupK_mem hv

theorem strong_nodup (d : KeywordScoringDictionary) (ws : List String) :
    (d.get_strongly_matching_keywords ws).Nodup := by
  have h := nodup_eraseDupsStr
    (ws.filter (fun w => (lookupK d.fact_scores w).isSome))
  rw [← strong_keys] at h
  exact h.of_map Prod.fst

theorem strong_sum_bounds (ws : List String) :
    0 ≤ sumVals (_DEFAULT_KEYWORD_SCORING.get_strongly_matching_keywords ws) ∧
    sumVals (_DEFAULT_KEYWORD_SCORING.get_strongly_matching_keywords ws) ≤
      2100 := by
  have hpos : ∀ q ∈ _DEFAULT_KEYWORD_SCORING.fact_scores, 0 ≤ q.2 := by decide
  have hsub : ∀ pr ∈ _DEFAULT_KEYWORD_SCORING.get_strongly_matching_keywords ws,
      pr ∈ _DEFAULT_KEYWORD_SCORING.fact_scores :=
    fun pr hpr => strong_mem _ ws hpr
  constructor
  · exact sumVals_nonneg _ (fun q hq => hpos q (hsub q hq))
  · have hle := sumVals_subperm_le ((strong_nodup _ ws).subperm hsub) hpos
    have hv : sumVals _DEFAULT_KEYWORD_SCORING.fact_scores = 2100 := by decide
    omega

theorem weak_sum_bounds (ws : List String) :
    0 ≤ sumVals (_DEFAULT_KEYWORD_SCORING.get_weakly_matching_keywords ws) ∧
    sumVals (_DEFAULT_KEYWORD_SCORING.get_weakly_matching_keywords ws) ≤
      2100 := by
  have hpos : ∀ q ∈ _DEFAULT_KEYWORD_SCORING.fact_scores, 0 ≤ q.2 := by decide
  rw [KeywordScoringDictionary.get_weakly_matching_keywords]
  constructor
  · exact sumVals_nonneg _ (fun q hq => hpos q (List.mem_of_mem_filter hq))
  · have hle := sumVals_filter_le _DEFAULT_KEYWORD_SCORING.fact_scores
      (fun p => (ws.any (fun w => substrOf p.1 w))) hpos
    have hv : sumVals _DEFAULT_KEYWORD_SCORING.fact_scores = 2100 := by decide
    omega

theorem phiOf_nil : phiOf ([] : List NodeScore) = 0 := rfl

theorem kwSingle_bound (c w : String) :
    (∀ sc ∈ kwSinglewordScores _DEFAULT_KEYWORD_SCORING c w, sc.node_id = c) ∧
    phiOf (kwSinglewordScores _DEFAULT_KEYWORD_SCORING c w) ≤ 2100 := by
  rw [kwSinglewordScores]
  split
  · refine ⟨?_, ?_⟩
    · intro sc hsc
      rw [List.mem_singleton] at hsc
      rw [hsc]
      rfl
    · rw [phiOf_all_dq _ (fun sc hsc => by
        rw [List.mem_singleton] at hsc
        rw [hsc]
        rfl)]
      omega
  · dsimp only
    split
    · obtain ⟨h0, h1⟩ := strong_sum_bounds [w]
      refine ⟨?_, ?_⟩
      · intro sc hsc
        rw [List.mem_singleton] at hsc
        rw [hsc]
      · rw [phiOf_single_nonneg _ _ _ h0]
        exact h1
    · split
      · obtain ⟨h0, h1⟩ := weak_sum_bounds [w]
        refine ⟨?_, ?_⟩
        · intro sc hsc
          rw [List.mem_singleton] at hsc
          rw [hsc]
        · rw [phiOf_single_nonneg _ _ _ h0]
          exact h1
      · split
        · refine ⟨?_, ?_⟩
          · intro sc hsc
            rw [List.mem_singleton] at hsc
            rw [hsc]
          · rw [phiOf_single_nonneg _ _ _ (by omega : (0:Int) ≤ 100)]
            omega
        · refine ⟨?_, ?_⟩
          · intro sc hsc
            exact absurd hsc (List.not_mem_nil sc)
          · rw [phiOf_nil]
            omega

theorem kwMultiDq_dq (c : String) (ws : List String) :
    ∀ sc ∈ kwMultiDqPart _DEFAULT_KEYWORD_SCORING c ws,
      sc.score = -100000 ∧ sc.node_id = c := by
  intro sc hsc
  rw [kwMultiDqPart] at hsc
  split at hsc
  · exact absurd hsc (List.not_mem_nil sc)
  · rw [List.mem_singleton] at hsc
    rw [hsc]
    exact ⟨rfl, rfl⟩

theorem kwMulti_bound (c : String) (ws : List String) :
    (∀ sc ∈ kwMultiwordScores _DEFAULT_KEYWORD_SCORING c ws, sc.node_id = c) ∧
    phiOf (kwMultiwordScores _DEFAULT_KEYWORD_SCORING c ws) ≤ 2100 := by
  rw [kwMultiwordScores]
  have hdq : phiOf (kwMultiDqPart _DEFAULT_KEYWORD_SCORING c ws) = 0 :=
    phiOf_all_dq _ (fun sc hsc => (kwMultiDq_dq c ws sc hsc).1)
  refine ⟨?_, ?_⟩
  · intro sc hsc
    rcases List.mem_append.mp hsc with hsc | hsc
    · exact (kwMultiDq_dq c ws sc hsc).2
    · rw [kwMultiMatchPart] at hsc
      split at hsc
      · rw [List.mem_singleton] at hsc
        rw [hsc]
      · exact absurd hsc (List.not_mem_nil sc)
  · rw [phiOf_append, hdq, kwMultiMatchPart]
    split
    · obtain ⟨h0, h1⟩ := strong_sum_bounds ws
      rw [phiOf_single_nonneg _ _ _ h0]
      omega
    · rw [phiOf_nil]
      omega

theorem kwVisit_bound (c nm : String) {l : List NodeScore}
    (h : kwVisitColumnScores _DEFAULT_KEYWORD_SCORING c nm = .ok l) :
    (∀ sc ∈ l, sc.node_id = c) ∧ phiOf l ≤ 2100 := by
  rw [kwVisitColumnScores] at h
  cases hw : _db_identifier_to_lc_words nm with
  | nil =>
    rw [hw] at h
    exact Except.noConfusion h
  | cons w ws =>
    rw [hw] at h
    cases ws with
    | nil =>
      rw [← Except.ok.inj h]
      exact kwSingle_bound c w
    | cons w2 ws2 =>
      rw [← Except.ok.inj h]
      exact kwMulti_bound c (w :: w2 :: ws2)

theorem typeFact_bound (c : String) (row : MetadataColumnRow) :
    (∀ sc ∈ typeFactScores _DEFAULT_TYPE_SCORING c row, sc.node_id = c) ∧
    phiOf (typeFactScores _DEFAULT_TYPE_SCORING c row) ≤ 200 := by
  rw [typeFactScores]
  split
  · refine ⟨?_, ?_⟩
    · intro sc hsc
      rw [List.mem_singleton] at hsc
      rw [hsc]
      rfl
    · rw [phiOf_all_dq _ (fun sc hsc => by
        rw [List.mem_singleton] at hsc
        rw [hsc]
        rfl)]
      omega
  · cases hv : _DEFAULT_TYPE_SCORING.get_fact_score row.type_name with
    | some v =>
      dsimp only
      have hvmem : (row.type_name, v) ∈ _DEFAULT_TYPE_SCORING.fact_scores :=
        lookupK_mem hv
      have hvb : 0 ≤ v ∧ v ≤ 200 := by
        have hall : ∀ q ∈ _DEFAULT_TYPE_SCORING.fact_scores,
            0 ≤ q.2 ∧ q.2 ≤ 200 := by decide
        exact hall _ hvmem
      refine ⟨?_, ?_⟩
      · intro sc hsc
        rw [List.mem_singleton] at hsc
        rw [hsc]
      · rw [phiOf_single_nonneg _ _ _ hvb.1]
        omega
    | none =>
      dsimp only
      refine ⟨?_, ?_⟩
      · intro sc hsc
        exact absurd hsc (List.not_mem_nil sc)
      · rw [phiOf_nil]
        omega

theorem keyDqPk_dq (pkid : String) (rows : List MetadataPrimaryKeyRow) :
    ∀ sc ∈ keyDqPkScores pkid rows, sc.score = -100000 := by
  intro sc hsc
  rcases List.mem_map.mp hsc with ⟨row, _, hrow⟩
  rw [← hrow]
  rfl

theorem keyDqRef_dq {c f : String} {nm : Option String} {l : List NodeScore}
    (h : keyDqReferenceScores c f nm = .ok l) :
    ∀ sc ∈ l, sc.score = -100000 := by
  cases nm with
  | none => exact Except.noConfusion h
  | some x =>
    intro sc hsc
    rw [← Except.ok.inj h] at hsc
    rcases List.mem_cons.mp hsc with h1 | h1
    · rw [h1]
      rfl
    · rw [List.mem_singleton] at h1
      rw [h1]
      rfl

/-! Counting edges by kind, source and target.  The builder creates at most
one schema-table edge into any table and at most one table-column edge into
any column; these counts drive the bound on how often the scoring traversal
can visit a column node. -/

def EdgeKeysNodup (g : PyDiGraph) : Prop := (g.edges.map Prod.fst).Nodup

def NodesNodup (g : PyDiGraph) : Prop := (g.nodes.map Prod.fst).Nodup

def inCount (T : EdgeTypes) (g : PyDiGraph) (n : String) : Nat :=
  (g.edges.filter
    (fun e => decide (e.2.edge_type = T) && decide (e.1.2 = n))).length

def srcTCount (T : EdgeTypes) (g : PyDiGraph) (u n : String) : Nat :=
  (g.edges.filter (fun e => decide (e.1.1 = u) &&
    (decide (e.2.edge_type = T) && decide (e.1.2 = n)))).length

def InEdged {β : Type} (m : List (String × β)) (g : PyDiGraph) : Prop :=
  ∀ k, (lookupK m k).isSome = true → 0 < g.inDegree k

theorem lookupP_isSome_mem {β : Type} {m : List ((String × String) × β)}
    {k : String × String} (h : (lookupP m k).isSome = true) :
    ∃ v, lookupP m k = some v ∧ (k, v) ∈ m := by
  induction m with
  | nil =>
    rw [lookupP] at h
    exact Bool.noConfusion h
  | cons p rest ih =>
    obtain ⟨k2, v2⟩ := p
    rw [lookupP] at h ⊢
    by_cases hk : k2 = k
    · rw [if_pos hk]
      exact ⟨v2, rfl, by rw [hk]; exact List.mem_cons_self _ _⟩
    · rw [if_neg hk] at h ⊢
      obtain ⟨v, hv, hm⟩ := ih h
      exact ⟨v, hv, List.mem_cons_of_mem _ hm⟩

theorem lookupP_none_not_mem {β : Type} {m : List ((String × String) × β)}
    {k : String × String} (h : lookupP m k = none) : k ∉ m.map Prod.fst := by
  induction m with
  | nil => exact List.not_mem_nil k
  | cons p rest ih =>
    obtain ⟨k2, v2⟩ := p
    rw [lookupP] at h
    by_cases hk : k2 = k
    · rw [if_pos hk] at h
      exact Option.noConfusion h
    · rw [if_neg hk] at h
      rw [List.map_cons, List.mem_cons]
      rintro (hx | hx)
      · exact hk hx.symm
      · exact ih h hx

theorem nodup_snoc {α : Type} {l : List α} {x : α} (h1 : l.Nodup)
    (h2 : x ∉ l) : (l ++ [x]).Nodup := by
  rw [List.nodup_append]
  exact ⟨h1, List.nodup_singleton x,
    fun a ha hb => h2 ((List.mem_singleton.mp hb) ▸ ha)⟩

theorem addEdge_edges_eq (g : PyDiGraph) (u v : String) (a : EdgeAttrs) :
    (g.addEdge u v a).edges =
      if (lookupP g.edges (u, v)).isSome then
        g.edges.map (fun e => if e.1 = (u, v) then ((u, v), a) else e)
      else g.edges ++ [((u, v), a)] := by
  have h2 : ((g.ensureNode u).ensureNode v).edges = g.edges := by
    rw [ensureNode_edges, ensureNode_edges]
  rw [PyDiGraph.addEdge]
  show (if (lookupP ((g.ensureNode u).ensureNode v).edges (u, v)).isSome then
      { (g.ensureNode u).ensureNode v with
        edges := ((g.ensureNode u).ensureNode v).edges.map
          (fun e : (String × String) × EdgeAttrs =>
            if e.1 = (u, v) then ((u, v), a) else e) }
    else
      { (g.ensureNode u).ensureNode v with
        edges := ((g.ensureNode u).ensureNode v).edges ++ [((u, v), a)] }).edges
    = _
  rw [h2]
  split <;> rfl

/-! Generic filter-length lemmas for the two edge-insertion shapes. -/

theorem filter_map_replace_le {β : Type}
    (k0 : String × String) (x : (String × String) × β)
    (p : (String × String) × β → Bool) (hx : p x = false) :
    ∀ (es : List ((String × String) × β)),
      ((es.map (fun e => if e.1 = k0 then x else e)).filter p).length ≤
        (es.filter p).length := by
  intro es
  induction es with
  | nil => exact Nat.le_refl 0
  | cons e es ih =>
    rw [List.map_cons, List.filter_cons, List.filter_cons]
    by_cases he : e.1 = k0
    · rw [if_pos he, if_neg (by rw [hx]; decide)]
      by_cases hp : p e = true
      · rw [if_pos hp, List.length_cons]
        omega
      · rw [if_neg hp]
        exact ih
    · rw [if_neg he]
      by_cases hp : p e = true
      · rw [if_pos hp, if_pos hp, List.length_cons, List.length_cons]
        omega
      · rw [if_neg hp, if_neg hp]
        exact ih

theorem filter_map_replace_eq {β : Type}
    (k0 : String × String) (x : (String × String) × β)
    (p : (String × String) × β → Bool) (hx : p x = false) :
    ∀ (es : List ((String × String) × β)),
      (∀ e ∈ es, e.1 = k0 → p e = false) →
      ((es.map (fun e => if e.1 = k0 then x else e)).filter p).length =
        (es.filter p).length := by
  intro es
  induction es with
  | nil => intro _; rfl
  | cons e es ih =>
    intro hold
    rw [List.map_cons, List.filter_cons, List.filter_cons]
    have ihr := ih (fun e2 he2 => hold e2 (List.mem_cons_of_mem _ he2))
    by_cases he : e.1 = k0
    · rw [if_pos he, if_neg (by rw [hx]; decide),
        if_neg (by rw [hold e (List.mem_cons_self _ _) he]; decide)]
      exact ihr
    · rw [if_neg he]
      by_cases hp : p e = true
      · rw [if_pos hp, if_pos hp, List.length_cons, List.length_cons]
        omega
      · rw [if_neg hp, if_neg hp]
        exact ihr

theorem filter_map_replace_add {β : Type}
    (k0 : String × String) (x : (String × String) × β)
    (p : (String × String) × β → Bool) :
    ∀ (es : List ((String × String) × β)), (es.map Prod.fst).Nodup →
      ((es.map (fun e => if e.1 = k0 then x else e)).filter p).length ≤
        (es.filter p).length + 1 := by
  intro es
  induction es with
  | nil =>
    intro _
    exact Nat.le_succ 0
  | cons e es ih =>
    intro hnd
    rw [List.map_cons, List.nodup_cons] at hnd
    rw [List.map_cons, List.filter_cons, List.filter_cons]
    by_cases he : e.1 = k0
    · rw [if_pos he]
      have hrest : es.map (fun e => if e.1 = k0 then x else e) = es := by
        have h1 : es.map (fun e => if e.1 = k0 then x else e) = es.map id := by
          refine List.map_congr_left ?_
          intro e2 he2
          rw [if_neg ?_]
          · rfl
          · intro hc
            rw [← he] at hc
            exact hnd.1 (hc ▸ List.mem_map_of_mem Prod.fst he2)
        rw [h1, List.map_id]
      rw [hrest]
      by_cases hpx : p x = true
      · rw [if_pos hpx]
        by_cases hp : p e = true
        · rw [if_pos hp, List.length_cons, List.length_cons]
          omega
        · rw [if_neg hp, List.length_cons]
      · rw [if_neg hpx]
        by_cases hp : p e = true
        · rw [if_pos hp, List.length_cons]
          omega
        · rw [if_neg hp]
          omega
    · rw [if_neg he]
      have := ih hnd.2
      by_cases hp : p e = true
      · rw [if_pos hp, if_pos hp, List.length_cons, List.length_cons]
        omega
      · rw [if_neg hp, if_neg hp]
        exact this

theorem filter_map_pointwise {β : Type} {h : β → β} {p : β → Bool}
    (hp : ∀ e, p (h e) = p e) :
    ∀ (es : List β), ((es.map h).filter p).length = (es.filter p).length := by
  intro es
  induction es with
  | nil => rfl
  | cons e es ih =>
    rw [List.map_cons, List.filter_cons, List.filter_cons, hp e]
    by_cases hpe : p e = true
    · rw [if_pos hpe, if_pos hpe, List.length_cons, List.length_cons, ih]
    · rw [if_neg hpe, if_neg hpe]
      exact ih

/-! The three addEdge count facts: a filtered edge count cannot grow when the
inserted attributes fail the filter, stays exact when additionally no edge
keyed (u, v) could have passed it, and grows by at most one in any case when
the edge keys are duplicate-free. -/

theorem addEdge_filter_le (g : PyDiGraph) (u v : String) (a : EdgeAttrs)
    (p : (String × String) × EdgeAttrs → Bool) (hx : p ((u, v), a) = false) :
    ((g.addEdge u v a).edges.filter p).length ≤ (g.edges.filter p).length := by
  rw [addEdge_edges_eq]
  split
  · exact filter_map_replace_le (u, v) ((u, v), a) p hx g.edges
  · rw [List.filter_append]
    have h1 : List.filter p [((u, v), a)] = [] := by
      rw [List.filter_cons, hx]
      simp
    rw [h1, List.append_nil]

theorem addEdge_filter_eq (g : PyDiGraph) (u v : String) (a : EdgeAttrs)
    (p : (String × String) × EdgeAttrs → Bool) (hx : p ((u, v), a) = false)
    (hold : ∀ e ∈ g.edges, e.1 = (u, v) → p e = false) :
    ((g.addEdge u v a).edges.filter p).length = (g.edges.filter p).length := by
  rw [addEdge_edges_eq]
  split
  · exact filter_map_replace_eq (u, v) ((u, v), a) p hx g.edges hold
  · rw [List.filter_append]
    have h1 : List.filter p [((u, v), a)] = [] := by
      rw [List.filter_cons, hx]
      simp
    rw [h1, List.append_nil]

theorem addEdge_filter_add (g : PyDiGraph) (u v : String) (a : EdgeAttrs)
    (p : (String × String) × EdgeAttrs → Bool) (hk : EdgeKeysNodup g) :
    ((g.addEdge u v a).edges.filter p).length ≤
      (g.edges.filter p).length + 1 := by
  rw [addEdge_edges_eq]
  split
  · exact filter_map_replace_add (u, v) ((u, v), a) p g.edges hk
  · rw [List.filter_append, List.length_append]
    have h1 : (List.filter p [((u, v), a)]).length ≤ 1 := by
      rw [List.filter_cons]
      by_cases hpx : p ((u, v), a) = true
      · rw [hpx]
        simp
      · rw [Bool.not_eq_true] at hpx
        rw [hpx]
        simp
    omega

/-! Key-list preservation: node keys and edge keys stay duplicate-free. -/

theorem NodesNodup_addNode {g : PyDiGraph} (h : NodesNodup g) (n : String)
    (a : NodeAttrs) : NodesNodup (g.addNode n a) := by
  rw [NodesNodup, PyDiGraph.addNode]
  split
  · have hkeys : (g.nodes.map (fun p => if p.1 = n then (n, a) else p)).map
        Prod.fst = g.nodes.map Prod.fst := by
      rw [List.map_map]
      refine List.map_congr_left ?_
      intro p _
      by_cases hp : p.1 = n
      · simp [hp]
      · simp [hp]
    rw [hkeys]
    exact h
  · rename_i hno
    rw [List.map_append]
    refine nodup_snoc h ?_
    intro hmem
    rcases List.mem_map.mp hmem with ⟨q, hq, hqn⟩
    have hqn2 : q.1 = n := hqn
    have hq2 : (n, q.2) ∈ g.nodes := by
      rw [← hqn2]
      exact hq
    exact hno (mem_lookupK_isSome hq2)

theorem NodesNodup_ensureNode {g : PyDiGraph} (h : NodesNodup g) (n : String) :
    NodesNodup (g.ensureNode n) := by
  rw [NodesNodup, PyDiGraph.ensureNode]
  split
  · exact h
  · rename_i hno
    rw [List.map_append]
    refine nodup_snoc h ?_
    intro hmem
    rcases List.mem_map.mp hmem with ⟨q, hq, hqn⟩
    have hqn2 : q.1 = n := hqn
    have hq2 : (n, q.2) ∈ g.nodes := by
      rw [← hqn2]
      exact hq
    exact hno (mem_lookupK_isSome hq2)

theorem NodesNodup_addEdge {g : PyDiGraph} (h : NodesNodup g) (u v : String)
    (a : EdgeAttrs) : NodesNodup (g.addEdge u v a) := by
  have h2 : NodesNodup ((g.ensureNode u).ensureNode v) :=
    NodesNodup_ensureNode (NodesNodup_ensureNode h u) v
  rw [NodesNodup, PyDiGraph.addEdge]
  show ((if (lookupP ((g.ensureNode u).ensureNode v).edges (u, v)).isSome then
      { (g.ensureNode u).ensureNode v with
        edges := ((g.ensureNode u).ensureNode v).edges.map
          (fun e : (String × String) × EdgeAttrs =>
            if e.1 = (u, v) then ((u, v), a) else e) }
    else
      { (g.ensureNode u).ensureNode v with
        edges := ((g.ensureNode u).ensureNode v).edges ++
          [((u, v), a)] }).nodes.map Prod.fst).Nodup
  split <;> exact h2

theorem EdgeKeysNodup_addNode {g : PyDiGraph} (h : EdgeKeysNodup g) (n : String)
    (a : NodeAttrs) : EdgeKeysNodup (g.addNode n a) := by
  rw [EdgeKeysNodup, addNode_edges]
  exact h

theorem EdgeKeysNodup_addEdge {g : PyDiGraph} (h : EdgeKeysNodup g)
    (u v : String) (a : EdgeAttrs) : EdgeKeysNodup (g.addEdge u v a) := by
  rw [EdgeKeysNodup, addEdge_edges_eq]
  split
  · have hkeys : (g.edges.map (fun e => if e.1 = (u, v) then ((u, v), a)
        else e)).map Prod.fst = g.edges.map Prod.fst := by
      rw [List.map_map]
      refine List.map_congr_left ?_
      intro e _
      by_cases hp : e.1 = (u, v)
      · simp [hp]
      · simp [hp]
    rw [hkeys]
    exact h
  · rename_i hno
    rw [List.map_append]
    refine nodup_snoc h ?_
    refine lookupP_none_not_mem ?_
    cases hlp : lookupP g.edges (u, v) with
    | none => rfl
    | some w =>
      rw [hlp] at hno
      exact absurd rfl hno

/-! In-degree: unchanged by node insertion, monotone under edge insertion,
and positive at the target of the inserted edge. -/

theorem inDegree_addNode (g : PyDiGraph) (n : String) (a : NodeAttrs)
    (k : String) : (g.addNode n a).inDegree k = g.inDegree k := by
  rw [PyDiGraph.inDegree, PyDiGraph.inDegree, addNode_edges]

theorem inDegree_addEdge_le (g : PyDiGraph) (u v : String) (a : EdgeAttrs)
    (k : String) : g.inDegree k ≤ (g.addEdge u v a).inDegree k := by
  rw [PyDiGraph.inDegree, PyDiGraph.inDegree, addEdge_edges_eq]
  split
  · have hpt : ∀ e : (String × String) × EdgeAttrs,
        (decide ((if e.1 = (u, v) then ((u, v), a) else e).1.2 = k)) =
          (decide (e.1.2 = k)) := by
      intro e
      by_cases hp : e.1 = (u, v)
      · rw [if_pos hp]
        have : e.1.2 = v := by rw [hp]
        rw [show ((u, v), a).1.2 = v from rfl, this]
      · rw [if_neg hp]
    rw [filter_map_pointwise hpt g.edges]
  · rw [List.filter_append, List.length_append]
    omega

theorem inDegree_addEdge_self (g : PyDiGraph) (u : String) (v : String)
    (a : EdgeAttrs) : 0 < (g.addEdge u v a).inDegree v := by
  rw [PyDiGraph.inDegree, addEdge_edges_eq]
  split
  · rename_i hs
    obtain ⟨w, _, hm⟩ := lookupP_isSome_mem hs
    have hmem : ((u, v), a) ∈ g.edges.map
        (fun e => if e.1 = (u, v) then ((u, v), a) else e) := by
      have h4 := List.mem_map_of_mem
        (fun e : (String × String) × EdgeAttrs =>
          if e.1 = (u, v) then ((u, v), a) else e) hm
      have h3 : (fun e : (String × String) × EdgeAttrs =>
          if e.1 = (u, v) then ((u, v), a) else e) ((u, v), w) =
          ((u, v), a) := by
        dsimp only
        rw [if_pos rfl]
      rw [h3] at h4
      exact h4
    have hf : ((u, v), a) ∈ (g.edges.map
        (fun e => if e.1 = (u, v) then ((u, v), a) else e)).filter
        (fun e => decide (e.1.2 = v)) :=
      List.mem_filter.mpr ⟨hmem, by simp⟩
    exact List.length_pos.mpr (List.ne_nil_of_mem hf)
  · have hf : ((u, v), a) ∈ (g.edges ++ [((u, v), a)]).filter
        (fun e => decide (e.1.2 = v)) :=
      List.mem_filter.mpr ⟨List.mem_append.mpr (Or.inr (List.mem_singleton.mpr
        rfl)), by simp⟩
    exact List.length_pos.mpr (List.ne_nil_of_mem hf)

theorem InEdged_addNode {β : Type} {m : List (String × β)} {g : PyDiGraph}
    (h : InEdged m g) (n : String) (a : NodeAttrs) :
    InEdged m (g.addNode n a) := by
  intro k hk
  rw [inDegree_addNode]
  exact h k hk

theorem InEdged_addEdge {β : Type} {m : List (String × β)} {g : PyDiGraph}
    (h : InEdged m g) (u v : String) (a : EdgeAttrs) :
    InEdged m (g.addEdge u v a) :=
  fun k hk => Nat.lt_of_lt_of_le (h k hk) (inDegree_addEdge_le g u v a k)

/-! Typed in-edge counts across the three edge insertion shapes. -/

theorem inCount_addNode_eq (T : EdgeTypes) (g : PyDiGraph) (m : String)
    (a0 : NodeAttrs) (n : String) :
    inCount T (g.addNode m a0) n = inCount T g n := by
  rw [inCount, inCount, addNode_edges]

theorem inCount_addEdge_le_ne (T : EdgeTypes) (g : PyDiGraph) (u v : String)
    (a : EdgeAttrs) (n : String) (hne : ¬ a.edge_type = T) :
    inCount T (g.addEdge u v a) n ≤ inCount T g n :=
  addEdge_filter_le g u v a _ (by simp [hne])

theorem inCount_addEdge_eq_tgt (T : EdgeTypes) (g : PyDiGraph) (u v : String)
    (a : EdgeAttrs) (n : String) (hvn : ¬ v = n) :
    inCount T (g.addEdge u v a) n = inCount T g n := by
  refine addEdge_filter_eq g u v a _ (by simp [hvn]) ?_
  intro e he hk
  have h2 : e.1.2 = v := by rw [hk]
  simp [h2, hvn]

theorem inCount_addEdge_add (T : EdgeTypes) (g : PyDiGraph) (u v : String)
    (a : EdgeAttrs) (n : String) (hk : EdgeKeysNodup g) :
    inCount T (g.addEdge u v a) n ≤ inCount T g n + 1 :=
  addEdge_filter_add g u v a _ hk

/-! The opening section of the factory has no edges and duplicate-free nodes. -/

theorem factoryBase_NodesNodup (md : DatabaseGraphMetadata) :
    NodesNodup (factoryBase md false) := by
  rw [factoryBase]
  simp only [Bool.false_eq_true, if_false]
  refine foldl_inv NodesNodup _ md.schemas ?_ ⟨[], []⟩ List.nodup_nil
  intro g p _ hg
  exact NodesNodup_addNode hg p.1 _

theorem inCount_of_edges_nil {T : EdgeTypes} {g : PyDiGraph}
    (h : g.edges = []) (n : String) : inCount T g n = 0 := by
  rw [inCount, h]
  rfl

/-- A fallible fold whose invariant consumes the remaining input suffix. -/
theorem foldlM_inv_suffix {σ α : Type} (I : σ → List α → Prop)
    (step : σ → α → Except String σ)
    (hstep : ∀ s a rest, I s (a :: rest) → ∀ s2, step s a = .ok s2 → I s2 rest) :
    ∀ (l : List α) (s s2 : σ), I s l → l.foldlM step s = .ok s2 → I s2 [] := by
  intro l
  induction l with
  | nil =>
    intro s s2 hI h
    exact (Except.ok.inj h) ▸ hI
  | cons a rest ih =>
    intro s s2 hI h
    rw [List.foldlM_cons] at h
    cases ha : step s a with
    | error e =>
      rw [ha] at h
      exact Except.noConfusion h
    | ok s1 =>
      rw [ha] at h
      exact ih s1 s2 (hstep s a rest hI s1 ha) h

/-- The bundle of counting facts preserved by every edge the builder adds
after the column section: node and edge keys stay duplicate-free, at most one
schema-table edge enters any node, at most one table-column edge enters any
node, and every stored table and column keeps an in-edge. -/
def CBundle (md : DatabaseGraphMetadata) (g : PyDiGraph) : Prop :=
  NodesNodup g ∧ EdgeKeysNodup g ∧
  (∀ t, inCount EdgeTypes.SCHEMA_TABLE g t ≤ 1) ∧
  (∀ n, inCount EdgeTypes.TABLE_COLUMN g n ≤ 1) ∧
  InEdged md.tables g ∧ InEdged md.columns g

theorem CBundle_addNode {md : DatabaseGraphMetadata} {g : PyDiGraph}
    (h : CBundle md g) (m : String) (a0 : NodeAttrs) :
    CBundle md (g.addNode m a0) := by
  obtain ⟨h1, h2, h3, h4, h5, h6⟩ := h
  refine ⟨NodesNodup_addNode h1 m a0, EdgeKeysNodup_addNode h2 m a0, ?_, ?_,
    InEdged_addNode h5 m a0, InEdged_addNode h6 m a0⟩
  · intro t
    rw [inCount_addNode_eq]
    exact h3 t
  · intro n
    rw [inCount_addNode_eq]
    exact h4 n

theorem CBundle_addEdge_other {md : DatabaseGraphMetadata} {g : PyDiGraph}
    (h : CBundle md g) (u v : String) (a : EdgeAttrs)
    (hST : ¬ a.edge_type = EdgeTypes.SCHEMA_TABLE)
    (hTC : ¬ a.edge_type = EdgeTypes.TABLE_COLUMN) :
    CBundle md (g.addEdge u v a) := by
  obtain ⟨h1, h2, h3, h4, h5, h6⟩ := h
  refine ⟨NodesNodup_addEdge h1 u v a, EdgeKeysNodup_addEdge h2 u v a, ?_, ?_,
    InEdged_addEdge h5 u v a, InEdged_addEdge h6 u v a⟩
  · intro t
    exact Nat.le_trans (inCount_addEdge_le_ne _ g u v a t hST) (h3 t)
  · intro n
    exact Nat.le_trans (inCount_addEdge_le_ne _ g u v a n hTC) (h4 n)

theorem CBundle_addEdge_kind {md : DatabaseGraphMetadata} {g : PyDiGraph}
    (h : CBundle md g) (u v : String) (T : EdgeTypes) (P : EdgePayload)
    (h1 : ¬ T = EdgeTypes.SCHEMA_TABLE) (h2 : ¬ T = EdgeTypes.TABLE_COLUMN) :
    CBundle md (g.addEdge u v ⟨T, P⟩) :=
  CBundle_addEdge_other h u v ⟨T, P⟩ h1 h2

/-! Table section: every table key receives exactly one schema-table in-edge. -/

theorem tablePhase_counts (md : DatabaseGraphMetadata)
    (htN : KeysNodup md.tables) {gT : PyDiGraph}
    (hT : md.tables.foldlM (addTableStep md) (factoryBase md false) = .ok gT) :
    NodesNodup gT ∧ EdgeKeysNodup gT ∧
    (∀ t, inCount EdgeTypes.SCHEMA_TABLE gT t ≤ 1) ∧
    (∀ n, inCount EdgeTypes.TABLE_COLUMN gT n = 0) ∧
    InEdged md.tables gT := by
  have hbase : (md.tables.map Prod.fst).Nodup ∧
      NodesNodup (factoryBase md false) ∧ EdgeKeysNodup (factoryBase md false) ∧
      (∀ t, inCount EdgeTypes.SCHEMA_TABLE (factoryBase md false) t ≤ 1) ∧
      (∀ k ∈ md.tables.map Prod.fst,
        inCount EdgeTypes.SCHEMA_TABLE (factoryBase md false) k = 0) ∧
      (∀ n, inCount EdgeTypes.TABLE_COLUMN (factoryBase md false) n = 0) ∧
      (∀ k, (lookupK md.tables k).isSome = true →
        k ∈ md.tables.map Prod.fst ∨ 0 < (factoryBase md false).inDegree k) := by
    refine ⟨htN, factoryBase_NodesNodup md, ?_, ?_, ?_, ?_, ?_⟩
    · rw [EdgeKeysNodup, factoryBase_edges]
      exact List.nodup_nil
    · intro t
      rw [inCount_of_edges_nil (factoryBase_edges md false)]
      omega
    · intro k _
      rw [inCount_of_edges_nil (factoryBase_edges md false)]
    · intro n
      rw [inCount_of_edges_nil (factoryBase_edges md false)]
    · intro k hk
      obtain ⟨v, _, hm⟩ := lookupK_isSome_mem hk
      exact Or.inl (List.mem_map_of_mem Prod.fst hm)
  have hstep : ∀ (g : PyDiGraph) (p : String × MetadataTableRow)
      (rest : List (String × MetadataTableRow)),
      ((fun g l => (l.map Prod.fst).Nodup ∧ NodesNodup g ∧ EdgeKeysNodup g ∧
        (∀ t, inCount EdgeTypes.SCHEMA_TABLE g t ≤ 1) ∧
        (∀ k ∈ l.map Prod.fst, inCount EdgeTypes.SCHEMA_TABLE g k = 0) ∧
        (∀ n, inCount EdgeTypes.TABLE_COLUMN g n = 0) ∧
        (∀ k, (lookupK md.tables k).isSome = true →
          k ∈ l.map Prod.fst ∨ 0 < g.inDegree k)) g (p :: rest)) →
      ∀ g2, addTableStep md g p = .ok g2 →
      ((fun g l => (l.map Prod.fst).Nodup ∧ NodesNodup g ∧ EdgeKeysNodup g ∧
        (∀ t, inCount EdgeTypes.SCHEMA_TABLE g t ≤ 1) ∧
        (∀ k ∈ l.map Prod.fst, inCount EdgeTypes.SCHEMA_TABLE g k = 0) ∧
        (∀ n, inCount EdgeTypes.TABLE_COLUMN g n = 0) ∧
        (∀ k, (lookupK md.tables k).isSome = true →
          k ∈ l.map Prod.fst ∨ 0 < g.inDegree k)) g2 rest) := by
    intro g p rest hI g2 h
    obtain ⟨hnd, hN, hE, hST, hSTz, hTC, htrack⟩ := hI
    rw [List.map_cons, List.nodup_cons] at hnd
    rw [addTableStep] at h
    split at h
    · cases Except.ok.inj h
      have hNA : NodesNodup (g.addNode p.1
          ⟨some NodeTypes.TABLE.value, false⟩) :=
        NodesNodup_addNode hN p.1 _
      have hEA : EdgeKeysNodup (g.addNode p.1
          ⟨some NodeTypes.TABLE.value, false⟩) :=
        EdgeKeysNodup_addNode hE p.1 _
      refine ⟨hnd.2, NodesNodup_addEdge hNA _ _ _,
        EdgeKeysNodup_addEdge hEA _ _ _, ?_, ?_, ?_, ?_⟩
      · intro t
        by_cases ht : p.1 = t
        · subst ht
          have h1 := inCount_addEdge_add EdgeTypes.SCHEMA_TABLE _
            (schema_id p.2.table_cat p.2.table_schem) p.1
            ⟨.SCHEMA_TABLE, .nopayload⟩ p.1 hEA
          rw [inCount_addNode_eq] at h1
          have h2 := hSTz p.1 (List.mem_cons_self _ _)
          omega
        · rw [inCount_addEdge_eq_tgt _ _ _ _ _ _ ht, inCount_addNode_eq]
          exact hST t
      · intro k hk
        have hkp : ¬ p.1 = k := fun he => hnd.1 (he ▸ hk)
        rw [inCount_addEdge_eq_tgt _ _ _ _ _ _ hkp, inCount_addNode_eq]
        exact hSTz k (List.mem_cons_of_mem _ hk)
      · intro n
        have h1 := inCount_addEdge_le_ne EdgeTypes.TABLE_COLUMN
          (g.addNode p.1 ⟨some NodeTypes.TABLE.value, false⟩)
          (schema_id p.2.table_cat p.2.table_schem) p.1
          ⟨.SCHEMA_TABLE, .nopayload⟩ n (by decide)
        rw [inCount_addNode_eq] at h1
        have h2 := hTC n
        omega
      · intro k hk
        rcases htrack k hk with hm | hd
        · rw [List.map_cons, List.mem_cons] at hm
          rcases hm with rfl | hm
          · exact Or.inr (inDegree_addEdge_self _ _ _ _)
          · exact Or.inl hm
        · refine Or.inr (Nat.lt_of_lt_of_le hd ?_)
          rw [← inDegree_addNode g p.1 ⟨some NodeTypes.TABLE.value, false⟩ k]
          exact inDegree_addEdge_le _ _ _ _ k
    · exact Except.noConfusion h
  have hmain := foldlM_inv_suffix
    (fun g l => (l.map Prod.fst).Nodup ∧ NodesNodup g ∧ EdgeKeysNodup g ∧
      (∀ t, inCount EdgeTypes.SCHEMA_TABLE g t ≤ 1) ∧
      (∀ k ∈ l.map Prod.fst, inCount EdgeTypes.SCHEMA_TABLE g k = 0) ∧
      (∀ n, inCount EdgeTypes.TABLE_COLUMN g n = 0) ∧
      (∀ k, (lookupK md.tables k).isSome = true →
        k ∈ l.map Prod.fst ∨ 0 < g.inDegree k))
    (addTableStep md) hstep md.tables (factoryBase md false) gT hbase hT
  obtain ⟨-, hN, hE, hST, -, hTC, htrack⟩ := hmain
  refine ⟨hN, hE, hST, hTC, ?_⟩
  intro k hk
  rcases htrack k hk with hm | hd
  · exact absurd hm (List.not_mem_nil k)
  · exact hd

/-! Column section: every column key receives exactly one table-column
in-edge; the reverse column-table edges leave all counts intact. -/

theorem columnPhase_counts (md : DatabaseGraphMetadata)
    (hcN : KeysNodup md.columns) {gT : PyDiGraph} {gC : PyDiGraph × List String}
    (hN : NodesNodup gT) (hE : EdgeKeysNodup gT)
    (hST : ∀ t, inCount EdgeTypes.SCHEMA_TABLE gT t ≤ 1)
    (hTC : ∀ n, inCount EdgeTypes.TABLE_COLUMN gT n = 0)
    (hTI : InEdged md.tables gT)
    (hc : md.columns.foldlM (addColumnStep md false) (gT, []) = .ok gC) :
    CBundle md gC.1 := by
  have hstep : ∀ (acc : PyDiGraph × List String)
      (p : String × MetadataColumnRow)
      (rest : List (String × MetadataColumnRow)),
      ((fun (acc : PyDiGraph × List String) (l : List (String × MetadataColumnRow)) => ((l.map Prod.fst).Nodup ∧ NodesNodup acc.1 ∧
        EdgeKeysNodup acc.1 ∧
        (∀ t, inCount EdgeTypes.SCHEMA_TABLE acc.1 t ≤ 1) ∧
        (∀ n, inCount EdgeTypes.TABLE_COLUMN acc.1 n ≤ 1) ∧
        (∀ k ∈ l.map Prod.fst, inCount EdgeTypes.TABLE_COLUMN acc.1 k = 0) ∧
        InEdged md.tables acc.1 ∧
        (∀ k, (lookupK md.columns k).isSome = true →
          k ∈ l.map Prod.fst ∨ 0 < acc.1.inDegree k))) acc (p :: rest)) →
      ∀ acc2, addColumnStep md false acc p = .ok acc2 →
      ((fun (acc : PyDiGraph × List String) (l : List (String × MetadataColumnRow)) => ((l.map Prod.fst).Nodup ∧ NodesNodup acc.1 ∧
        EdgeKeysNodup acc.1 ∧
        (∀ t, inCount EdgeTypes.SCHEMA_TABLE acc.1 t ≤ 1) ∧
        (∀ n, inCount EdgeTypes.TABLE_COLUMN acc.1 n ≤ 1) ∧
        (∀ k ∈ l.map Prod.fst, inCount EdgeTypes.TABLE_COLUMN acc.1 k = 0) ∧
        InEdged md.tables acc.1 ∧
        (∀ k, (lookupK md.columns k).isSome = true →
          k ∈ l.map Prod.fst ∨ 0 < acc.1.inDegree k))) acc2 rest) := by
    intro acc p rest hI acc2 h
    obtain ⟨g, missing⟩ := acc
    obtain ⟨hnd, hN1, hE1, hST1, hTC1, hTCz, hTI1, htrack⟩ := hI
    dsimp only at hN1 hE1 hST1 hTC1 hTCz hTI1 htrack
    rw [List.map_cons, List.nodup_cons] at hnd
    rw [addColumnStep] at h
    split at h
    · simp only [Bool.false_eq_true, if_false] at h
      cases Except.ok.inj h
      dsimp only
      have hNA : NodesNodup (g.addNode p.1
          ⟨some NodeTypes.COLUMN.value, false⟩) := NodesNodup_addNode hN1 p.1 _
      have hEA : EdgeKeysNodup (g.addNode p.1
          ⟨some NodeTypes.COLUMN.value, false⟩) := EdgeKeysNodup_addNode hE1 p.1 _
      refine ⟨hnd.2, NodesNodup_addEdge (NodesNodup_addEdge hNA _ _ _) _ _ _,
        EdgeKeysNodup_addEdge (EdgeKeysNodup_addEdge hEA _ _ _) _ _ _,
        ?_, ?_, ?_, InEdged_addEdge (InEdged_addEdge
          (InEdged_addNode hTI1 _ _) _ _ _) _ _ _, ?_⟩
      · intro t
        have h1 := inCount_addEdge_le_ne EdgeTypes.SCHEMA_TABLE
          ((g.addNode p.1 ⟨some NodeTypes.COLUMN.value, false⟩).addEdge
            (table_id p.2.table_cat p.2.table_schem p.2.table_name) p.1
            ⟨.TABLE_COLUMN, .nopayload⟩)
          p.1 (table_id p.2.table_cat p.2.table_schem p.2.table_name)
          ⟨.COLUMN_TABLE, .nopayload⟩ t (by decide)
        have h2 := inCount_addEdge_le_ne EdgeTypes.SCHEMA_TABLE
          (g.addNode p.1 ⟨some NodeTypes.COLUMN.value, false⟩)
          (table_id p.2.table_cat p.2.table_schem p.2.table_name) p.1
          ⟨.TABLE_COLUMN, .nopayload⟩ t (by decide)
        rw [inCount_addNode_eq] at h2
        have h3 := hST1 t
        omega
      · intro n
        have h1 := inCount_addEdge_le_ne EdgeTypes.TABLE_COLUMN
          ((g.addNode p.1 ⟨some NodeTypes.COLUMN.value, false⟩).addEdge
            (table_id p.2.table_cat p.2.table_schem p.2.table_name) p.1
            ⟨.TABLE_COLUMN, .nopayload⟩)
          p.1 (table_id p.2.table_cat p.2.table_schem p.2.table_name)
          ⟨.COLUMN_TABLE, .nopayload⟩ n (by decide)
        by_cases hn : p.1 = n
        · subst hn
          have h2 := inCount_addEdge_add EdgeTypes.TABLE_COLUMN
            (g.addNode p.1 ⟨some NodeTypes.COLUMN.value, false⟩)
            (table_id p.2.table_cat p.2.table_schem p.2.table_name) p.1
            ⟨.TABLE_COLUMN, .nopayload⟩ p.1 hEA
          rw [inCount_addNode_eq] at h2
          have h3 := hTCz p.1 (List.mem_cons_self _ _)
          omega
        · have h2 := inCount_addEdge_eq_tgt EdgeTypes.TABLE_COLUMN
            (g.addNode p.1 ⟨some NodeTypes.COLUMN.value, false⟩)
            (table_id p.2.table_cat p.2.table_schem p.2.table_name) p.1
            ⟨.TABLE_COLUMN, .nopayload⟩ n hn
          rw [inCount_addNode_eq] at h2
          have h3 := hTC1 n
          omega
      · intro k hk
        have hkp : ¬ p.1 = k := fun he => hnd.1 (he ▸ hk)
        have h1 := inCount_addEdge_le_ne EdgeTypes.TABLE_COLUMN
          ((g.addNode p.1 ⟨some NodeTypes.COLUMN.value, false⟩).addEdge
            (table_id p.2.table_cat p.2.table_schem p.2.table_name) p.1
            ⟨.TABLE_COLUMN, .nopayload⟩)
          p.1 (table_id p.2.table_cat p.2.table_schem p.2.table_name)
          ⟨.COLUMN_TABLE, .nopayload⟩ k (by decide)
        have h2 := inCount_addEdge_eq_tgt EdgeTypes.TABLE_COLUMN
          (g.addNode p.1 ⟨some NodeTypes.COLUMN.value, false⟩)
          (table_id p.2.table_cat p.2.table_schem p.2.table_name) p.1
          ⟨.TABLE_COLUMN, .nopayload⟩ k hkp
        rw [inCount_addNode_eq] at h2
        have h3 := hTCz k (List.mem_cons_of_mem _ hk)
        omega
      · intro k hk
        rcases htrack k hk with hm | hd
        · rw [List.map_cons, List.mem_cons] at hm
          rcases hm with rfl | hm
          · have hpos := inDegree_addEdge_self
              (g.addNode p.1 ⟨some NodeTypes.COLUMN.value, false⟩)
              (table_id p.2.table_cat p.2.table_schem p.2.table_name) p.1
              ⟨.TABLE_COLUMN, .nopayload⟩
            have hle := inDegree_addEdge_le
              ((g.addNode p.1 ⟨some NodeTypes.COLUMN.value, false⟩).addEdge
                (table_id p.2.table_cat p.2.table_schem p.2.table_name) p.1
                ⟨.TABLE_COLUMN, .nopayload⟩)
              p.1 (table_id p.2.table_cat p.2.table_schem p.2.table_name)
              ⟨.COLUMN_TABLE, .nopayload⟩ p.1
            exact Or.inr (Nat.lt_of_lt_of_le hpos hle)
          · exact Or.inl hm
        · refine Or.inr (Nat.lt_of_lt_of_le hd ?_)
          refine Nat.le_trans ?_ (Nat.le_trans (inDegree_addEdge_le _ _ _ _ k)
            (inDegree_addEdge_le _ _ _ _ k))
          rw [inDegree_addNode]
    · exact Except.noConfusion h
  have hmain := foldlM_inv_suffix
    (fun (acc : PyDiGraph × List String) (l : List (String × MetadataColumnRow)) => ((l.map Prod.fst).Nodup ∧ NodesNodup acc.1 ∧
      EdgeKeysNodup acc.1 ∧
      (∀ t, inCount EdgeTypes.SCHEMA_TABLE acc.1 t ≤ 1) ∧
      (∀ n, inCount EdgeTypes.TABLE_COLUMN acc.1 n ≤ 1) ∧
      (∀ k ∈ l.map Prod.fst, inCount EdgeTypes.TABLE_COLUMN acc.1 k = 0) ∧
      InEdged md.tables acc.1 ∧
      (∀ k, (lookupK md.columns k).isSome = true →
        k ∈ l.map Prod.fst ∨ 0 < acc.1.inDegree k)))
    (addColumnStep md false) hstep md.columns (gT, []) gC
    ⟨hcN, hN, hE, hST, fun n => by rw [hTC n]; exact Nat.zero_le 1,
     fun k _ => hTC k, hTI,
     fun k hk => by
      obtain ⟨v, _, hm⟩ := lookupK_isSome_mem hk
      exact Or.inl (List.mem_map_of_mem Prod.fst hm)⟩ hc
  obtain ⟨-, hN2, hE2, hST2, hTC2, -, hTI2, htrack2⟩ := hmain
  refine ⟨hN2, hE2, hST2, hTC2, hTI2, ?_⟩
  intro k hk
  rcases htrack2 k hk with hm | hd
  · exact absurd hm (List.not_mem_nil k)
  · exact hd

/-! Primary-key and foreign-key sections: only edge kinds other than
schema-table and table-column are added, and the key node of each entry
receives its table-pk or table-fk in-edge. -/

theorem pkPhase_counts (md : DatabaseGraphMetadata) {gC gP : PyDiGraph}
    (h0 : CBundle md gC)
    (hpk : md.pks.foldlM (addPkStep md) gC = .ok gP) :
    CBundle md gP ∧ InEdged md.pks gP := by
  have hstep : ∀ (g : PyDiGraph) (p : String × List MetadataPrimaryKeyRow)
      (rest : List (String × List MetadataPrimaryKeyRow)),
      ((fun (g : PyDiGraph) (l : List (String × List MetadataPrimaryKeyRow)) => (CBundle md g ∧
        (∀ k, (lookupK md.pks k).isSome = true →
          k ∈ l.map Prod.fst ∨ 0 < g.inDegree k))) g (p :: rest)) →
      ∀ g2, addPkStep md g p = .ok g2 →
      ((fun (g : PyDiGraph) (l : List (String × List MetadataPrimaryKeyRow)) => (CBundle md g ∧
        (∀ k, (lookupK md.pks k).isSome = true →
          k ∈ l.map Prod.fst ∨ 0 < g.inDegree k))) g2 rest) := by
    intro g p rest hI g2 h
    obtain ⟨k0, rows⟩ := p
    obtain ⟨hB, htrack⟩ := hI
    rw [addPkStep] at h
    cases rows with
    | nil => exact Except.noConfusion h
    | cons first rrows =>
      dsimp only at h
      split at h
      · have hbase : CBundle md ((g.addNode k0
            ⟨some NodeTypes.PK.value, false⟩).addEdge
            (table_id first.table_cat first.table_schem first.table_name) k0
            ⟨.TABLE_PK, .nopayload⟩) ∧
            0 < ((g.addNode k0 ⟨some NodeTypes.PK.value, false⟩).addEdge
              (table_id first.table_cat first.table_schem first.table_name) k0
              ⟨.TABLE_PK, .nopayload⟩).inDegree k0 ∧
            (∀ k2, 0 < g.inDegree k2 →
              0 < ((g.addNode k0 ⟨some NodeTypes.PK.value, false⟩).addEdge
                (table_id first.table_cat first.table_schem first.table_name)
                k0 ⟨.TABLE_PK, .nopayload⟩).inDegree k2) := by
          refine ⟨CBundle_addEdge_kind (CBundle_addNode hB k0 _) _ _
            EdgeTypes.TABLE_PK _ (by decide) (by decide),
            inDegree_addEdge_self _ _ _ _, ?_⟩
          intro k2 hk2
          refine Nat.lt_of_lt_of_le hk2 ?_
          refine Nat.le_trans ?_ (inDegree_addEdge_le _ _ _ _ k2)
          rw [inDegree_addNode]
        obtain ⟨hB2, hk02, hmono2⟩ := foldlM_inv
          (fun g1 => CBundle md g1 ∧ 0 < g1.inDegree k0 ∧
            (∀ k2, 0 < g.inDegree k2 → 0 < g1.inDegree k2))
          (fun g1 row =>
            if (lookupK md.columns (column_id row.table_cat row.table_schem
                row.table_name row.column_name)).isSome then
              Except.ok (g1.addEdge k0 (column_id row.table_cat
                row.table_schem row.table_name row.column_name)
                ⟨.PK_COLUMN, .pkRow row⟩)
            else Except.error "AssertionError: of_column in md.columns")
          (first :: rrows)
          (fun g1 row _ hI1 g3 hs => by
            obtain ⟨hg1, hk1, hm1⟩ := hI1
            dsimp only at hs
            split at hs
            · cases Except.ok.inj hs
              exact ⟨CBundle_addEdge_kind hg1 _ _ EdgeTypes.PK_COLUMN _
                (by decide) (by decide),
                Nat.lt_of_lt_of_le hk1 (inDegree_addEdge_le _ _ _ _ k0),
                fun k2 hk2 => Nat.lt_of_lt_of_le (hm1 k2 hk2)
                  (inDegree_addEdge_le _ _ _ _ k2)⟩
            · exact Except.noConfusion hs)
          _ g2 hbase h
        refine ⟨hB2, ?_⟩
        intro k hk
        rcases htrack k hk with hm | hd
        · rw [List.map_cons, List.mem_cons] at hm
          rcases hm with rfl | hm
          · exact Or.inr hk02
          · exact Or.inl hm
        · exact Or.inr (hmono2 k hd)
      · exact Except.noConfusion h
  have hmain := foldlM_inv_suffix
    (fun (g : PyDiGraph) (l : List (String × List MetadataPrimaryKeyRow)) => ((CBundle md g ∧
      (∀ k, (lookupK md.pks k).isSome = true →
        k ∈ l.map Prod.fst ∨ 0 < g.inDegree k))))
    (addPkStep md) hstep md.pks gC gP
    ⟨h0, fun k hk => by
      obtain ⟨v, _, hm⟩ := lookupK_isSome_mem hk
      exact Or.inl (List.mem_map_of_mem Prod.fst hm)⟩ hpk
  obtain ⟨hB, htrack⟩ := hmain
  refine ⟨hB, ?_⟩
  intro k hk
  rcases htrack k hk with hm | hd
  · exact absurd hm (List.not_mem_nil k)
  · exact hd

theorem fkPhase_counts (md : DatabaseGraphMetadata) {gP gF : PyDiGraph}
    (h0 : CBundle md gP) (hPk : InEdged md.pks gP)
    (hfk : md.fks.foldlM addFkStep gP = .ok gF) :
    CBundle md gF ∧ InEdged md.pks gF ∧ InEdged md.fks gF := by
  have hstep : ∀ (g : PyDiGraph) (p : String × List MetadataForeignKeyRow)
      (rest : List (String × List MetadataForeignKeyRow)),
      ((fun (g : PyDiGraph) (l : List (String × List MetadataForeignKeyRow)) => (CBundle md g ∧ InEdged md.pks g ∧
        (∀ k, (lookupK md.fks k).isSome = true →
          k ∈ l.map Prod.fst ∨ 0 < g.inDegree k))) g (p :: rest)) →
      ∀ g2, addFkStep g p = .ok g2 →
      ((fun (g : PyDiGraph) (l : List (String × List MetadataForeignKeyRow)) => (CBundle md g ∧ InEdged md.pks g ∧
        (∀ k, (lookupK md.fks k).isSome = true →
          k ∈ l.map Prod.fst ∨ 0 < g.inDegree k))) g2 rest) := by
    intro g p rest hI g2 h
    obtain ⟨k0, rows⟩ := p
    obtain ⟨hB, hPk1, htrack⟩ := hI
    rw [addFkStep] at h
    cases rows with
    | nil => exact Except.noConfusion h
    | cons first rrows =>
      dsimp only at h
      cases Except.ok.inj h
      have hbase : CBundle md (((g.addNode k0
          ⟨some NodeTypes.FK.value, false⟩).addEdge
          (table_id first.fktable_cat first.fktable_schem first.fktable_name)
          k0 ⟨.TABLE_FK, .nopayload⟩).addEdge k0
          (table_id first.pktable_cat first.pktable_schem first.pktable_name)
          ⟨.FK_TABLE, .nopayload⟩) ∧
          InEdged md.pks (((g.addNode k0
            ⟨some NodeTypes.FK.value, false⟩).addEdge
            (table_id first.fktable_cat first.fktable_schem first.fktable_name)
            k0 ⟨.TABLE_FK, .nopayload⟩).addEdge k0
            (table_id first.pktable_cat first.pktable_schem
              first.pktable_name) ⟨.FK_TABLE, .nopayload⟩) ∧
          0 < (((g.addNode k0 ⟨some NodeTypes.FK.value, false⟩).addEdge
            (table_id first.fktable_cat first.fktable_schem first.fktable_name)
            k0 ⟨.TABLE_FK, .nopayload⟩).addEdge k0
            (table_id first.pktable_cat first.pktable_schem
              first.pktable_name) ⟨.FK_TABLE, .nopayload⟩).inDegree k0 ∧
          (∀ k2, 0 < g.inDegree k2 →
            0 < (((g.addNode k0 ⟨some NodeTypes.FK.value, false⟩).addEdge
              (table_id first.fktable_cat first.fktable_schem
                first.fktable_name) k0 ⟨.TABLE_FK, .nopayload⟩).addEdge k0
              (table_id first.pktable_cat first.pktable_schem
                first.pktable_name) ⟨.FK_TABLE, .nopayload⟩).inDegree k2) := by
        refine ⟨CBundle_addEdge_kind (CBundle_addEdge_kind
          (CBundle_addNode hB k0 _) _ _ EdgeTypes.TABLE_FK _
            (by decide) (by decide)) _ _ EdgeTypes.FK_TABLE _
          (by decide) (by decide),
          InEdged_addEdge (InEdged_addEdge (InEdged_addNode hPk1 _ _) _ _ _)
            _ _ _,
          Nat.lt_of_lt_of_le (inDegree_addEdge_self _ _ _ _)
            (inDegree_addEdge_le _ _ _ _ k0), ?_⟩
        intro k2 hk2
        refine Nat.lt_of_lt_of_le hk2 ?_
        refine Nat.le_trans ?_ (Nat.le_trans (inDegree_addEdge_le _ _ _ _ k2)
          (inDegree_addEdge_le _ _ _ _ k2))
        rw [inDegree_addNode]
      obtain ⟨hB2, hPk2, hk02, hmono2⟩ := foldl_inv
        (fun g1 => CBundle md g1 ∧ InEdged md.pks g1 ∧ 0 < g1.inDegree k0 ∧
          (∀ k2, 0 < g.inDegree k2 → 0 < g1.inDegree k2))
        (fun g1 row =>
          (((g1.addEdge (column_id row.fktable_cat row.fktable_schem
              row.fktable_name row.fkcolumn_name) k0
              ⟨.COLUMN_FK, .fkRow row⟩).addEdge k0
            (column_id row.pktable_cat row.pktable_schem row.pktable_name
              row.pkcolumn_name) ⟨.FK_COLUMN, .fkRow row⟩).addEdge
            (column_id row.fktable_cat row.fktable_schem row.fktable_name
              row.fkcolumn_name)
            (column_id row.pktable_cat row.pktable_schem row.pktable_name
              row.pkcolumn_name) ⟨.REFERENCE, .fkRow row⟩).addEdge
            (column_id row.pktable_cat row.pktable_schem row.pktable_name
              row.pkcolumn_name)
            (column_id row.fktable_cat row.fktable_schem row.fktable_name
              row.fkcolumn_name) ⟨.REFERENCE_BY, .fkRow row⟩)
        (first :: rrows)
        (fun g1 row _ hI1 => by
          obtain ⟨hg1, hp1, hk1, hm1⟩ := hI1
          refine ⟨CBundle_addEdge_kind (CBundle_addEdge_kind
            (CBundle_addEdge_kind (CBundle_addEdge_kind hg1 _ _
              EdgeTypes.COLUMN_FK _ (by decide) (by decide)) _ _
              EdgeTypes.FK_COLUMN _ (by decide) (by decide)) _ _
              EdgeTypes.REFERENCE _ (by decide) (by decide)) _ _
              EdgeTypes.REFERENCE_BY _ (by decide) (by decide),
            InEdged_addEdge (InEdged_addEdge (InEdged_addEdge (InEdged_addEdge
              hp1 _ _ _) _ _ _) _ _ _) _ _ _, ?_, ?_⟩
          · refine Nat.lt_of_lt_of_le hk1 ?_
            exact Nat.le_trans (inDegree_addEdge_le _ _ _ _ k0)
              (Nat.le_trans (inDegree_addEdge_le _ _ _ _ k0)
                (Nat.le_trans (inDegree_addEdge_le _ _ _ _ k0)
                  (inDegree_addEdge_le _ _ _ _ k0)))
          · intro k2 hk2
            refine Nat.lt_of_lt_of_le (hm1 k2 hk2) ?_
            exact Nat.le_trans (inDegree_addEdge_le _ _ _ _ k2)
              (Nat.le_trans (inDegree_addEdge_le _ _ _ _ k2)
                (Nat.le_trans (inDegree_addEdge_le _ _ _ _ k2)
                  (inDegree_addEdge_le _ _ _ _ k2))))
        _ hbase
      refine ⟨hB2, hPk2, ?_⟩
      intro k hk
      rcases htrack k hk with hm | hd
      · rw [List.map_cons, List.mem_cons] at hm
        rcases hm with rfl | hm
        · exact Or.inr hk02
        · exact Or.inl hm
      · exact Or.inr (hmono2 k hd)
  have hmain := foldlM_inv_suffix
    (fun (g : PyDiGraph) (l : List (String × List MetadataForeignKeyRow)) => ((CBundle md g ∧ InEdged md.pks g ∧
      (∀ k, (lookupK md.fks k).isSome = true →
        k ∈ l.map Prod.fst ∨ 0 < g.inDegree k))))
    addFkStep hstep md.fks gP gF
    ⟨h0, hPk, fun k hk => by
      obtain ⟨v, _, hm⟩ := lookupK_isSome_mem hk
      exact Or.inl (List.mem_map_of_mem Prod.fst hm)⟩ hfk
  obtain ⟨hB, hPk2, htrack⟩ := hmain
  refine ⟨hB, hPk2, ?_⟩
  intro k hk
  rcases htrack k hk with hm | hd
  · exact absurd hm (List.not_mem_nil k)
  · exact hd

/-- The counting facts of every graph the factory returns: duplicate-free
node and edge keys, at most one schema-table in-edge and at most one
table-column in-edge anywhere, and an in-edge at every stored table, column,
primary-key and foreign-key node. -/
theorem factory_counts (md : DatabaseGraphMetadata) (g : PyDiGraph)
    (hfac : _full_graph_factory md false = .ok g)
    (htN : KeysNodup md.tables) (hcN : KeysNodup md.columns) :
    CBundle md g ∧ InEdged md.pks g ∧ InEdged md.fks g := by
  rw [_full_graph_factory] at hfac
  cases hT : md.tables.foldlM (addTableStep md) (factoryBase md false) with
  | error e => rw [hT] at hfac; exact Except.noConfusion hfac
  | ok gT =>
    rw [hT] at hfac
    have hred : ((Except.ok gT : Except String PyDiGraph) >>= fun g =>
        md.columns.foldlM (addColumnStep md false) (g, []) >>= fun gm =>
          md.pks.foldlM (addPkStep md) gm.1 >>= fun g =>
            md.fks.foldlM addFkStep g) =
        (md.columns.foldlM (addColumnStep md false) (gT, []) >>= fun gm =>
          md.pks.foldlM (addPkStep md) gm.1 >>= fun g =>
            md.fks.foldlM addFkStep g) := rfl
    rw [hred] at hfac
    obtain ⟨hN, hE, hST, hTCz, hTI⟩ := tablePhase_counts md htN hT
    cases hc : md.columns.foldlM (addColumnStep md false) (gT, []) with
    | error e => rw [hc] at hfac; exact Except.noConfusion hfac
    | ok gC =>
      rw [hc] at hfac
      have hred2 : ((Except.ok gC : Except String (PyDiGraph × List String)) >>=
          fun gm => md.pks.foldlM (addPkStep md) gm.1 >>= fun g =>
            md.fks.foldlM addFkStep g) =
          (md.pks.foldlM (addPkStep md) gC.1 >>= fun g =>
            md.fks.foldlM addFkStep g) := rfl
      rw [hred2] at hfac
      have hCB := columnPhase_counts md hcN hN hE hST hTCz hTI hc
      cases hpk : md.pks.foldlM (addPkStep md) gC.1 with
      | error e => rw [hpk] at hfac; exact Except.noConfusion hfac
      | ok gP =>
        rw [hpk] at hfac
        have hred3 : ((Except.ok gP : Except String PyDiGraph) >>= fun g =>
            md.fks.foldlM addFkStep g) = md.fks.foldlM addFkStep gP := rfl
        rw [hred3] at hfac
        obtain ⟨hPB, hPk⟩ := pkPhase_counts md hCB hpk
        exact fkPhase_counts md hPB hPk hfac

/-! Generic sums over filtered lists, used to push the per-node edge counts
through the traversal's stack bookkeeping. -/

theorem sum_const_one {α : Type} :
    ∀ (l : List α), (l.map (fun _ => (1 : Nat))).sum = l.length := by
  intro l
  induction l with
  | nil => rfl
  | cons x l ih =>
    rw [List.map_cons, List.sum_cons, ih, List.length_cons]
    omega

theorem sum_map_zero {α : Type} :
    ∀ (l : List α), (l.map (fun _ => (0 : Nat))).sum = 0 := by
  intro l
  induction l with
  | nil => rfl
  | cons x l ih => rw [List.map_cons, List.sum_cons, ih]

theorem sum_map_ite {α : Type} (Q : α → Bool) (h : α → Nat) :
    ∀ (l : List α),
      (l.map (fun x => if Q x then h x else 0)).sum =
        ((l.filter Q).map h).sum := by
  intro l
  induction l with
  | nil => rfl
  | cons x l ih =>
    rw [List.map_cons, List.sum_cons, List.filter_cons]
    by_cases hq : Q x = true
    · rw [if_pos hq, if_pos hq, List.map_cons, List.sum_cons, ih]
    · rw [if_neg hq, if_neg hq, ih]
      omega

theorem sum_filter_split {α : Type} (p q : α → Bool) (f : α → Nat) :
    ∀ (l : List α),
      ((l.filter p).map f).sum =
        ((l.filter (fun x => p x && q x)).map f).sum +
        ((l.filter (fun x => p x && !q x)).map f).sum := by
  intro l
  induction l with
  | nil => rfl
  | cons x l ih =>
    rw [List.filter_cons, List.filter_cons, List.filter_cons]
    by_cases hp : p x = true
    · rw [if_pos hp]
      by_cases hq : q x = true
      · rw [if_pos (by rw [hp, hq]; rfl), if_neg (by rw [hp, hq]; decide),
          List.map_cons, List.sum_cons, List.map_cons, List.sum_cons, ih]
        omega
      · rw [Bool.not_eq_true] at hq
        rw [if_neg (by rw [hp, hq]; decide), if_pos (by rw [hp, hq]; rfl),
          List.map_cons, List.sum_cons, List.map_cons, List.sum_cons, ih]
        omega
    · rw [Bool.not_eq_true] at hp
      rw [if_neg (by rw [hp]; simp), if_neg (by rw [hp]; simp),
        if_neg (by rw [hp]; simp)]
      exact ih

theorem nodup_of_counts :
    ∀ (l : List String),
      (∀ t, (l.filter (fun x => decide (x = t))).length ≤ 1) → l.Nodup := by
  intro l
  induction l with
  | nil =>
    intro _
    exact List.nodup_nil
  | cons a l ih =>
    intro h
    rw [List.nodup_cons]
    constructor
    · intro hmem
      have h1 := h a
      rw [List.filter_cons, if_pos (by simp), List.length_cons] at h1
      have hmem2 : a ∈ l.filter (fun x => decide (x = a)) :=
        List.mem_filter.mpr ⟨hmem, by simp⟩
      have h2 : 0 < (l.filter (fun x => decide (x = a))).length :=
        List.length_pos.mpr (List.ne_nil_of_mem hmem2)
      omega
    · refine ih ?_
      intro t
      have h1 := h t
      rw [List.filter_cons] at h1
      by_cases ha : a = t
      · rw [if_pos (by simp [ha]), List.length_cons] at h1
        omega
      · rw [if_neg (by simp [ha])] at h1
        exact h1

theorem sum_sources_le (Q : (String × String) × EdgeAttrs → Bool)
    (f : (String × String) × EdgeAttrs → Nat) :
    ∀ (ts : List String), ts.Nodup →
    ∀ (es : List ((String × String) × EdgeAttrs)),
      (ts.map (fun t =>
        ((es.filter (fun e => decide (e.1.1 = t) && Q e)).map f).sum)).sum ≤
      ((es.filter Q).map f).sum := by
  intro ts
  induction ts with
  | nil =>
    intro _ es
    exact Nat.zero_le _
  | cons t ts ih =>
    intro hnd es
    rw [List.nodup_cons] at hnd
    rw [List.map_cons, List.sum_cons]
    have hsplit := sum_filter_split Q (fun e => decide (e.1.1 = t)) f es
    have hhead : ((es.filter (fun e => decide (e.1.1 = t) && Q e)).map f).sum =
        ((es.filter (fun e => Q e && decide (e.1.1 = t))).map f).sum := by
      rw [List.filter_congr (fun e _ => Bool.and_comm (decide (e.1.1 = t))
        (Q e))]
    have htail : (ts.map (fun t2 =>
        ((es.filter (fun e => decide (e.1.1 = t2) && Q e)).map f).sum)).sum =
        (ts.map (fun t2 =>
          (((es.filter (fun e => !decide (e.1.1 = t))).filter
            (fun e => decide (e.1.1 = t2) && Q e)).map f).sum)).sum := by
      refine congrArg List.sum (List.map_congr_left ?_)
      intro t2 ht2
      have hne : ¬ t2 = t := fun he => hnd.1 (he ▸ ht2)
      rw [List.filter_filter]
      refine congrArg List.sum (congrArg (List.map f) ?_)
      refine List.filter_congr ?_
      intro e _
      by_cases hsrc : e.1.1 = t2
      · have hnt : ¬ e.1.1 = t := fun he => hne ((hsrc.symm.trans he))
        simp [hsrc, hnt, hne]
      · simp [hsrc]
    have hih := ih hnd.2 (es.filter (fun e => !decide (e.1.1 = t)))
    have hconv : ((es.filter (fun e => !decide (e.1.1 = t))).filter Q).map f =
        (es.filter (fun e => Q e && !decide (e.1.1 = t))).map f := by
      rw [List.filter_filter]
    rw [htail, hhead]
    rw [hconv] at hih
    omega

theorem targets_nodup_of_counts (T : EdgeTypes) (g : PyDiGraph)
    (h : ∀ t, inCount T g t ≤ 1) :
    ((g.edges.filter (fun e => decide (e.2.edge_type = T))).map
      (fun e => e.1.2)).Nodup := by
  refine nodup_of_counts _ ?_
  intro t
  have h1 : ((g.edges.filter (fun e => decide (e.2.edge_type = T))).map
      (fun e => e.1.2)).filter (fun x => decide (x = t)) =
      ((g.edges.filter (fun e => decide (e.2.edge_type = T))).filter
        (fun e => decide (e.1.2 = t))).map (fun e => e.1.2) := by
    rw [List.filter_map]
    rfl
  rw [h1, List.length_map, List.filter_filter]
  have hcomm : g.edges.filter (fun a => decide (a.1.2 = t) &&
      decide (a.2.edge_type = T)) =
      g.edges.filter (fun e => decide (e.2.edge_type = T) &&
        decide (e.1.2 = t)) :=
    List.filter_congr (fun e _ => Bool.and_comm _ _)
  rw [hcomm]
  have h2 := h t
  rw [inCount] at h2
  exact h2

theorem lookupK_of_mem_nodup {β : Type} :
    ∀ {m : List (String × β)}, KeysNodup m → ∀ {k : String} {v : β},
      (k, v) ∈ m → lookupK m k = some v := by
  intro m
  induction m with
  | nil =>
    intro _ k v hm
    exact absurd hm (List.not_mem_nil _)
  | cons p rest ih =>
    intro hnd k v hm
    obtain ⟨k2, v2⟩ := p
    rw [KeysNodup, List.map_cons, List.nodup_cons] at hnd
    rcases List.mem_cons.mp hm with he | hm2
    · cases he
      rw [lookupK, if_pos rfl]
    · have hne : ¬ k2 = k := by
        intro he
        subst he
        exact hnd.1 (List.mem_map.mpr ⟨(k2, v), hm2, rfl⟩)
      rw [lookupK, if_neg hne]
      exact ih hnd.2 hm2

theorem outEdges_as_edges (g : PyDiGraph) (u : String) :
    g.outEdges u = (g.edges.filter (fun e => decide (e.1.1 = u))).map
      (fun e => (e.1.2, e.2)) := by
  rw [PyDiGraph.outEdges]
  induction g.edges with
  | nil => rfl
  | cons e es ih =>
    rw [List.filterMap_cons, List.filter_cons]
    by_cases he : e.1.1 = u
    · rw [if_pos he, if_pos (by simp [he]), List.map_cons, ih]
    · rw [if_neg he, if_neg (by simp [he]), ih]

/-! The per-entry visit budget for a fixed column node n: a schema entry can
lead to as many further non-reference visits of n as its tables have
table-column edges into n, a table entry to its own table-column edges into
n, a non-reference column entry for n itself charges one, and reference
arrivals, pk and fk entries charge nothing and push nothing towards n. -/

def capSchema (g : PyDiGraph) (n s : String) : Nat :=
  (((g.outEdges s).filter
    (fun o => decide (o.2.edge_type = EdgeTypes.SCHEMA_TABLE))).map
    (fun o => srcTCount EdgeTypes.TABLE_COLUMN g o.1 n)).sum

def entryCap (g : PyDiGraph) (n : String) (e : VisitStackEntry) : Nat :=
  if e.edge_type = some EdgeTypes.REFERENCE then 0
  else
    match lookupK g.nodes e.to_node with
    | none => 0
    | some a =>
      match a.node_type with
      | none => 0
      | some t =>
        if t = NodeTypes.SCHEMA.value then capSchema g n e.to_node
        else if t = NodeTypes.TABLE.value then
          srcTCount EdgeTypes.TABLE_COLUMN g e.to_node n
        else if t = NodeTypes.COLUMN.value then
          (if e.to_node = n then 1 else 0)
        else 0

def stackCap (g : PyDiGraph) (n : String) (stack : List VisitStackEntry) : Nat :=
  (stack.map (entryCap g n)).sum

theorem stackCap_cons (g : PyDiGraph) (n : String) (e : VisitStackEntry)
    (l : List VisitStackEntry) :
    stackCap g n (e :: l) = entryCap g n e + stackCap g n l := by
  simp [stackCap]

theorem stackCap_append (g : PyDiGraph) (n : String)
    (l1 l2 : List VisitStackEntry) :
    stackCap g n (l1 ++ l2) = stackCap g n l1 + stackCap g n l2 := by
  simp [stackCap]

theorem stackCap_perm {g : PyDiGraph} {n : String}
    {l1 l2 : List VisitStackEntry} (h : l1.Perm l2) :
    stackCap g n l1 = stackCap g n l2 :=
  (h.map (entryCap g n)).sum_eq

theorem entryCap_ref {g : PyDiGraph} {n : String} {e : VisitStackEntry}
    (href : e.edge_type = some EdgeTypes.REFERENCE) : entryCap g n e = 0 := by
  rw [entryCap, if_pos href]

theorem entryCap_of {g : PyDiGraph} {n : String} {e : VisitStackEntry}
    {a : NodeAttrs} {t : String}
    (href : ¬ e.edge_type = some EdgeTypes.REFERENCE)
    (ha : lookupK g.nodes e.to_node = some a) (ht : a.node_type = some t) :
    entryCap g n e =
      (if t = NodeTypes.SCHEMA.value then capSchema g n e.to_node
       else if t = NodeTypes.TABLE.value then
         srcTCount EdgeTypes.TABLE_COLUMN g e.to_node n
       else if t = NodeTypes.COLUMN.value then
         (if e.to_node = n then 1 else 0)
       else 0) := by
  rw [entryCap, if_neg href, ha]
  dsimp only
  rw [ht]

/-- The pushed entries' total budget is below any per-edge bound valid on the
followed out-edges. -/
theorem sum_caps_pushes (g : PyDiGraph) (n : String) (follow : List EdgeTypes)
    (e : VisitStackEntry) (f : String × EdgeAttrs → Nat) :
    ∀ (outs : List (String × EdgeAttrs)),
      (∀ out ∈ outs, out.2.edge_type ∈ follow →
        entryCap g n (pushOf e out) ≤ f out) →
      ((outs.filterMap (pushPair g follow e)).map
        (fun pr => entryCap g n pr.2)).sum ≤
      ((outs.filter (fun o => decide (o.2.edge_type ∈ follow))).map f).sum := by
  intro outs
  induction outs with
  | nil =>
    intro _
    exact Nat.le_refl 0
  | cons out rest ih =>
    intro hb
    have ihr := ih (fun o ho hf => hb o (List.mem_cons_of_mem _ ho) hf)
    rw [List.filterMap_cons, List.filter_cons]
    cases hpp : pushPair g follow e out with
    | none =>
      dsimp only
      by_cases hf : out.2.edge_type ∈ follow
      · rw [if_pos (by simp [hf]), List.map_cons, List.sum_cons]
        omega
      · rw [if_neg (by simp [hf])]
        exact ihr
    | some pr =>
      dsimp only
      rw [pushPair] at hpp
      cases hl : lookupK g.nodes out.1 with
      | none =>
        rw [hl] at hpp
        exact Option.noConfusion hpp
      | some a =>
        rw [hl] at hpp
        dsimp only at hpp
        cases ht : a.node_type with
        | none =>
          rw [ht] at hpp
          exact Option.noConfusion hpp
        | some t =>
          rw [ht] at hpp
          dsimp only at hpp
          by_cases hf : out.2.edge_type ∈ follow
          · rw [if_pos hf] at hpp
            rw [if_pos (by simp [hf]), List.map_cons, List.sum_cons,
              List.map_cons, List.sum_cons]
            have hpr2 : pr.2 = pushOf e out := by
              rw [← Option.some.inj hpp]
            rw [hpr2]
            have h1 := hb out (List.mem_cons_self _ _) hf
            omega
          · rw [if_neg hf] at hpp
            exact Option.noConfusion hpp

theorem pushPair_nil_follow (g : PyDiGraph) (e : VisitStackEntry)
    (out : String × EdgeAttrs) : pushPair g [] e out = none := by
  rw [pushPair]
  cases lookupK g.nodes out.1 with
  | none => rfl
  | some a =>
    dsimp only
    cases a.node_type with
    | none => rfl
    | some t =>
      dsimp only
      rw [if_neg (List.not_mem_nil _)]

theorem filterMap_pushPair_nil (g : PyDiGraph) (e : VisitStackEntry) :
    ∀ (outs : List (String × EdgeAttrs)),
      outs.filterMap (pushPair g [] e) = [] := by
  intro outs
  induction outs with
  | nil => rfl
  | cons out rest ih =>
    rw [List.filterMap_cons, pushPair_nil_follow]
    exact ih

theorem filter_map_sum {α β : Type} (mk : α → β) (p : β → Bool) (f : β → Nat) :
    ∀ (l : List α),
      (((l.map mk).filter p).map f).sum =
        ((l.filter (fun a => p (mk a))).map (fun a => f (mk a))).sum := by
  intro l
  induction l with
  | nil => rfl
  | cons x l ih =>
    rw [List.map_cons, List.filter_cons, List.filter_cons]
    by_cases hp : p (mk x) = true
    · rw [if_pos hp, if_pos hp, List.map_cons, List.sum_cons, List.map_cons,
        List.sum_cons, ih]
    · rw [if_neg hp, if_neg hp]
      exact ih

theorem capSchema_edges (g : PyDiGraph) (n s : String) :
    capSchema g n s = ((g.edges.filter (fun e => decide (e.1.1 = s) &&
      decide (e.2.edge_type = EdgeTypes.SCHEMA_TABLE))).map
      (fun e => srcTCount EdgeTypes.TABLE_COLUMN g e.1.2 n)).sum := by
  rw [capSchema, outEdges_as_edges, filter_map_sum, List.filter_filter]
  have hfil : g.edges.filter (fun a =>
      decide ((a.1.2, a.2).2.edge_type = EdgeTypes.SCHEMA_TABLE) &&
        decide (a.1.1 = s)) =
      g.edges.filter (fun e => decide (e.1.1 = s) &&
        decide (e.2.edge_type = EdgeTypes.SCHEMA_TABLE)) :=
    List.filter_congr (fun e _ => Bool.and_comm _ _)
  rw [hfil]

theorem caps_pushes_schema {md : DatabaseGraphMetadata} {g : PyDiGraph}
    (hI : GInv md g) (hS : KeysShaped md) (n : String) (e : VisitStackEntry) :
    (((g.outEdges e.to_node).filterMap
      (pushPair g [EdgeTypes.SCHEMA_TABLE] e)).map
      (fun pr => entryCap g n pr.2)).sum ≤ capSchema g n e.to_node := by
  have hb : ∀ out ∈ g.outEdges e.to_node,
      out.2.edge_type ∈ [EdgeTypes.SCHEMA_TABLE] →
      entryCap g n (pushOf e out) ≤
        srcTCount EdgeTypes.TABLE_COLUMN g out.1 n := by
    intro out ho hf
    have hst : out.2.edge_type = EdgeTypes.SCHEMA_TABLE :=
      List.mem_singleton.mp hf
    have hedge := hI.2 _ (outEdges_mem ho)
    have htab := hedge.1.1 hst
    obtain ⟨a2, ha2⟩ := Option.isSome_iff_exists.mp hedge.2.2
    have hv2 := type_of_key_table hS (hI.1 (out.1, a2) (lookupK_mem ha2)) htab
    have href : ¬ (pushOf e out).edge_type = some EdgeTypes.REFERENCE := by
      rw [show (pushOf e out).edge_type = some out.2.edge_type from rfl, hst]
      intro hc
      exact absurd (Option.some.inj hc) (by decide)
    rw [entryCap_of href
      (show lookupK g.nodes (pushOf e out).to_node = some a2 from ha2) hv2,
      if_neg (by decide), if_pos rfl]
    exact Nat.le_refl _
  refine Nat.le_trans (sum_caps_pushes g n [EdgeTypes.SCHEMA_TABLE] e
    (fun out => srcTCount EdgeTypes.TABLE_COLUMN g out.1 n)
    (g.outEdges e.to_node) hb) ?_
  have hcong : (g.outEdges e.to_node).filter
      (fun o => decide (o.2.edge_type ∈ [EdgeTypes.SCHEMA_TABLE])) =
      (g.outEdges e.to_node).filter
        (fun o => decide (o.2.edge_type = EdgeTypes.SCHEMA_TABLE)) :=
    List.filter_congr (fun o _ => decide_eq_decide.mpr List.mem_singleton)
  rw [hcong, capSchema]

theorem caps_pushes_table {md : DatabaseGraphMetadata} {g : PyDiGraph}
    (hI : GInv md g) (hS : KeysShaped md) (n : String) (e : VisitStackEntry) :
    (((g.outEdges e.to_node).filterMap
      (pushPair g [EdgeTypes.TABLE_COLUMN, EdgeTypes.TABLE_PK,
        EdgeTypes.TABLE_FK] e)).map
      (fun pr => entryCap g n pr.2)).sum ≤
      srcTCount EdgeTypes.TABLE_COLUMN g e.to_node n := by
  have hb : ∀ out ∈ g.outEdges e.to_node,
      out.2.edge_type ∈ [EdgeTypes.TABLE_COLUMN, EdgeTypes.TABLE_PK,
        EdgeTypes.TABLE_FK] →
      entryCap g n (pushOf e out) ≤
        (if decide (out.2.edge_type = EdgeTypes.TABLE_COLUMN) then
          (if decide (out.1 = n) then 1 else 0) else 0) := by
    intro out ho hf
    have hedge := hI.2 _ (outEdges_mem ho)
    obtain ⟨a2, ha2⟩ := Option.isSome_iff_exists.mp hedge.2.2
    have hTyped := hI.1 (out.1, a2) (lookupK_mem ha2)
    rcases List.mem_cons.mp hf with hst | hf2
    · have hcol := hedge.1.2.1 hst
      have hv2 := type_of_key_column hS hTyped hcol
      have href : ¬ (pushOf e out).edge_type = some EdgeTypes.REFERENCE := by
        rw [show (pushOf e out).edge_type = some out.2.edge_type from rfl, hst]
        intro hc
        exact absurd (Option.some.inj hc) (by decide)
      rw [entryCap_of href
        (show lookupK g.nodes (pushOf e out).to_node = some a2 from ha2) hv2,
        if_neg (by decide), if_neg (by decide), if_pos rfl,
        show (pushOf e out).to_node = out.1 from rfl]
      by_cases hn : out.1 = n
      · simp [hst, hn]
      · simp [hst, hn]
    rcases List.mem_cons.mp hf2 with hst | hf3
    · have hpk := hedge.1.2.2.1 hst
      have hv2 := type_of_key_pk hS hTyped hpk
      have href : ¬ (pushOf e out).edge_type = some EdgeTypes.REFERENCE := by
        rw [show (pushOf e out).edge_type = some out.2.edge_type from rfl, hst]
        intro hc
        exact absurd (Option.some.inj hc) (by decide)
      rw [entryCap_of href
        (show lookupK g.nodes (pushOf e out).to_node = some a2 from ha2) hv2,
        if_neg (by decide), if_neg (by decide), if_neg (by decide)]
      exact Nat.zero_le _
    rcases List.mem_cons.mp hf3 with hst | hf4
    · have hfk := hedge.1.2.2.2.1 hst
      have hv2 := type_of_key_fk hS hTyped hfk
      have href : ¬ (pushOf e out).edge_type = some EdgeTypes.REFERENCE := by
        rw [show (pushOf e out).edge_type = some out.2.edge_type from rfl, hst]
        intro hc
        exact absurd (Option.some.inj hc) (by decide)
      rw [entryCap_of href
        (show lookupK g.nodes (pushOf e out).to_node = some a2 from ha2) hv2,
        if_neg (by decide), if_neg (by decide), if_neg (by decide)]
      exact Nat.zero_le _
    exact absurd hf4 (List.not_mem_nil _)
  refine Nat.le_trans (sum_caps_pushes g n _ e _ (g.outEdges e.to_node) hb) ?_
  rw [sum_map_ite (fun o : String × EdgeAttrs =>
      decide (o.2.edge_type = EdgeTypes.TABLE_COLUMN))
    (fun o : String × EdgeAttrs => if decide (o.1 = n) then 1 else 0),
    List.filter_filter]
  have hcong : (g.outEdges e.to_node).filter (fun a =>
      decide (a.2.edge_type = EdgeTypes.TABLE_COLUMN) &&
        decide (a.2.edge_type ∈ [EdgeTypes.TABLE_COLUMN, EdgeTypes.TABLE_PK,
          EdgeTypes.TABLE_FK])) =
      (g.outEdges e.to_node).filter
        (fun o => decide (o.2.edge_type = EdgeTypes.TABLE_COLUMN)) := by
    refine List.filter_congr ?_
    intro o _
    by_cases ht : o.2.edge_type = EdgeTypes.TABLE_COLUMN
    · simp [ht]
    · simp [ht]
  rw [hcong, sum_map_ite (fun o : String × EdgeAttrs => decide (o.1 = n))
      (fun _ => 1),
    List.filter_filter, sum_const_one, outEdges_as_edges, List.filter_map,
    List.length_map, List.filter_filter, srcTCount]
  refine Nat.le_of_eq (congrArg List.length (List.filter_congr ?_))
  intro q _
  show ((decide (q.1.2 = n) && decide (q.2.edge_type = EdgeTypes.TABLE_COLUMN))
      && decide (q.1.1 = e.to_node)) =
    (decide (q.1.1 = e.to_node) &&
      (decide (q.2.edge_type = EdgeTypes.TABLE_COLUMN) && decide (q.1.2 = n)))
  cases h1 : decide (q.1.1 = e.to_node) <;>
    cases h2 : decide (q.2.edge_type = EdgeTypes.TABLE_COLUMN) <;>
    cases h3 : decide (q.1.2 = n) <;> rfl

theorem caps_pushes_ref (g : PyDiGraph) (n : String) (e : VisitStackEntry) :
    (((g.outEdges e.to_node).filterMap
      (pushPair g [EdgeTypes.REFERENCE] e)).map
      (fun pr => entryCap g n pr.2)).sum = 0 := by
  refine List.sum_eq_zero ?_
  intro x hx
  rcases List.mem_map.mp hx with ⟨pr, hpr, hxe⟩
  rcases List.mem_filterMap.mp hpr with ⟨out, hout, hpp⟩
  rw [pushPair] at hpp
  cases hl : lookupK g.nodes out.1 with
  | none =>
    rw [hl] at hpp
    exact Option.noConfusion hpp
  | some a =>
    rw [hl] at hpp
    dsimp only at hpp
    cases ht : a.node_type with
    | none =>
      rw [ht] at hpp
      exact Option.noConfusion hpp
    | some t =>
      rw [ht] at hpp
      dsimp only at hpp
      by_cases hf : out.2.edge_type ∈ [EdgeTypes.REFERENCE]
      · rw [if_pos hf] at hpp
        have hpr2 : pr.2 = pushOf e out := by
          rw [← Option.some.inj hpp]
        have hrefed : (pushOf e out).edge_type = some EdgeTypes.REFERENCE := by
          rw [show (pushOf e out).edge_type = some out.2.edge_type from rfl,
            List.mem_singleton.mp hf]
        rw [← hxe, hpr2, entryCap_ref hrefed]
      · rw [if_neg hf] at hpp
        exact Option.noConfusion hpp

/-- On a factory-built graph every root is a schema node, and the total visit
budget of the initial stack towards any fixed node n is at most one: the
schemas' schema-table edges have pairwise distinct table targets, each table
counts its table-column edges into n, and n has at most one such in-edge. -/
theorem rootCap_le (md : DatabaseGraphMetadata) (g : PyDiGraph)
    (hI : GInv md g) (hCB : CBundle md g)
    (hPk : InEdged md.pks g) (hFk : InEdged md.fks g) (n : String) :
    stackCap g n (rootEntries g).reverse ≤ 1 := by
  obtain ⟨hN, hE, hST1, hTC1, hTI, hCI⟩ := hCB
  have hrev : stackCap g n (rootEntries g).reverse =
      stackCap g n (rootEntries g) :=
    stackCap_perm (List.reverse_perm _)
  rw [hrev, rootEntries, stackCap, List.map_map]
  have helem : ∀ p ∈ g.nodes.filter (fun p => decide (g.inDegree p.1 = 0)),
      (entryCap g n ∘ (fun p : String × NodeAttrs =>
        (⟨none, p.1, none, none⟩ : VisitStackEntry))) p =
        capSchema g n p.1 := by
    intro p hp
    obtain ⟨hmem, hdeg0⟩ := List.mem_filter.mp hp
    have hdeg : g.inDegree p.1 = 0 := of_decide_eq_true hdeg0
    have hTyped := hI.1 p hmem
    have hsch : (lookupK md.schemas p.1).isSome = true ∧
        p.2.node_type = some NodeTypes.SCHEMA.value := by
      rcases hTyped with ⟨hk, hv⟩ | ⟨hk, hv⟩ | ⟨hk, hv⟩ | ⟨hk, hv⟩ | ⟨hk, hv⟩
      · exact ⟨hk, hv⟩
      · have := hTI p.1 hk
        omega
      · have := hCI p.1 hk
        omega
      · have := hPk p.1 hk
        omega
      · have := hFk p.1 hk
        omega
    have hN2 : KeysNodup g.nodes := hN
    have hlook : lookupK g.nodes p.1 = some p.2 :=
      lookupK_of_mem_nodup hN2 hmem
    show entryCap g n ⟨none, p.1, none, none⟩ = capSchema g n p.1
    rw [entryCap_of (e := ⟨none, p.1, none, none⟩)
      (fun hc => Option.noConfusion hc) hlook hsch.2, if_pos rfl]
  rw [List.map_congr_left helem]
  have hconv2 : (g.nodes.filter (fun p => decide (g.inDegree p.1 = 0))).map
      (fun p => capSchema g n p.1) =
      ((g.nodes.filter (fun p => decide (g.inDegree p.1 = 0))).map
        Prod.fst).map (fun s => capSchema g n s) := by
    rw [List.map_map]
    rfl
  rw [hconv2]
  have hnodup : (((g.nodes.filter (fun p => decide (g.inDegree p.1 = 0))).map
      Prod.fst)).Nodup :=
    List.Nodup.sublist (List.Sublist.map Prod.fst (List.filter_sublist _)) hN
  have hcse : (fun s => capSchema g n s) = (fun s =>
      ((g.edges.filter (fun e => decide (e.1.1 = s) &&
        (fun e2 => decide (e2.2.edge_type = EdgeTypes.SCHEMA_TABLE)) e)).map
        (fun e => srcTCount EdgeTypes.TABLE_COLUMN g e.1.2 n)).sum) := by
    funext s
    exact capSchema_edges g n s
  rw [hcse]
  refine Nat.le_trans (sum_sources_le
    (fun e2 => decide (e2.2.edge_type = EdgeTypes.SCHEMA_TABLE))
    (fun e => srcTCount EdgeTypes.TABLE_COLUMN g e.1.2 n)
    _ hnodup g.edges) ?_
  have hmm2 : ((g.edges.filter
      (fun e2 => decide (e2.2.edge_type = EdgeTypes.SCHEMA_TABLE))).map
      (fun e => srcTCount EdgeTypes.TABLE_COLUMN g e.1.2 n)).sum =
      (((g.edges.filter
        (fun e2 => decide (e2.2.edge_type = EdgeTypes.SCHEMA_TABLE))).map
        (fun e => e.1.2)).map
        (fun t => srcTCount EdgeTypes.TABLE_COLUMN g t n)).sum := by
    rw [List.map_map]
    rfl
  rw [hmm2]
  have hndtg := targets_nodup_of_counts EdgeTypes.SCHEMA_TABLE g hST1
  have hsrcT : (fun t => srcTCount EdgeTypes.TABLE_COLUMN g t n) = (fun t =>
      ((g.edges.filter (fun e => decide (e.1.1 = t) &&
        (fun e2 => decide (e2.2.edge_type = EdgeTypes.TABLE_COLUMN) &&
          decide (e2.1.2 = n)) e)).map (fun _ => 1)).sum) := by
    funext t
    rw [srcTCount, ← sum_const_one]
  rw [hsrcT]
  refine Nat.le_trans (sum_sources_le
    (fun e2 => decide (e2.2.edge_type = EdgeTypes.TABLE_COLUMN) &&
      decide (e2.1.2 = n))
    (fun _ => 1) _ hndtg g.edges) ?_
  rw [sum_const_one]
  have h2 := hTC1 n
  rw [inCount] at h2
  exact h2

/-! The scoring state's potential: per component, the total of the node's
fact scores plus the cancelled sentinel of each disqualification. -/

def compPhi (s : CompositeState) (n : String) : Int :=
  (s.map (fun p => nodePhi p.2.fact_scoring n)).sum

theorem compPhi_nil (n : String) : compPhi [] n = 0 := rfl

theorem compPhi_cons (k : ScorerKind) (st : ScorerState) (l : CompositeState)
    (n : String) :
    compPhi ((k, st) :: l) n = nodePhi st.fact_scoring n + compPhi l n := by
  simp [compPhi]

/-- One component's column visit: the fact potential of node n grows by at
most 200 from the type scorer and 2100 from the keyword scorer, and only when
the visited column is n itself; key lists stay duplicate-free. -/
theorem colPair_phi {k : ScorerKind} (hk : k ∈ defaultScorers)
    {c : String} {row : MetadataColumnRow} {st st2 : ScorerState}
    (h : scorerVisitColumn k c row st = .ok st2) :
    (∀ n, nodePhi st2.fact_scoring n ≤ nodePhi st.fact_scoring n +
      2300 * (if c = n then 1 else 0)) ∧
    (KeysNodup st.fact_scoring.node_scores →
      KeysNodup st2.fact_scoring.node_scores) := by
  rw [defaultScorers] at hk
  rcases List.mem_cons.mp hk with rfl | hk2
  · rw [scorerVisitColumn] at h
    cases Except.ok.inj h
    constructor
    · intro n
      dsimp only
      rw [nodePhi_addAll]
      obtain ⟨hids, hphi⟩ := typeFact_bound c row
      rw [filter_nodeid_all hids n]
      by_cases hc : c = n
      · rw [if_pos hc, if_pos hc]
        omega
      · rw [if_neg hc, if_neg hc, phiOf_nil]
        omega
    · intro hnd
      dsimp only
      exact nodup_addAll _ _ hnd
  rcases List.mem_cons.mp hk2 with rfl | hk3
  · rw [scorerVisitColumn] at h
    cases Except.ok.inj h
    refine ⟨?_, fun hnd => hnd⟩
    intro n
    by_cases hc : c = n
    · rw [if_pos hc]
      omega
    · rw [if_neg hc]
      omega
  rcases List.mem_cons.mp hk3 with rfl | hk4
  · rw [scorerVisitColumn] at h
    cases hkw : kwVisitColumnScores _DEFAULT_KEYWORD_SCORING c
        row.column_name with
    | error err =>
      rw [hkw] at h
      exact Except.noConfusion h
    | ok l =>
      rw [hkw] at h
      have h2 : st2 = { st with fact_scoring := st.fact_scoring.addAll l } :=
        (Except.ok.inj h).symm
      subst h2
      obtain ⟨hids, hphi⟩ := kwVisit_bound c row.column_name hkw
      constructor
      · intro n
        dsimp only
        rw [nodePhi_addAll, filter_nodeid_all hids n]
        by_cases hc : c = n
        · rw [if_pos hc, if_pos hc]
          omega
        · rw [if_neg hc, if_neg hc, phiOf_nil]
          omega
      · intro hnd
        dsimp only
        exact nodup_addAll _ _ hnd
  exact absurd hk4 (List.not_mem_nil _)

/-- One component's reference visit adds only disqualifications: the fact
potential of every node is unchanged. -/
theorem refPair_phi {k : ScorerKind} {c : String} {fid : Option String}
    {ed : Option EdgeAttrs} {st st2 : ScorerState}
    (h : scorerVisitReference k c fid ed st = .ok st2) :
    (∀ n, nodePhi st2.fact_scoring n = nodePhi st.fact_scoring n) ∧
    (KeysNodup st.fact_scoring.node_scores →
      KeysNodup st2.fact_scoring.node_scores) := by
  cases k with
  | typeBased d =>
    cases Except.ok.inj h
    exact ⟨fun _ => rfl, fun hnd => hnd⟩
  | keywordBased d =>
    cases Except.ok.inj h
    exact ⟨fun _ => rfl, fun hnd => hnd⟩
  | keyDq =>
    cases ed with
    | none => exact Except.noConfusion h
    | some a =>
      obtain ⟨et, pl⟩ := a
      cases pl with
      | nopayload => exact Except.noConfusion h
      | pkRow r => exact Except.noConfusion h
      | fkRow row =>
        have hm : (keyDqReferenceScores c (fromIdStr fid) row.fk_name).map
            (fun l => { st with fact_scoring := st.fact_scoring.addAll l }) =
            .ok st2 := h
        cases hkd : keyDqReferenceScores c (fromIdStr fid) row.fk_name with
        | error err =>
          rw [hkd] at hm
          exact Except.noConfusion hm
        | ok l =>
          rw [hkd] at hm
          have h2 : st2 = { st with
              fact_scoring := st.fact_scoring.addAll l } :=
            (Except.ok.inj hm).symm
          subst h2
          constructor
          · intro n
            dsimp only
            rw [nodePhi_addAll, phiOf_filter_all_dq _ _ (keyDqRef_dq hkd)]
            omega
          · intro hnd
            dsimp only
            exact nodup_addAll _ _ hnd

/-- One component's pk visit adds only disqualifications. -/
theorem pkPair_phi (k : ScorerKind) (pid : String)
    (rows : List MetadataPrimaryKeyRow) (st : ScorerState) :
    (∀ n, nodePhi (scorerVisitPk k pid rows st).fact_scoring n =
      nodePhi st.fact_scoring n) ∧
    (KeysNodup st.fact_scoring.node_scores →
      KeysNodup (scorerVisitPk k pid rows st).fact_scoring.node_scores) := by
  cases k with
  | typeBased d => exact ⟨fun _ => rfl, fun hnd => hnd⟩
  | keywordBased d => exact ⟨fun _ => rfl, fun hnd => hnd⟩
  | keyDq =>
    rw [scorerVisitPk]
    constructor
    · intro n
      dsimp only
      rw [nodePhi_addAll, phiOf_filter_all_dq _ _ (keyDqPk_dq pid rows)]
      omega
    · intro hnd
      dsimp only
      exact nodup_addAll _ _ hnd

/-! Lifting the per-component facts over the composite's broadcast. -/

theorem mapM_col_state (c : String) (row : MetadataColumnRow) :
    ∀ (s s2 : CompositeState),
      (∀ p ∈ s, p.1 ∈ defaultScorers) →
      s.mapM (fun p => (scorerVisitColumn p.1 c row p.2).map
        (fun st => (p.1, st))) = .ok s2 →
      s2.map Prod.fst = s.map Prod.fst ∧
      (∀ n, compPhi s2 n ≤ compPhi s n +
        2300 * (s.length : Int) * (if c = n then 1 else 0)) ∧
      ((∀ p ∈ s, KeysNodup p.2.fact_scoring.node_scores) →
        ∀ p ∈ s2, KeysNodup p.2.fact_scoring.node_scores) := by
  intro s
  induction s with
  | nil =>
    intro s2 _ h
    have h0 : s2 = [] := (Except.ok.inj h).symm
    subst h0
    refine ⟨rfl, ?_, fun _ p hp => absurd hp (List.not_mem_nil p)⟩
    intro n
    rw [compPhi_nil]
    simp
  | cons p rest ih =>
    intro s2 hks h
    rw [List.mapM_cons] at h
    cases hf : scorerVisitColumn p.1 c row p.2 with
    | error err =>
      rw [hf] at h
      exact Except.noConfusion h
    | ok st2 =>
      rw [hf] at h
      cases hrest : rest.mapM (fun p => (scorerVisitColumn p.1 c row p.2).map
          (fun st => (p.1, st))) with
      | error err =>
        rw [hrest] at h
        exact Except.noConfusion h
      | ok xs =>
        rw [hrest] at h
        have hcons : s2 = (p.1, st2) :: xs := (Except.ok.inj h).symm
        subst hcons
        obtain ⟨hm, hphi, hnd⟩ :=
          ih xs (fun q hq => hks q (List.mem_cons_of_mem _ hq)) hrest
        obtain ⟨hc1, hc2⟩ :=
          colPair_phi (hks p (List.mem_cons_self _ _)) hf
        refine ⟨?_, ?_, ?_⟩
        · rw [List.map_cons, List.map_cons, hm]
        · intro n
          have hb1 := hc1 n
          have hb2 := hphi n
          rw [compPhi_cons, List.length_cons]
          have hcc : compPhi ((p.1, p.2) :: rest) n =
              nodePhi p.2.fact_scoring n + compPhi rest n := compPhi_cons _ _ _ _
          have hpp : compPhi (p :: rest) n =
              nodePhi p.2.fact_scoring n + compPhi rest n := hcc
          rw [hpp]
          by_cases hcn : c = n
          · rw [if_pos hcn] at hb1 hb2 ⊢
            rw [mul_one] at hb2 ⊢
            push_cast
            omega
          · rw [if_neg hcn] at hb1 hb2 ⊢
            rw [mul_zero] at hb2 ⊢
            omega
        · intro hnds q hq
          rcases List.mem_cons.mp hq with rfl | hq2
          · exact hc2 (hnds p (List.mem_cons_self _ _))
          · exact hnd (fun r hr => hnds r (List.mem_cons_of_mem _ hr)) q hq2

theorem mapM_ref_state (fid : Option String) (ed : Option EdgeAttrs)
    (c : String) :
    ∀ (s s2 : CompositeState),
      s.mapM (fun p => (scorerVisitReference p.1 c fid ed p.2).map
        (fun st => (p.1, st))) = .ok s2 →
      s2.map Prod.fst = s.map Prod.fst ∧
      (∀ n, compPhi s2 n = compPhi s n) ∧
      ((∀ p ∈ s, KeysNodup p.2.fact_scoring.node_scores) →
        ∀ p ∈ s2, KeysNodup p.2.fact_scoring.node_scores) := by
  intro s
  induction s with
  | nil =>
    intro s2 h
    have h0 : s2 = [] := (Except.ok.inj h).symm
    subst h0
    exact ⟨rfl, fun _ => rfl, fun _ p hp => absurd hp (List.not_mem_nil p)⟩
  | cons p rest ih =>
    intro s2 h
    rw [List.mapM_cons] at h
    cases hf : scorerVisitReference p.1 c fid ed p.2 with
    | error err =>
      rw [hf] at h
      exact Except.noConfusion h
    | ok st2 =>
      rw [hf] at h
      cases hrest : rest.mapM (fun p =>
          (scorerVisitReference p.1 c fid ed p.2).map
          (fun st => (p.1, st))) with
      | error err =>
        rw [hrest] at h
        exact Except.noConfusion h
      | ok xs =>
        rw [hrest] at h
        have hcons : s2 = (p.1, st2) :: xs := (Except.ok.inj h).symm
        subst hcons
        obtain ⟨hm, hphi, hnd⟩ := ih xs hrest
        obtain ⟨hc1, hc2⟩ := refPair_phi hf
        refine ⟨?_, ?_, ?_⟩
        · rw [List.map_cons, List.map_cons, hm]
        · intro n
          rw [compPhi_cons, hc1 n, hphi n,
            show compPhi (p :: rest) n =
              nodePhi p.2.fact_scoring n + compPhi rest n
            from compPhi_cons _ _ _ _]
        · intro hnds q hq
          rcases List.mem_cons.mp hq with rfl | hq2
          · exact hc2 (hnds p (List.mem_cons_self _ _))
          · exact hnd (fun r hr => hnds r (List.mem_cons_of_mem _ hr)) q hq2

theorem map_pk_state (pid : String) (rows : List MetadataPrimaryKeyRow) :
    ∀ (s : CompositeState),
      (s.map (fun p => (p.1, scorerVisitPk p.1 pid rows p.2))).map Prod.fst =
        s.map Prod.fst ∧
      (∀ n, compPhi (s.map (fun p => (p.1, scorerVisitPk p.1 pid rows p.2))) n =
        compPhi s n) ∧
      ((∀ p ∈ s, KeysNodup p.2.fact_scoring.node_scores) →
        ∀ p ∈ s.map (fun p => (p.1, scorerVisitPk p.1 pid rows p.2)),
          KeysNodup p.2.fact_scoring.node_scores) := by
  intro s
  induction s with
  | nil => exact ⟨rfl, fun _ => rfl, fun _ p hp => absurd hp (List.not_mem_nil p)⟩
  | cons p rest ih =>
    obtain ⟨hm, hphi, hnd⟩ := ih
    obtain ⟨hc1, hc2⟩ := pkPair_phi p.1 pid rows p.2
    refine ⟨?_, ?_, ?_⟩
    · rw [List.map_cons, List.map_cons, List.map_cons, hm]
    · intro n
      rw [List.map_cons, compPhi_cons, hc1 n, hphi n,
        show compPhi (p :: rest) n =
          nodePhi p.2.fact_scoring n + compPhi rest n from compPhi_cons _ _ _ _]
    · intro hnds q hq
      rw [List.map_cons] at hq
      rcases List.mem_cons.mp hq with rfl | hq2
      · exact hc2 (hnds p (List.mem_cons_self _ _))
      · exact hnd (fun r hr => hnds r (List.mem_cons_of_mem _ hr)) q hq2

/-- Inversion of one successful visit step: the node lookup, its type, its
metadata, the dispatch and the expansion all succeeded, giving the tail run. -/
theorem visitLoop_succ_inv {σ : Type} (g : PyDiGraph)
    (md : DatabaseGraphMetadata) (vis : DatabaseGraphVisitor σ)
    (fb : FallbackNav) (fuel : Nat) (s : σ) (e : VisitStackEntry)
    (rest : List VisitStackEntry) (s2 : σ)
    (h : visitLoop g md vis fb (fuel + 1) s (e :: rest) = .ok s2) :
    ∃ attrs t nd sr retval next,
      lookupK g.nodes e.to_node = some attrs ∧
      attrs.node_type = some t ∧
      md.get_node_metadata e.to_node = some nd ∧
      nodeVisitDispatch vis s e t nd = .ok (sr, retval) ∧
      expandEntries g (followOfRetval fb e t retval) e = .ok next ∧
      visitLoop g md vis fb fuel sr (next ++ rest) = .ok s2 := by
  simp only [visitLoop] at h
  split at h
  · exact Except.noConfusion h
  · rename_i attrs hattrs
    split at h
    · exact Except.noConfusion h
    · rename_i t hty
      split at h
      · exact Except.noConfusion h
      · rename_i nd hgnm
        split at h
        · exact Except.noConfusion h
        · rename_i sr retval hdisp
          split at h
          · exact Except.noConfusion h
          · rename_i next hexp
            exact ⟨attrs, t, nd, sr, retval, next, hattrs, hty, hgnm,
              hdisp, hexp, h⟩

/-- The loop invariant for the fact potential: a successful run of the
composite scoring traversal keeps the component kinds, keeps every
component's key list duplicate-free, and raises the fact potential of node n
by at most 6900 per unit of remaining stack budget for n. -/
theorem visitLoop_phi (md : DatabaseGraphMetadata) (g : PyDiGraph)
    (hI : GInv md g) (hS : KeysShaped md) (n : String) :
    ∀ (fuel : Nat) (stack : List VisitStackEntry) (s s2 : CompositeState),
      s.map Prod.fst = defaultScorers →
      (∀ p ∈ s, KeysNodup p.2.fact_scoring.node_scores) →
      visitLoop g md compositeGraphVisitor [] fuel s stack = .ok s2 →
      s2.map Prod.fst = defaultScorers ∧
      (∀ p ∈ s2, KeysNodup p.2.fact_scoring.node_scores) ∧
      compPhi s2 n ≤ compPhi s n + 6900 * (stackCap g n stack : Int) := by
  intro fuel
  induction fuel with
  | zero =>
    intro stack s s2 hmap hnds h
    cases stack with
    | nil =>
      have hs : s2 = s := (Except.ok.inj h).symm
      subst hs
      refine ⟨hmap, hnds, ?_⟩
      rw [show stackCap g n ([] : List VisitStackEntry) = 0 from rfl]
      simp
    | cons e rest => exact Except.noConfusion h
  | succ fuel ih =>
    intro stack s s2 hmap hnds h
    cases stack with
    | nil =>
      have hs : s2 = s := (Except.ok.inj h).symm
      subst hs
      refine ⟨hmap, hnds, ?_⟩
      rw [show stackCap g n ([] : List VisitStackEntry) = 0 from rfl]
      simp
    | cons e rest =>
      obtain ⟨attrs, t, nd, sr, retval, next, hattrs, hty, hgnm, hdisp,
        hexp, hrec⟩ :=
        visitLoop_succ_inv g md compositeGraphVisitor [] fuel s e rest s2 h
      obtain ⟨-, hperm⟩ := expandEntries_inv hexp
      by_cases href : e.edge_type = some EdgeTypes.REFERENCE
      · -- a reference arrival: phi-neutral broadcast, no pushes
        rw [nodeVisitDispatch, if_pos href] at hdisp
        have hdisp2 : (s.mapM (fun p =>
            (scorerVisitReference p.1 e.to_node e.from_node e.edge_data
              p.2).map (fun st => (p.1, st)))).map
            (fun sv => (sv, (none : Option (List EdgeTypes)))) =
            .ok (sr, retval) := hdisp
        cases hmm : s.mapM (fun p =>
            (scorerVisitReference p.1 e.to_node e.from_node e.edge_data
              p.2).map (fun st => (p.1, st))) with
        | error err =>
          rw [hmm] at hdisp2
          exact Except.noConfusion hdisp2
        | ok sv =>
          rw [hmm] at hdisp2
          have hpr := Except.ok.inj hdisp2
          injection hpr with h1 h2
          subst h1
          subst h2
          obtain ⟨hm2, hphi2, hnd2⟩ :=
            mapM_ref_state e.from_node e.edge_data e.to_node s sv hmm
          rw [followOfRetval_none_nil e t] at hperm
          have hcap0 : stackCap g n next = 0 := by
            rw [stackCap, (hperm.map (entryCap g n)).sum_eq,
              filterMap_pushPair_nil]
            rfl
          obtain ⟨hm3, hnd3, hphi3⟩ := ih (next ++ rest) sv s2
            (by rw [hm2, hmap]) (hnd2 hnds) hrec
          refine ⟨hm3, hnd3, ?_⟩
          have hsc := stackCap_cons g n e rest
          have hsn := stackCap_append g n next rest
          have he0 : entryCap g n e = 0 := entryCap_ref href
          rw [hphi2 n] at hphi3
          omega
      · by_cases hts : t = NodeTypes.SCHEMA.value
        · -- schema visit: state unchanged, pushes bounded by the schema cap
          subst hts
          rw [dispatch_schema s e nd href] at hdisp
          have hpr := Except.ok.inj hdisp
          injection hpr with h1 h2
          subst h1
          subst h2
          rw [show followOfRetval [] e NodeTypes.SCHEMA.value
            (some [EdgeTypes.SCHEMA_TABLE]) = [EdgeTypes.SCHEMA_TABLE]
            from rfl] at hperm
          have hcaple : stackCap g n next ≤ capSchema g n e.to_node := by
            rw [stackCap, (hperm.map (entryCap g n)).sum_eq, List.map_map]
            exact caps_pushes_schema hI hS n e
          have hecap : entryCap g n e = capSchema g n e.to_node := by
            rw [entryCap_of href hattrs hty, if_pos rfl]
          obtain ⟨hm3, hnd3, hphi3⟩ := ih (next ++ rest) s s2 hmap hnds hrec
          refine ⟨hm3, hnd3, ?_⟩
          have hsc := stackCap_cons g n e rest
          have hsn := stackCap_append g n next rest
          omega
        by_cases htt : t = NodeTypes.TABLE.value
        · -- table visit: state unchanged, pushes bounded by the table cap
          subst htt
          rw [dispatch_table s e nd href] at hdisp
          have hpr := Except.ok.inj hdisp
          injection hpr with h1 h2
          subst h1
          subst h2
          rw [show followOfRetval [] e NodeTypes.TABLE.value
            (some [EdgeTypes.TABLE_COLUMN, EdgeTypes.TABLE_PK,
              EdgeTypes.TABLE_FK]) =
            [EdgeTypes.TABLE_COLUMN, EdgeTypes.TABLE_PK, EdgeTypes.TABLE_FK]
            from rfl] at hperm
          have hcaple : stackCap g n next ≤
              srcTCount EdgeTypes.TABLE_COLUMN g e.to_node n := by
            rw [stackCap, (hperm.map (entryCap g n)).sum_eq, List.map_map]
            exact caps_pushes_table hI hS n e
          have hecap : entryCap g n e =
              srcTCount EdgeTypes.TABLE_COLUMN g e.to_node n := by
            rw [entryCap_of href hattrs hty, if_neg (by decide), if_pos rfl]
          obtain ⟨hm3, hnd3, hphi3⟩ := ih (next ++ rest) s s2 hmap hnds hrec
          refine ⟨hm3, hnd3, ?_⟩
          have hsc := stackCap_cons g n e rest
          have hsn := stackCap_append g n next rest
          omega
        by_cases htc : t = NodeTypes.COLUMN.value
        · -- column visit: phi charge at most 6900 on the visited column
          subst htc
          rw [nodeVisitDispatch, if_neg href, if_neg (by decide),
            if_neg (by decide), if_pos rfl] at hdisp
          cases nd with
          | columnRow row =>
            have hdisp2 : (s.mapM (fun p =>
                (scorerVisitColumn p.1 e.to_node row p.2).map
                  (fun st => (p.1, st)))).map
                (fun sv => (sv, some [EdgeTypes.REFERENCE])) =
                .ok (sr, retval) := hdisp
            cases hmm : s.mapM (fun p =>
                (scorerVisitColumn p.1 e.to_node row p.2).map
                  (fun st => (p.1, st))) with
            | error err =>
              rw [hmm] at hdisp2
              exact Except.noConfusion hdisp2
            | ok sv =>
              rw [hmm] at hdisp2
              have hpr := Except.ok.inj hdisp2
              injection hpr with h1 h2
              subst h1
              subst h2
              obtain ⟨hm2, hphi2, hnd2⟩ := mapM_col_state e.to_node row s sv
                (fun p hp => by
                  rw [← hmap]
                  exact List.mem_map_of_mem Prod.fst hp) hmm
              rw [show followOfRetval [] e NodeTypes.COLUMN.value
                (some [EdgeTypes.REFERENCE]) = [EdgeTypes.REFERENCE]
                from rfl] at hperm
              have hcap0 : stackCap g n next = 0 := by
                rw [stackCap, (hperm.map (entryCap g n)).sum_eq, List.map_map]
                exact caps_pushes_ref g n e
              have hlen : s.length = 3 := by
                have hlm := congrArg List.length hmap
                rw [List.length_map] at hlm
                exact hlm
              have hecap : entryCap g n e =
                  (if e.to_node = n then 1 else 0) := by
                rw [entryCap_of href hattrs hty, if_neg (by decide),
                  if_neg (by decide), if_pos rfl]
              obtain ⟨hm3, hnd3, hphi3⟩ := ih (next ++ rest) sv s2
                (by rw [hm2, hmap]) (hnd2 hnds) hrec
              refine ⟨hm3, hnd3, ?_⟩
              have hb := hphi2 n
              rw [hlen] at hb
              have hsc := stackCap_cons g n e rest
              have hsn := stackCap_append g n next rest
              by_cases hcn : e.to_node = n
              · rw [if_pos hcn] at hb hecap
                rw [mul_one] at hb
                omega
              · rw [if_neg hcn] at hb hecap
                rw [mul_zero] at hb
                omega
          | schemaRow r => exact Except.noConfusion hdisp
          | tableRow r => exact Except.noConfusion hdisp
          | pkRows l => exact Except.noConfusion hdisp
          | fkRows l => exact Except.noConfusion hdisp
          | typeRow r => exact Except.noConfusion hdisp
        by_cases htp : t = NodeTypes.PK.value
        · -- pk visit: phi-neutral map, no pushes
          subst htp
          rw [nodeVisitDispatch, if_neg href, if_neg (by decide),
            if_neg (by decide), if_neg (by decide), if_pos rfl] at hdisp
          cases nd with
          | pkRows rows =>
            have hpr := Except.ok.inj hdisp
            injection hpr with h1 h2
            subst h1
            subst h2
            obtain ⟨hm2, hphi2, hnd2⟩ := map_pk_state e.to_node rows s
            rw [followOfRetval_none_nil e _] at hperm
            have hcap0 : stackCap g n next = 0 := by
              rw [stackCap, (hperm.map (entryCap g n)).sum_eq,
                filterMap_pushPair_nil]
              rfl
            obtain ⟨hm3, hnd3, hphi3⟩ := ih (next ++ rest) _ s2
              (by rw [hm2, hmap]) (hnd2 hnds) hrec
            refine ⟨hm3, hnd3, ?_⟩
            have hsc := stackCap_cons g n e rest
            have hsn := stackCap_append g n next rest
            rw [hphi2 n] at hphi3
            omega
          | schemaRow r => exact Except.noConfusion hdisp
          | tableRow r => exact Except.noConfusion hdisp
          | columnRow r => exact Except.noConfusion hdisp
          | fkRows l => exact Except.noConfusion hdisp
          | typeRow r => exact Except.noConfusion hdisp
        by_cases htf : t = NodeTypes.FK.value
        · -- fk visit: state unchanged, no pushes
          subst htf
          rw [dispatch_fk s e nd href] at hdisp
          have hpr := Except.ok.inj hdisp
          injection hpr with h1 h2
          subst h1
          subst h2
          rw [followOfRetval_none_nil e _] at hperm
          have hcap0 : stackCap g n next = 0 := by
            rw [stackCap, (hperm.map (entryCap g n)).sum_eq,
              filterMap_pushPair_nil]
            rfl
          obtain ⟨hm3, hnd3, hphi3⟩ := ih (next ++ rest) s s2 hmap hnds hrec
          refine ⟨hm3, hnd3, ?_⟩
          have hsc := stackCap_cons g n e rest
          have hsn := stackCap_append g n next rest
          omega
        rw [nodeVisitDispatch, if_neg href, if_neg hts, if_neg htt,
          if_neg htc, if_neg htp, if_neg htf] at hdisp
        exact Except.noConfusion hdisp

/-! Helpers for reading the final fact objective: sorting is a permutation,
merge keeps keys duplicate-free, and the attribute dict preserves the totals
of scored nodes. -/

theorem insertByKey_perm {α : Type} (key : α → Int) (x : α) :
    ∀ l : List α, (insertByKey key x l).Perm (x :: l) := by
  intro l
  induction l with
  | nil => exact List.Perm.refl _
  | cons y ys ih =>
    rw [insertByKey]
    by_cases h : key x ≤ key y
    · rw [if_pos h]
    · rw [if_neg h]
      exact (ih.cons y).trans (List.Perm.swap x y ys)

theorem sortByKey_perm {α : Type} (key : α → Int) :
    ∀ l : List α, (sortByKey key l).Perm l := by
  intro l
  induction l with
  | nil => exact List.Perm.refl _
  | cons x xs ih =>
    rw [sortByKey]
    exact (insertByKey_perm key x (sortByKey key xs)).trans (ih.cons x)

theorem lookupK_append_some {β : Type} {l1 : List (String × β)} {k : String}
    {v : β} (l2 : List (String × β)) (h : lookupK l1 k = some v) :
    lookupK (l1 ++ l2) k = some v := by
  induction l1 with
  | nil => exact Option.noConfusion h
  | cons p rest ih =>
    obtain ⟨a, b⟩ := p
    rw [lookupK_cons] at h
    rw [List.cons_append, lookupK_cons]
    by_cases hak : a = k
    · rw [if_pos hak] at h
      rw [if_pos hak]
      exact h
    · rw [if_neg hak] at h
      rw [if_neg hak]
      exact ih h

theorem attr_fold_lookup :
    ∀ (nodes : List (String × NodeAttrs)) (fs : List (String × Int))
      (n : String) (v : Int), lookupK fs n = some v →
      lookupK (nodes.foldl (fun fs p =>
        if (lookupK fs p.1).isSome then fs else fs ++ [(p.1, -1)]) fs) n =
        some v := by
  intro nodes
  induction nodes with
  | nil => exact fun fs n v h => h
  | cons p rest ih =>
    intro fs n v h
    rw [List.foldl_cons]
    refine ih _ n v ?_
    by_cases hp : (lookupK fs p.1).isSome = true
    · rw [if_pos hp]
      exact h
    · rw [if_neg hp]
      exact lookupK_append_some _ h

theorem filterMap_some {α β : Type} (f : α → β) :
    ∀ l : List α, l.filterMap (fun a => some (f a)) = l.map f := by
  intro l
  induction l with
  | nil => rfl
  | cons x xs ih => simp only [List.filterMap_cons, List.map_cons, ih]

theorem keys_map_replace (acc : ScoresMap) (k : String) (l : List NodeScore) :
    (acc.map (fun q => if q.1 = k then (q.1, q.2 ++ l) else q)).map Prod.fst =
      acc.map Prod.fst := by
  induction acc with
  | nil => rfl
  | cons q rest ih =>
    rw [List.map_cons, List.map_cons, List.map_cons, ih]
    by_cases hq : q.1 = k
    · rw [if_pos hq]
    · rw [if_neg hq]

theorem KeysNodup_mergeFold :
    ∀ (bs acc : ScoresMap), KeysNodup acc →
      KeysNodup (bs.foldl (fun acc p =>
        if (lookupK acc p.1).isSome then
          acc.map (fun q => if q.1 = p.1 then (q.1, q.2 ++ p.2) else q)
        else acc ++ [p]) acc) := by
  intro bs
  induction bs with
  | nil => exact fun acc h => h
  | cons p rest ih =>
    intro acc h
    rw [List.foldl_cons]
    refine ih _ ?_
    by_cases hl : (lookupK acc p.1).isSome = true
    · rw [if_pos hl]
      show ((acc.map (fun q =>
        if q.1 = p.1 then (q.1, q.2 ++ p.2) else q)).map Prod.fst).Nodup
      rw [keys_map_replace]
      exact h
    · rw [if_neg hl]
      have hnin : p.1 ∉ acc.map Prod.fst := by
        intro hm
        rcases List.mem_map.mp hm with ⟨q, hq, hq1⟩
        have hq2 := mem_lookupK_isSome hq
        rw [hq1] at hq2
        exact hl hq2
      show ((acc ++ [p]).map Prod.fst).Nodup
      rw [List.map_append]
      exact nodup_snoc h hnin

theorem merge_ok_scores {A B C : NodeScoringObjective}
    (hnd : KeysNodup B.node_scores) (h : A.merge B = .ok C) (n : String) :
    scoresOf C.node_scores n =
      scoresOf A.node_scores n ++ scoresOf B.node_scores n := by
  rw [NodeScoringObjective.merge] at h
  split at h
  · exact Except.noConfusion h
  · have hC := (Except.ok.inj h).symm
    subst hC
    exact merge_fold_spec B.node_scores A.node_scores hnd n

theorem merge_ok_nodup {A B C : NodeScoringObjective}
    (hndA : KeysNodup A.node_scores) (h : A.merge B = .ok C) :
    KeysNodup C.node_scores := by
  rw [NodeScoringObjective.merge] at h
  split at h
  · exact Except.noConfusion h
  · have hC := (Except.ok.inj h).symm
    subst hC
    exact KeysNodup_mergeFold B.node_scores A.node_scores hndA

theorem gns_none (o : NodeScoringObjective) :
    o.get_node_scores none =
      sortByKey (fun r : String × Int × List NodeScore => r.2.1)
      (o.node_scores.map (fun p => (p.1, totalOf p.2,
        sortByKey (fun s => s.score) p.2))) := by
  show sortByKey (fun r : String × Int × List NodeScore => r.2.1)
    (o.node_scores.filterMap (fun p =>
      some (p.1, totalOf p.2, sortByKey (fun s => s.score) p.2))) = _
  exact congrArg (sortByKey (fun r : String × Int × List NodeScore => r.2.1))
    (filterMap_some _ _)

theorem gns_base_lookup (o : NodeScoringObjective)
    (hnd : KeysNodup o.node_scores) {n : String} {l : List NodeScore}
    (hl : lookupK o.node_scores n = some l) :
    lookupK ((o.get_node_scores none).map (fun r => (r.1, r.2.1))) n =
      some (totalOf l) := by
  rw [gns_none]
  have hperm := sortByKey_perm (fun r : String × Int × List NodeScore => r.2.1)
    (o.node_scores.map (fun p => (p.1, totalOf p.2,
      sortByKey (fun s => s.score) p.2)))
  have hpermb := hperm.map (fun r : String × Int × List NodeScore =>
    (r.1, r.2.1))
  have hmm : ((o.node_scores.map (fun p => (p.1, totalOf p.2,
      sortByKey (fun s => s.score) p.2))).map
      (fun r : String × Int × List NodeScore => (r.1, r.2.1))) =
      o.node_scores.map (fun p => (p.1, totalOf p.2)) := by
    rw [List.map_map]
    rfl
  rw [hmm] at hpermb
  have hkp := hpermb.map Prod.fst
  have hk2 : (o.node_scores.map (fun p => (p.1, totalOf p.2))).map Prod.fst =
      o.node_scores.map Prod.fst := by
    rw [List.map_map]
    rfl
  rw [hk2] at hkp
  have hkeys := hkp.nodup_iff.mpr hnd
  have hmem : (n, totalOf l) ∈ (sortByKey
      (fun r : String × Int × List NodeScore => r.2.1)
      (o.node_scores.map (fun p => (p.1, totalOf p.2,
        sortByKey (fun s => s.score) p.2)))).map
      (fun r : String × Int × List NodeScore => (r.1, r.2.1)) := by
    refine hpermb.mem_iff.mpr ?_
    exact List.mem_map.mpr ⟨(n, l), lookupK_mem hl, rfl⟩
  exact lookupK_of_mem_nodup hkeys hmem

theorem scoresOf_isSome {m : ScoresMap} {n : String}
    (h : scoresOf m n ≠ []) : lookupK m n = some (scoresOf m n) := by
  cases hl : lookupK m n with
  | none =>
    exfalso
    apply h
    rw [scoresOf, hl]
  | some l =>
    rw [scoresOf, hl]

theorem scoreAttrDict_lookup (o : NodeScoringObjective) (g : PyDiGraph)
    (hnd : KeysNodup o.node_scores) {n : String} {l : List NodeScore}
    (hl : lookupK o.node_scores n = some l) :
    lookupK (scoreAttrDict o g) n = some (totalOf l) := by
  rw [scoreAttrDict]
  exact attr_fold_lookup g.nodes _ n _ (gns_base_lookup o hnd hl)

theorem dq_count_pos {L : List NodeScore} {sc : NodeScore} (hmem : sc ∈ L)
    (hsc : sc.score = -100000) : 1 ≤ dqCountL L := by
  rw [dqCountL]
  have hm : sc ∈ L.filter (fun sc => decide (sc.score = -100000)) :=
    List.mem_filter.mpr ⟨hmem, decide_eq_true hsc⟩
  have hpos := List.length_pos.mpr (List.ne_nil_of_mem hm)
  omega

theorem comp3 {s : CompositeState} (h : s.map Prod.fst = defaultScorers) :
    ∃ a b c, s = [(ScorerKind.typeBased _DEFAULT_TYPE_SCORING, a),
      (ScorerKind.keyDq, b),
      (ScorerKind.keywordBased _DEFAULT_KEYWORD_SCORING, c)] := by
  cases s with
  | nil => exact List.noConfusion h
  | cons p1 s1 =>
    cases s1 with
    | nil =>
      rw [List.map_cons, List.map_nil] at h
      injection h with h1 h2
      exact List.noConfusion h2
    | cons p2 s2 =>
      cases s2 with
      | nil =>
        rw [List.map_cons, List.map_cons, List.map_nil] at h
        injection h with h1 hr
        injection hr with h2 hr2
        exact List.noConfusion hr2
      | cons p3 s3 =>
        cases s3 with
        | cons p4 s4 =>
          rw [List.map_cons, List.map_cons, List.map_cons, List.map_cons] at h
          injection h with h1 hr
          injection hr with h2 hr2
          injection hr2 with h3 hr3
          exact List.noConfusion hr3
        | nil =>
          rw [List.map_cons, List.map_cons, List.map_cons, List.map_nil] at h
          injection h with h1 hr
          injection hr with h2 hr2
          injection hr2 with h3 hr3
          refine ⟨p1.2, p2.2, p3.2, ?_⟩
          rw [← h1, ← h2, ← h3]

/-- C2: disqualification dominance.  For any metadata store whose key
partitions are shaped and duplicate-free and whose foreign keys have existing
endpoints, if the graph is built, the default composite scoring traversal
completes with final state `final`, its fact objective merges to `factObj`,
and add_fact_and_dim_scores returns the attribute dicts (fd, dd), then every
node holding at least one disqualification (-100000 sentinel) in the fact
objective has a total fact score at most 0, and that total is exactly the
fact_score attribute the run writes for the node. -/
theorem c2_disqualification_dominance
    (md : DatabaseGraphMetadata) (g : PyDiGraph)
    (hfac : _full_graph_factory md false = .ok g)
    (hS : KeysShaped md) (hF : FkEndpointsOk md)
    (hTN : KeysNodup md.tables) (hCN : KeysNodup md.columns)
    (fuel : Nat) (final : CompositeState) (factObj : NodeScoringObjective)
    (fd dd : List (String × Int))
    (hrun : accept_visitor g md compositeGraphVisitor [] fuel
      (defaultScorers.map (fun k => (k, initialScorerState))) = .ok final)
    (hfact : compositeFactScoring final = .ok factObj)
    (hadd : add_fact_and_dim_scores g md defaultScorers fuel = .ok (fd, dd))
    (n : String)
    (hdq : ∃ sc ∈ scoresOf factObj.node_scores n, sc.score = -100000) :
    totalOf (scoresOf factObj.node_scores n) ≤ 0 ∧
    lookupK fd n = some (totalOf (scoresOf factObj.node_scores n)) := by
  have hI : GInv md g := factory_GInv md g hfac hF
  obtain ⟨hCB, hPk, hFkI⟩ := factory_counts md g hfac hTN hCN
  have hinitmap : (defaultScorers.map (fun k => (k, initialScorerState))).map
      Prod.fst = defaultScorers := rfl
  have hinitnd : ∀ p ∈ defaultScorers.map (fun k => (k, initialScorerState)),
      KeysNodup p.2.fact_scoring.node_scores := by
    intro p hp
    rcases List.mem_map.mp hp with ⟨k, -, rfl⟩
    exact List.nodup_nil
  have hrun' : visitLoop g md compositeGraphVisitor [] fuel
      (defaultScorers.map (fun k => (k, initialScorerState)))
      (rootEntries g).reverse = .ok final := hrun
  obtain ⟨hm3, hnd3, hphi3⟩ := visitLoop_phi md g hI hS n fuel
    (rootEntries g).reverse
    (defaultScorers.map (fun k => (k, initialScorerState))) final
    hinitmap hinitnd hrun'
  have hcap := rootCap_le md g hI hCB hPk hFkI n
  have hinitphi : compPhi (defaultScorers.map
      (fun k => (k, initialScorerState))) n = 0 := rfl
  obtain ⟨a, b, c, hfin⟩ := comp3 hm3
  subst hfin
  have hnda : KeysNodup a.fact_scoring.node_scores :=
    hnd3 _ (List.mem_cons_self _ _)
  have hndb : KeysNodup b.fact_scoring.node_scores :=
    hnd3 _ (List.mem_cons_of_mem _ (List.mem_cons_self _ _))
  have hndc : KeysNodup c.fact_scoring.node_scores :=
    hnd3 _ (List.mem_cons_of_mem _ (List.mem_cons_of_mem _
      (List.mem_cons_self _ _)))
  have hf2 : ((a.fact_scoring.merge b.fact_scoring) >>= fun m1 =>
      (m1.merge c.fact_scoring) >>= fun m2 =>
        (pure m2 : Except String NodeScoringObjective)) = .ok factObj := hfact
  cases hm1 : a.fact_scoring.merge b.fact_scoring with
  | error err =>
    rw [hm1] at hf2
    exact Except.noConfusion hf2
  | ok m1 =>
    rw [hm1] at hf2
    have hf3 : ((m1.merge c.fact_scoring) >>= fun m2 =>
        (pure m2 : Except String NodeScoringObjective)) = .ok factObj := hf2
    cases hm2 : m1.merge c.fact_scoring with
    | error err =>
      rw [hm2] at hf3
      exact Except.noConfusion hf3
    | ok m2 =>
      rw [hm2] at hf3
      cases Except.ok.inj hf3
      have hs1 := merge_ok_scores hndb hm1
      have hs2 := merge_ok_scores hndc hm2
      have hndm1 : KeysNodup m1.node_scores := merge_ok_nodup hnda hm1
      have hndm2 : KeysNodup factObj.node_scores := merge_ok_nodup hndm1 hm2
      have hadd2 : (accept_visitor g md compositeGraphVisitor [] fuel
          (defaultScorers.map (fun k => (k, initialScorerState))) >>=
          fun fl => compositeFactScoring fl >>= fun fo =>
          compositeDimensionScoring fl >>= fun dObj =>
          (pure (scoreAttrDict fo g, scoreAttrDict dObj g) :
            Except String (List (String × Int) × List (String × Int)))) =
          .ok (fd, dd) := hadd
      rw [hrun] at hadd2
      have hadd3 : (compositeFactScoring
          [(ScorerKind.typeBased _DEFAULT_TYPE_SCORING, a),
           (ScorerKind.keyDq, b),
           (ScorerKind.keywordBased _DEFAULT_KEYWORD_SCORING, c)] >>=
          fun fo => compositeDimensionScoring
            [(ScorerKind.typeBased _DEFAULT_TYPE_SCORING, a),
             (ScorerKind.keyDq, b),
             (ScorerKind.keywordBased _DEFAULT_KEYWORD_SCORING, c)] >>=
          fun dObj =>
          (pure (scoreAttrDict fo g, scoreAttrDict dObj g) :
            Except String (List (String × Int) × List (String × Int)))) =
          .ok (fd, dd) := hadd2
      rw [hfact] at hadd3
      have hadd4 : (compositeDimensionScoring
          [(ScorerKind.typeBased _DEFAULT_TYPE_SCORING, a),
           (ScorerKind.keyDq, b),
           (ScorerKind.keywordBased _DEFAULT_KEYWORD_SCORING, c)] >>=
          fun dObj =>
          (pure (scoreAttrDict factObj g, scoreAttrDict dObj g) :
            Except String (List (String × Int) × List (String × Int)))) =
          .ok (fd, dd) := hadd3
      cases hdim : compositeDimensionScoring
          [(ScorerKind.typeBased _DEFAULT_TYPE_SCORING, a),
           (ScorerKind.keyDq, b),
           (ScorerKind.keywordBased _DEFAULT_KEYWORD_SCORING, c)] with
      | error err =>
        rw [hdim] at hadd4
        exact Except.noConfusion hadd4
      | ok dObj =>
        rw [hdim] at hadd4
        have hpair := Except.ok.inj hadd4
        injection hpair with hfd hdd
        have hphiobj : phiOf (scoresOf factObj.node_scores n) ≤ 6900 := by
          have e3 : phiOf (scoresOf factObj.node_scores n) =
              phiOf (scoresOf m1.node_scores n) +
              phiOf (scoresOf c.fact_scoring.node_scores n) := by
            rw [hs2 n, phiOf_append]
          have e4 : phiOf (scoresOf m1.node_scores n) =
              phiOf (scoresOf a.fact_scoring.node_scores n) +
              phiOf (scoresOf b.fact_scoring.node_scores n) := by
            rw [hs1 n, phiOf_append]
          have e5 : compPhi [(ScorerKind.typeBased _DEFAULT_TYPE_SCORING, a),
              (ScorerKind.keyDq, b),
              (ScorerKind.keywordBased _DEFAULT_KEYWORD_SCORING, c)] n =
              phiOf (scoresOf a.fact_scoring.node_scores n) +
              (phiOf (scoresOf b.fact_scoring.node_scores n) +
              (phiOf (scoresOf c.fact_scoring.node_scores n) + 0)) := by
            rw [compPhi_cons, compPhi_cons, compPhi_cons, compPhi_nil]
            rfl
          rw [hinitphi] at hphi3
          omega
        obtain ⟨sc, hmem, hsc⟩ := hdq
        have hdqpos := dq_count_pos hmem hsc
        have hphidef : phiOf (scoresOf factObj.node_scores n) =
            totalOf (scoresOf factObj.node_scores n) +
            100000 * (dqCountL (scoresOf factObj.node_scores n) : Int) := rfl
        have htot : totalOf (scoresOf factObj.node_scores n) ≤ 0 := by omega
        refine ⟨htot, ?_⟩
        rw [← hfd]
        have hne : scoresOf factObj.node_scores n ≠ [] := List.ne_nil_of_mem hmem
        exact scoreAttrDict_lookup factObj g hndm2 (scoresOf_isSome hne)

def c2WColRow : MetadataColumnRow :=
  ⟨"c", some "s", "sales", "note", 3, "VARCHAR", some 10, none, some 2, none, 1,
   none, none, none, none, none, 1, some "YES", none, none, none, none, none, none⟩

def c2WMd : DatabaseGraphMetadata :=
  { schemas := [(schema_id "c" (some "s"), ⟨some "s", "c"⟩)],
    tables := [(table_id "c" (some "s") "sales",
      ⟨"c", some "s", "sales", some "TABLE", none, none, none, none, none, none⟩)],
    columns := [(column_id "c" (some "s") "sales" "note", c2WColRow)],
    pks := [], fks := [], types := [] }

def c2WG : PyDiGraph :=
  match _full_graph_factory c2WMd false with
  | .ok g => g
  | .error _ => ⟨[], []⟩

def c2WFinal : CompositeState :=
  match accept_visitor c2WG c2WMd compositeGraphVisitor [] 100
      (defaultScorers.map (fun k => (k, initialScorerState))) with
  | .ok s => s
  | .error _ => []

def c2WFact : NodeScoringObjective :=
  match compositeFactScoring c2WFinal with
  | .ok o => o
  | .error _ => ⟨"", []⟩

def c2WPair : List (String × Int) × List (String × Int) :=
  match add_fact_and_dim_scores c2WG c2WMd defaultScorers 100 with
  | .ok pr => pr
  | .error _ => ([], [])

def c2WColId : String := column_id "c" (some "s") "sales" "note"

/-- Witness for C2: the VARCHAR column sales.note is disqualified by the type
scorer, its fact total is at most 0 and equals the written attribute. -/
theorem c2_disqualification_dominance_witness :
    totalOf (scoresOf c2WFact.node_scores c2WColId) ≤ 0 ∧
    lookupK c2WPair.1 c2WColId =
      some (totalOf (scoresOf c2WFact.node_scores c2WColId)) :=
  c2_disqualification_dominance c2WMd c2WG rfl (by decide) (by decide)
    (by decide) (by decide) 100 c2WFinal c2WFact c2WPair.1 c2WPair.2 rfl rfl
    rfl c2WColId (by decide)

end SchemaAnalyzer
